import Mathlib

/-!
Verification of the frequent contiguous sequential pattern miner
(`Scripts/freqsubseq.py`).  The Python trie (`Tree`), the Apriori pass
(`run_apriori`), the position-queue pass (`run_position`) and the driver
(`frequent_patterns`) are embedded as executable Lean functions, and the
documented properties are proved about them.
-/

namespace FSPM

/-- The four nucleotide symbols, the alphabet of all patterns
(the `NUCLEOTIDES` tuple of the source, in its fixed order A, C, T, G). -/
inductive NC where
  | A | C | T | G
deriving DecidableEq, Repr

/-- A sequential pattern: a finite string over the nucleotide alphabet. -/
abbrev Pat := List NC

/-- A corpus: the (finite) list of sequences yielded by `data.items()`. -/
abbrev Corpus := List Pat

/-- The list of the four nucleotides in the source's fixed iteration order. -/
def nucleotides : List NC := [NC.A, NC.C, NC.T, NC.G]

/-- A node of the pattern trie (`class Tree` of the source): the pattern
`seq` spelled by the path, an optional support `count`, an optional dense
pattern index `idx`, and at most one child per nucleotide (the source keeps
children as dynamic attributes named A, C, T, G). -/
inductive Tree where
  | node (seq : Pat) (count : Option Int) (idx : Option Nat)
      (chA chC chT chG : Option Tree) : Tree
deriving Repr

namespace Tree

/-- The pattern stored at a node. -/
def seq : Tree → Pat
  | .node s _ _ _ _ _ _ => s

/-- The optional support count of a node. -/
def count : Tree → Option Int
  | .node _ c _ _ _ _ _ => c

/-- The optional pattern index of a node. -/
def idx : Tree → Option Nat
  | .node _ _ i _ _ _ _ => i

/-- The child of a node along one nucleotide (`getattr(self, nc)`), if any. -/
def child : Tree → NC → Option Tree
  | .node _ _ _ a _ _ _, .A => a
  | .node _ _ _ _ c _ _, .C => c
  | .node _ _ _ _ _ t _, .T => t
  | .node _ _ _ _ _ _ g, .G => g

/-- Replace the child of a node along one nucleotide (`setattr(self, nc, t)`). -/
def setChild : Tree → NC → Tree → Tree
  | .node s c i _ b t g, .A, x => .node s c i (some x) b t g
  | .node s c i a _ t g, .C, x => .node s c i a (some x) t g
  | .node s c i a b _ g, .T, x => .node s c i a b (some x) g
  | .node s c i a b t _, .G, x => .node s c i a b t (some x)

/-- A fresh childless node for a pattern, as built by `Tree(self.seq + nc)`. -/
def leaf (s : Pat) : Tree := .node s none none none none none none

/-- Add `c` to the count of a node, initiating it when absent
(`self.count = self.count + count if hasattr(self, 'count') else count`). -/
def bumpCount : Tree → Int → Tree
  | .node s c i a b t g, d => .node s (some (c.getD 0 + d)) i a b t g

/-- Set the `idx` attribute of a node (`setattr(self, 'idx', v)`). -/
def setIdx : Tree → Nat → Tree
  | .node s c _ a b t g, v => .node s c (some v) a b t g

/-- The `Tree.add` method: walk the path spelled by the suffix, creating
missing nodes, and at the destination optionally bump the count and
optionally set the `idx` attribute (the only attribute the source ever
passes in `attr_val`). -/
def add : Tree → Pat → Option Int → Option Nat → Tree
  | t, [], c?, i? =>
    let t1 := match c? with
      | some c => t.bumpCount c
      | none => t
    match i? with
    | some i => t1.setIdx i
    | none => t1
  | t, nc :: rest, c?, i? =>
    let ch := match t.child nc with
      | some ch => ch
      | none => Tree.leaf (t.seq ++ [nc])
    t.setChild nc (ch.add rest c? i?)

/-- The `Tree.pattern` method: the node reached by the suffix, `none` in
place of the `PatternNotFound` exception. -/
def pattern : Tree → Pat → Option Tree
  | t, [] => some t
  | t, nc :: rest =>
    match t.child nc with
    | some ch => ch.pattern rest
    | none => none

/-- The `Tree.increment_count` method: bump the count at the node reached
by the suffix; when the path is absent the `PatternNotFound` exception is
swallowed and the trie is left unchanged. -/
def increment_count : Tree → Pat → Int → Tree
  | t, [], c => t.bumpCount c
  | t, nc :: rest, c =>
    match t.child nc with
    | some ch => t.setChild nc (ch.increment_count rest c)
    | none => t

/-- The `Tree.has_count_at_least` method: whether a count is present and
not less than the threshold. -/
def has_count_at_least (t : Tree) (thrd : Int) : Bool :=
  match t.count with
  | some c => thrd ≤ c
  | none => false

/-- The `Tree.all_children` method: the existing children in the fixed
nucleotide order A, C, T, G. -/
def all_children (t : Tree) : List Tree :=
  nucleotides.filterMap t.child

mutual

/-- The `Tree.all_nodes` method: the node itself followed by the nodes of
the children's subtrees, children taken in the fixed A, C, T, G order
(the recursion through an optional child is split out as `optNodes` so
that the equations stay usable). -/
def all_nodes : Tree → List Tree
  | .node s c i a b t g =>
    Tree.node s c i a b t g ::
      (optNodes a ++ (optNodes b ++ (optNodes t ++ optNodes g)))

/-- The nodes of an optional subtree: none gives the empty list. -/
def optNodes : Option Tree → List Tree
  | none => []
  | some t => t.all_nodes

end

/-- The `Tree.all_patterns_at_least` method: the (pattern, count) pairs of
every node whose count is present and at least the threshold, in
`all_nodes` order. -/
def all_patterns_at_least (t : Tree) (thrd : Int) : List (Pat × Int) :=
  t.all_nodes.filterMap fun n =>
    if n.has_count_at_least thrd then n.count.map fun c => (n.seq, c)
    else none

/-- The `Tree.nodes_at_level` method: all nodes at the given depth, in
depth-first order with children in the fixed A, C, T, G order. -/
def nodes_at_level : Tree → Nat → List Tree
  | t, 0 => [t]
  | t, l + 1 => t.all_children.flatMap fun ch => ch.nodes_at_level l

/-- The number of nodes of a trie; only used as a termination measure for
structural induction over the nested inductive. -/
def size (t : Tree) : Nat := t.all_nodes.length

/-- The count stored at the end of a path, if both the node and its count
attribute exist. -/
def countAt (t : Tree) (p : Pat) : Option Int := (t.pattern p).bind Tree.count

/-- The index stored at the end of a path, if both the node and its idx
attribute exist. -/
def idxAt (t : Tree) (p : Pat) : Option Nat := (t.pattern p).bind Tree.idx

/-- Whether a path is present in the trie. -/
def memP (t : Tree) (p : Pat) : Bool := (t.pattern p).isSome

/-- The part of the path-spelling invariant used everywhere: every node
reached by a path spells its subtree root's pattern extended by the path. -/
def SeqOK (t : Tree) : Prop := ∀ p n, t.pattern p = some n → n.seq = t.seq ++ p


end Tree

/-- Whether the first pattern is a prefix of the second (the paths that a
call `add s` creates are exactly those leading to `s`). -/
def leads : Pat → Pat → Bool
  | [], _ => true
  | _ :: _, [] => false
  | a :: q, b :: r => a = b && leads q r

/-- The number of elements of a list of patterns equal to a given pattern
(the multiplicity used by the counting lemmas). -/
def pcount : List Pat → Pat → Nat
  | [], _ => 0
  | q :: l, p => (if q = p then 1 else 0) + pcount l p

/-- Folding `add _ 1` over a list of patterns (the inner loop of
`initialized_tree`). -/
def addOnes (t : Tree) (l : List Pat) : Tree :=
  l.foldl (fun tr q => tr.add q (some 1) none) t

/-- Folding a structural `add` (no count, no idx) over a list of patterns
(the candidate-insertion loop of `run_apriori`). -/
def addPlain (t : Tree) (l : List Pat) : Tree :=
  l.foldl (fun tr q => tr.add q none none) t

/-- Folding `increment_count _ 1` over a list of patterns (the scan loop of
`run_apriori`, and the count updates of the position join). -/
def incOnes (t : Tree) (l : List Pat) : Tree :=
  l.foldl (fun tr q => tr.increment_count q 1) t

/-- The `subsequences` generator: every window `seq[i:i+len]` of the given
length, for `i` in `range(n - len + 1)` (written `n + 1 - len` so that the
truncated subtraction agrees with the empty Python range when the window
is longer than the sequence). -/
def subsequences (s : Pat) (len : Nat) : List Pat :=
  (List.range (s.length + 1 - len)).map fun i => (s.drop i).take len

/-- The `initialized_tree` function: one pass through the data adding every
window of the given length with a count increment of 1. -/
def initial_tree (data : Corpus) (len : Nat) : Tree :=
  data.foldl
    (fun tree s => (subsequences s len).foldl
      (fun tr sub => tr.add sub (some 1) none) tree)
    (Tree.leaf [])

/-- The `candidates` generator: for every frequent node at level `len - 1`
(the prefix), look up the node of the prefix without its first symbol and
join it with each of that node's frequent children (the suffixes), yielding
prefix ++ last symbol of the suffix. -/
def candidates (tree : Tree) (len : Nat) (thrd : Int) : List Pat :=
  (tree.nodes_at_level (len - 1)).flatMap fun node_p =>
    if node_p.has_count_at_least thrd then
      match tree.pattern (node_p.seq.drop 1) with
      | none => []
      | some node_i =>
        node_i.all_children.filterMap fun node_s =>
          if node_s.has_count_at_least thrd then
            some (node_p.seq ++ node_s.seq.drop (node_s.seq.length - 1))
          else none
    else []

/-- The `run_apriori` function: add all candidate patterns structurally,
then pass the data once incrementing the count of every stored window of
the given length.  The source interleaves the candidate generator with the
`tree.add` calls; this is equivalent to materialising the candidate list
first because each `add` only creates nodes one level below every node the
generator inspects. -/
def run_apriori (data : Corpus) (tree : Tree) (len : Nat) (thrd : Int) : Tree :=
  let t1 := (candidates tree len thrd).foldl (fun tr s => tr.add s none none) tree
  data.foldl
    (fun tr s => (subsequences s len).foldl
      (fun t2 sub => t2.increment_count sub 1) tr)
    t1

/-- Structural core of `assign_pattern_index`: walk the subtree, and at
relative depth `len` give each node whose count reaches the threshold the
next index from the running counter `i`, returning the updated subtree and
counter.  Children are visited in the fixed A, C, T, G order, matching the
enumeration order of `nodes_at_level`. -/
def Tree.assignIdxAux : Tree → Nat → Int → Nat → Tree × Nat
  | t, 0, thrd, i =>
    if t.has_count_at_least thrd then (t.setIdx i, i + 1) else (t, i)
  | t, l + 1, thrd, i =>
    nucleotides.foldl
      (fun (acc : Tree × Nat) nc =>
        match acc.1.child nc with
        | some ch =>
          let p := ch.assignIdxAux l thrd acc.2
          (acc.1.setChild nc p.1, p.2)
        | none => acc)
      (t, i)

/-- The `assign_pattern_index` function: give the frequent nodes at the
given level the dense indices 0, 1, 2, ... in `nodes_at_level` order. -/
def assign_pattern_index (tree : Tree) (len : Nat) (thrd : Int) : Tree :=
  (tree.assignIdxAux len thrd 0).1

/-- A record of the position queue: (sequence id, offset, pattern index). -/
abbrev QRec := Nat × Nat × Nat

/-- Pair each element of a list with its position, starting the counter at
`j` (the shape produced by Python's `enumerate`, and by the running `idx`
counter of `candidate_mappings`). -/
def withPos {α : Type} : Nat → List α → List (Nat × α)
  | _, [] => []
  | j, a :: rest => (j, a) :: withPos (j + 1) rest

/-- The `initialized_queue` function: one pass through the data appending,
for every window of the given length whose trie node exists and is
frequent, the record (sequence id, offset, node.idx).  The source assumes
(and documents) that every frequent node carries `idx`; a missing index is
read as 0 here, a case no reachable state exercises. -/
def initial_queue (data : Corpus) (tree : Tree) (len : Nat) (thrd : Int) :
    List QRec :=
  (withPos 0 data).flatMap fun idseq =>
    (withPos 0 (subsequences idseq.2 len)).filterMap fun possub =>
      match tree.pattern possub.2 with
      | some node =>
        if node.has_count_at_least thrd then
          some (idseq.1, possub.1, node.idx.getD 0)
        else none
      | none => none

/-- The (pattern, prefix index, suffix index) triples enumerated by the
`candidate_mappings` generator, before the running candidate index is
attached. -/
def cand_triples (tree : Tree) (len : Nat) (thrd : Int) :
    List (Pat × Nat × Nat) :=
  (tree.nodes_at_level (len - 1)).flatMap fun node_p =>
    if node_p.has_count_at_least thrd then
      match tree.pattern (node_p.seq.drop 1) with
      | none => []
      | some node_i =>
        node_i.all_children.filterMap fun node_s =>
          if node_s.has_count_at_least thrd then
            some (node_p.seq ++ node_s.seq.drop (node_s.seq.length - 1),
                  node_p.idx.getD 0, node_s.idx.getD 0)
          else none
    else []

/-- The `candidate_mappings` generator: the same (prefix, suffix) join as
`candidates`, yielding for each candidate its pattern, the pair of the
prefix and suffix indices, and the running candidate index 0, 1, 2, ...
As in `initialized_queue`, an absent `idx` attribute is read as 0. -/
def candidate_mappings (tree : Tree) (len : Nat) (thrd : Int) :
    List (Pat × (Nat × Nat) × Nat) :=
  (withPos 0 (cand_triples tree len thrd)).map fun e =>
    (e.2.1, (e.2.2.1, e.2.2.2), e.1)

/-- Lookup in an association list built by prepending, so that a later
binding shadows an earlier one exactly as assignment into a Python dict
does (no key is in fact ever bound twice in a run). -/
def dictFind {α β : Type} [DecidableEq α] : List (α × β) → α → Option β
  | [], _ => none
  | (k, v) :: rest, key => if k = key then some v else dictFind rest key

/-- One comparison of the scan loop of `run_position`: when the two records
sit in the same sequence at consecutive offsets and their index pair is a
key of the candidate index map, the record of the matched candidate. -/
def emitHit (imap : List ((Nat × Nat) × Nat)) (a b : QRec) : Option QRec :=
  if b.1 = a.1 ∧ b.2.1 - a.2.1 = 1 then
    match dictFind imap (a.2.2, b.2.2) with
    | some cand_idx => some (a.1, a.2.1, cand_idx)
    | none => none
  else none

/-- The records produced by one scan of the queue: one optional hit per
adjacent pair of records. -/
def adjEmits (imap : List ((Nat × Nat) × Nat)) (l : List QRec) : List QRec :=
  (l.zip l.tail).filterMap fun ab => emitHit imap ab.1 ab.2

/-- The scan loop of `run_position`: walk the queue comparing each record
with the next; on a hit, append the candidate's record and increment the
candidate pattern's count in the tree. -/
def posJoin (imap : List ((Nat × Nat) × Nat)) (pats : List (Nat × Pat)) :
    QRec → List QRec → Tree → List QRec × Tree
  | _, [], tree => ([], tree)
  | cur, nxt :: rest, tree =>
    match emitHit imap cur nxt with
    | some r =>
      let tree2 := tree.increment_count ((dictFind pats r.2.2).getD []) 1
      let out := posJoin imap pats nxt rest tree2
      (r :: out.1, out.2)
    | none => posJoin imap pats nxt rest tree

/-- The `run_position` function: an empty queue is returned unchanged with
the tree untouched; otherwise the candidate patterns are added to the tree
with their fresh indices, the index map and candidate-pattern dict are
built, and the adjacency scan produces the next queue and the updated
counts. -/
def run_position (queue : List QRec) (tree : Tree) (len : Nat) (thrd : Int) :
    List QRec × Tree :=
  match queue with
  | [] => ([], tree)
  | cur :: rest =>
    let cms := candidate_mappings tree len thrd
    let tree1 := cms.foldl (fun tr e => tr.add e.1 none (some e.2.2)) tree
    let imap := cms.foldl
      (fun (m : List ((Nat × Nat) × Nat)) e => (e.2.1, e.2.2) :: m) []
    let pats := cms.foldl
      (fun (m : List (Nat × Pat)) e => (e.2.2, e.1) :: m) []
    posJoin imap pats cur rest tree1

/-- The `number_of_freq_subseq` function: the sum of the counts of the
frequent nodes at the given level. -/
def number_of_freq_subseq (tree : Tree) (len : Nat) (thrd : Int) : Int :=
  (tree.nodes_at_level len).foldl
    (fun tot n => if n.has_count_at_least thrd then tot + n.count.getD 0 else tot)
    0

/-- The memory budget for the queue (`MEM_QUEUE` of the source). -/
def MEM_QUEUE : Nat := 8 * 10 ^ 9

/-- The per-record memory estimate (`MEM_PER_ELEM` of the source). -/
def MEM_PER_ELEM : Nat := 80

/-- The maximum queue size (`MAX_SIZE = int(round(MEM_QUEUE / MEM_PER_ELEM))`;
the division is exact, so natural division gives the same 10^8). -/
def MAX_SIZE : Nat := MEM_QUEUE / MEM_PER_ELEM

/-- The three algorithm selectors accepted by `frequent_patterns`. -/
inductive Method where
  | apriori | position | hybrid
deriving DecidableEq, Repr

/-- The `ExceedAllocatedMemory` exception of the source. -/
inductive MineError where
  | exceedAllocatedMemory
deriving DecidableEq, Repr

/-- The mutable state of the `frequent_patterns` loop: the trie, the
position queue, the hybrid `use_apriori` flag, the current length, the
pass counter (`counter.count`), and two instrumentation fields recording
how many Apriori extensions ran and whether the Position path was entered
through the hybrid switch. -/
structure MineState where
  tree : Tree
  queue : List QRec
  useApriori : Bool
  len : Nat
  passes : Nat
  aprioriExts : Nat
  enteredPos : Bool
deriving Repr

/-- One iteration of the `while _len < max_len` loop of
`frequent_patterns`: the hybrid switch check, then the length increment,
then the extension dispatched on the method (Apriori extensions and the
hybrid queue build increment the pass counter; a Position extension does
not). -/
def mineStep (data : Corpus) (thrd : Int) (method : Method)
    (st : MineState) : MineState :=
  let st :=
    if method = .hybrid ∧ st.useApriori
        ∧ number_of_freq_subseq st.tree st.len thrd ≤ (MAX_SIZE : Int) then
      let t2 := assign_pattern_index st.tree st.len thrd
      { st with
          useApriori := false
          tree := t2
          queue := initial_queue data t2 st.len thrd
          passes := st.passes + 1
          enteredPos := true }
    else st
  let len2 := st.len + 1
  match method with
  | .apriori =>
    { st with
        len := len2
        tree := run_apriori data st.tree len2 thrd
        passes := st.passes + 1
        aprioriExts := st.aprioriExts + 1 }
  | .position =>
    let qt := run_position st.queue st.tree len2 thrd
    { st with len := len2, queue := qt.1, tree := qt.2 }
  | .hybrid =>
    if st.useApriori then
      { st with
          len := len2
          tree := run_apriori data st.tree len2 thrd
          passes := st.passes + 1
          aprioriExts := st.aprioriExts + 1 }
    else
      let qt := run_position st.queue st.tree len2 thrd
      { st with len := len2, queue := qt.1, tree := qt.2 }

/-- The `while _len < max_len` loop, with the remaining number of
iterations as fuel (the loop of the source runs exactly
`max_len - min_len` times). -/
def mineLoop (data : Corpus) (thrd : Int) (method : Method) :
    MineState → Nat → MineState
  | st, 0 => st
  | st, fuel + 1 => mineLoop data thrd method (mineStep data thrd method st) fuel

/-- The outcome of `frequent_patterns`: the final loop state together with
the yielded (pattern, count) pairs. -/
structure MineResult where
  state : MineState
  results : List (Pat × Int)
deriving Repr

/-- The `frequent_patterns` function: build the initial tree (one pass),
then per method: Apriori runs the loop directly; Position first checks the
memory budget, raising `ExceedAllocatedMemory` when the frequent-occurrence
total exceeds `MAX_SIZE`, and otherwise assigns indices and builds the
queue (a second pass); Hybrid starts in Apriori mode.  Finally the patterns
with count at least the threshold are yielded. -/
def frequent_patterns (data : Corpus) (min_len max_len : Nat) (thrd : Int)
    (method : Method) : Except MineError MineResult :=
  let tree := initial_tree data min_len
  match method with
  | .position =>
    let num := number_of_freq_subseq tree min_len thrd
    if (MAX_SIZE : Int) < num then .error .exceedAllocatedMemory
    else
      let t2 := assign_pattern_index tree min_len thrd
      let st0 : MineState :=
        ⟨t2, initial_queue data t2 min_len thrd, false, min_len, 2, 0, false⟩
      let fin := mineLoop data thrd .position st0 (max_len - min_len)
      .ok ⟨fin, fin.tree.all_patterns_at_least thrd⟩
  | .apriori =>
    let st0 : MineState := ⟨tree, [], true, min_len, 1, 0, false⟩
    let fin := mineLoop data thrd .apriori st0 (max_len - min_len)
    .ok ⟨fin, fin.tree.all_patterns_at_least thrd⟩
  | .hybrid =>
    let st0 : MineState := ⟨tree, [], true, min_len, 1, 0, false⟩
    let fin := mineLoop data thrd .hybrid st0 (max_len - min_len)
    .ok ⟨fin, fin.tree.all_patterns_at_least thrd⟩

/-- Whether the trie has, at the end of a path, a count reaching the
threshold (the path-level reading of `has_count_at_least`). -/
def freqB (t : Tree) (thrd : Int) (p : Pat) : Bool :=
  ((t.countAt p).map fun c => decide (thrd ≤ c)).getD false

/-- The relative paths of the nodes at a given depth whose count reaches
the threshold, in the traversal order shared by `nodes_at_level` and
`assignIdxAux` (children in the fixed A, C, T, G order). -/
def freqPaths : Tree → Nat → Int → List Pat
  | t, 0, thrd => if t.has_count_at_least thrd then [[]] else []
  | t, l + 1, thrd =>
    nucleotides.flatMap fun nc =>
      match t.child nc with
      | some ch => (freqPaths ch l thrd).map fun q => nc :: q
      | none => []

/-- The position of the first element equal to `w` in a list of patterns. -/
def posOf : List Pat → Pat → Option Nat
  | [], _ => none
  | q :: l, w => if q = w then some 0 else (posOf l w).map fun k => k + 1

/-- A well-formed root tree: the stored pattern of every node spells the
path from the root (always true for the trees the algorithms build). -/
def Rooted (t : Tree) : Prop := t.seq = [] ∧ Tree.SeqOK t

/-- Shift a found position by a base index, with a fallback when nothing
was found (the shape of the index produced by the assignment pass). -/
def idxShift (o : Option Nat) (i0 : Nat) (fallback : Option Nat) : Option Nat :=
  match o with
  | some k => some (i0 + k)
  | none => fallback

/-- The number of occurrences of a pattern in one sequence: the number of
offsets at which the window of the pattern's length equals the pattern. -/
def occSeq (s : Pat) (p : Pat) : Nat :=
  ((List.range (s.length + 1 - p.length)).filter
    fun off => (s.drop off).take p.length = p).length

/-- The number of occurrences of a pattern in the whole corpus: the number
of positions (id, off) with `corpus[id][off : off + len p] = p`. -/
def occ (data : Corpus) (p : Pat) : Nat :=
  (data.map fun s => occSeq s p).sum

/-- A pattern with enough support to be kept: at least one occurrence (so
that a count attribute exists) and a count reaching the threshold. -/
def freqOcc (data : Corpus) (thrd : Int) (p : Pat) : Prop :=
  1 ≤ occ data p ∧ thrd ≤ (occ data p : Int)

/-- Strict document order on queue records: earlier sequence, or the same
sequence and an earlier offset. -/
def recLt (r1 r2 : QRec) : Prop :=
  r1.1 < r2.1 ∨ (r1.1 = r2.1 ∧ r1.2.1 < r2.2.1)

instance (r1 r2 : QRec) : Decidable (recLt r1 r2) := by
  unfold recLt; infer_instance

/-- The window of a sequence at an offset: the slice `s[off : off + len]`
of Python, the unit every pass of the miner counts. -/
def window (s : Pat) (off len : Nat) : Pat := (s.drop off).take len

/-- Folding a structural `add` that stores an index at each listed pattern
(the candidate-insertion fold of `run_position`). -/
def addIdxed (t : Tree) (l : List (Pat × Nat)) : Tree :=
  l.foldl (fun tr e => tr.add e.1 none (some e.2)) t

/-- No node of the tree carries an index (true throughout the Apriori
phase, which never assigns indices). -/
def NoIdx (t : Tree) : Prop := ∀ p, t.idxAt p = none

/-- The counting invariant of the mining loop at current length `L`: the
tree is rooted, every stored count is the exact occurrence total of its
pattern, the pattern has a mined length and occurs at all; conversely
every pattern of a mined length with enough support is stored with its
occurrence total; and no stored path is longer than `L`. -/
structure CountInv (data : Corpus) (thrd : Int) (min_len L : Nat)
    (t : Tree) : Prop where
  rooted : Rooted t
  sound : ∀ p c, t.countAt p = some c →
    min_len ≤ p.length ∧ p.length ≤ L ∧ c = (occ data p : Int) ∧
      1 ≤ occ data p
  complete : ∀ p, min_len ≤ p.length → p.length ≤ L →
    freqOcc data thrd p → t.countAt p = some (occ data p : Int)
  bound : ∀ p, t.memP p = true → p.length ≤ L

/-- The canonical document-ordered queue of the tracked windows of a given
length: one record per position whose window passes the test, carrying a
value computed from the window. -/
def trackQueue (data : Corpus) (len : Nat) (test : Pat → Bool)
    (val : Pat → Nat) : List QRec :=
  (withPos 0 data).flatMap fun idseq =>
    (withPos 0 (subsequences idseq.2 len)).filterMap fun possub =>
      if test possub.2 then some (idseq.1, possub.1, val possub.2) else none

/-- The Position-phase invariant at current length `L`: the counting
invariant, injectivity of the indices stored at level `L`, and a strictly
sorted queue whose records are genuine windows carrying the index stored
at the window node, covering every frequent window. -/
structure PosInv (data : Corpus) (thrd : Int) (min_len L : Nat)
    (t : Tree) (queue : List QRec) : Prop where
  counts : CountInv data thrd min_len L t
  minpos : 1 ≤ min_len
  lmin : min_len ≤ L
  inj : ∀ p q k, p.length = L → q.length = L → t.idxAt p = some k →
    t.idxAt q = some k → p = q
  sorted : queue.Pairwise recLt
  qsound : ∀ r, r ∈ queue → ∃ s, data[r.1]? = some s ∧
    (window s r.2.1 L).length = L ∧ t.idxAt (window s r.2.1 L) = some r.2.2
  qcomplete : ∀ id s off, data[id]? = some s → (window s off L).length = L →
    freqB t thrd (window s off L) = true →
    ∃ k, t.idxAt (window s off L) = some k ∧ (id, off, k) ∈ queue

/-- The candidate-index dictionary built by `run_position`: the key pairs
of the candidate triples bound to the running candidate index, later
bindings first (the fold prepends). -/
def imapOf (t : Tree) (len : Nat) (thrd : Int) : List ((Nat × Nat) × Nat) :=
  ((withPos 0 (cand_triples t len thrd)).map fun e => (e.2.2, e.1)).reverse

/-- The candidate-pattern dictionary built by `run_position`: the running
candidate index bound to the candidate pattern. -/
def patsOf (t : Tree) (len : Nat) (thrd : Int) : List (Nat × Pat) :=
  ((withPos 0 (cand_triples t len thrd)).map fun e => (e.1, e.2.1)).reverse

/-- The (pattern, index) pairs that `run_position` adds to the trie. -/
def candAdds (t : Tree) (len : Nat) (thrd : Int) : List (Pat × Nat) :=
  (withPos 0 (cand_triples t len thrd)).map fun e => (e.2.1, e.1)

/-- The results list of a run, with a failed run contributing nothing. -/
def resultsOf (e : Except MineError MineResult) : List (Pat × Int) :=
  match e with
  | .ok r => r.results
  | .error _ => []

/-- The final loop state of a run, with a failed run contributing an inert
state. -/
def finalState (e : Except MineError MineResult) : MineState :=
  match e with
  | .ok r => r.state
  | .error _ => ⟨Tree.leaf [], [], true, 0, 0, 0, false⟩

/-- The final trie of a run, with a failed run contributing the empty
trie. -/
def finalTree (e : Except MineError MineResult) : Tree :=
  match e with
  | .ok r => r.state.tree
  | .error _ => Tree.leaf []

end FSPM


/-! ### Basic lemmas about the trie operations -/

namespace FSPM

namespace Tree

@[simp] theorem seq_node (s : Pat) (c : Option Int) (i : Option Nat)
    (a b t g : Option Tree) : (Tree.node s c i a b t g).seq = s := rfl

@[simp] theorem count_node (s : Pat) (c : Option Int) (i : Option Nat)
    (a b t g : Option Tree) : (Tree.node s c i a b t g).count = c := rfl

@[simp] theorem idx_node (s : Pat) (c : Option Int) (i : Option Nat)
    (a b t g : Option Tree) : (Tree.node s c i a b t g).idx = i := rfl

@[simp] theorem seq_leaf (s : Pat) : (leaf s).seq = s := rfl

@[simp] theorem count_leaf (s : Pat) : (leaf s).count = none := rfl

@[simp] theorem idx_leaf (s : Pat) : (leaf s).idx = none := rfl

@[simp] theorem child_leaf (s : Pat) (nc : NC) : (leaf s).child nc = none := by
  cases nc <;> rfl

@[simp] theorem seq_setChild (t : Tree) (nc : NC) (x : Tree) :
    (t.setChild nc x).seq = t.seq := by
  cases t; cases nc <;> rfl

@[simp] theorem count_setChild (t : Tree) (nc : NC) (x : Tree) :
    (t.setChild nc x).count = t.count := by
  cases t; cases nc <;> rfl

@[simp] theorem idx_setChild (t : Tree) (nc : NC) (x : Tree) :
    (t.setChild nc x).idx = t.idx := by
  cases t; cases nc <;> rfl

theorem child_setChild (t : Tree) (nc nc2 : NC) (x : Tree) :
    (t.setChild nc x).child nc2 = if nc = nc2 then some x else t.child nc2 := by
  cases t; cases nc <;> cases nc2 <;> rfl

@[simp] theorem child_setChild_same (t : Tree) (nc : NC) (x : Tree) :
    (t.setChild nc x).child nc = some x := by
  simp [child_setChild]

theorem child_setChild_other (t : Tree) {nc nc2 : NC} (h : nc ≠ nc2) (x : Tree) :
    (t.setChild nc x).child nc2 = t.child nc2 := by
  simp [child_setChild, h]

@[simp] theorem seq_bumpCount (t : Tree) (d : Int) : (t.bumpCount d).seq = t.seq := by
  cases t; rfl

@[simp] theorem count_bumpCount (t : Tree) (d : Int) :
    (t.bumpCount d).count = some (t.count.getD 0 + d) := by
  cases t; rfl

@[simp] theorem idx_bumpCount (t : Tree) (d : Int) : (t.bumpCount d).idx = t.idx := by
  cases t; rfl

@[simp] theorem child_bumpCount (t : Tree) (d : Int) (nc : NC) :
    (t.bumpCount d).child nc = t.child nc := by
  cases t; cases nc <;> rfl

@[simp] theorem seq_setIdx (t : Tree) (v : Nat) : (t.setIdx v).seq = t.seq := by
  cases t; rfl

@[simp] theorem count_setIdx (t : Tree) (v : Nat) : (t.setIdx v).count = t.count := by
  cases t; rfl

@[simp] theorem idx_setIdx (t : Tree) (v : Nat) : (t.setIdx v).idx = some v := by
  cases t; rfl

@[simp] theorem child_setIdx (t : Tree) (v : Nat) (nc : NC) :
    (t.setIdx v).child nc = t.child nc := by
  cases t; cases nc <;> rfl

@[simp] theorem pattern_nil (t : Tree) : t.pattern [] = some t := rfl

theorem pattern_cons (t : Tree) (nc : NC) (r : Pat) :
    t.pattern (nc :: r) = (t.child nc).bind fun ch => ch.pattern r := by
  rcases h : t.child nc with _ | ch <;> simp [pattern, h]

theorem pattern_append (t : Tree) (p q : Pat) :
    t.pattern (p ++ q) = (t.pattern p).bind fun n => n.pattern q := by
  induction p generalizing t with
  | nil => simp
  | cons nc r ih =>
    rcases h : t.child nc with _ | ch <;>
      simp [pattern_cons, h, ih]

@[simp] theorem countAt_nil (t : Tree) : t.countAt [] = t.count := by
  simp [countAt]

@[simp] theorem idxAt_nil (t : Tree) : t.idxAt [] = t.idx := by
  simp [idxAt]

@[simp] theorem memP_nil (t : Tree) : t.memP [] = true := by
  simp [memP]

theorem countAt_cons (t : Tree) (nc : NC) (r : Pat) :
    t.countAt (nc :: r) = (t.child nc).bind fun ch => ch.countAt r := by
  rcases h : t.child nc with _ | ch <;> simp [countAt, pattern_cons, h]

theorem idxAt_cons (t : Tree) (nc : NC) (r : Pat) :
    t.idxAt (nc :: r) = (t.child nc).bind fun ch => ch.idxAt r := by
  rcases h : t.child nc with _ | ch <;> simp [idxAt, pattern_cons, h]

theorem memP_cons (t : Tree) (nc : NC) (r : Pat) :
    t.memP (nc :: r) = ((t.child nc).map fun ch => ch.memP r).getD false := by
  rcases h : t.child nc with _ | ch <;> simp [memP, pattern_cons, h]

@[simp] theorem countAt_leaf (p : Pat) : (leaf s).countAt p = none := by
  cases p with
  | nil => simp
  | cons nc r => simp [countAt_cons]

@[simp] theorem idxAt_leaf (p : Pat) : (leaf s).idxAt p = none := by
  cases p with
  | nil => simp [leaf, idxAt]
  | cons nc r => simp [idxAt_cons]

theorem memP_leaf (p : Pat) : (leaf s).memP p = (p = []) := by
  cases p with
  | nil => simp
  | cons nc r => simp [memP_cons]

/-- Subtree sizes shrink along child edges, giving a usable induction
measure for the nested inductive. -/
theorem size_child_lt {t x : Tree} {nc : NC} (h : t.child nc = some x) :
    x.size < t.size := by
  cases t with
  | node s c i a b tt g =>
    cases nc <;> simp [child] at h <;> subst h <;>
      simp [size, all_nodes, optNodes] <;> omega

/-- Structural induction principle for the trie, via the size measure. -/
theorem treeInd (motive : Tree → Prop)
    (h : ∀ s c i a b tt g,
      (∀ nc x, (Tree.node s c i a b tt g).child nc = some x → motive x) →
      motive (Tree.node s c i a b tt g)) :
    ∀ t, motive t := by
  have key : ∀ n (t : Tree), t.size ≤ n → motive t := by
    intro n
    induction n with
    | zero =>
      intro t hle
      match t with
      | .node s c i a b tt g => simp [size, all_nodes] at hle
    | succ n ih =>
      intro t hle
      match t with
      | .node s c i a b tt g =>
        exact h s c i a b tt g fun nc x hx =>
          ih x (by have := size_child_lt hx; omega)
  intro t; exact key t.size t le_rfl

end Tree

end FSPM

/-! ### Effect of `add` and `increment_count` on the path views -/

namespace FSPM

namespace Tree

theorem seq_add (t : Tree) (s : Pat) (c? : Option Int) (i? : Option Nat) :
    (t.add s c? i?).seq = t.seq := by
  cases s with
  | nil => cases c? <;> cases i? <;> simp [add]
  | cons nc s' => rcases hch : t.child nc with _ | ch <;> simp [add, hch]

theorem countAt_add (t : Tree) (s : Pat) (c? : Option Int) (i? : Option Nat)
    (q : Pat) :
    (t.add s c? i?).countAt q =
      if q = s then
        match c? with
        | some c => some ((t.countAt s).getD 0 + c)
        | none => t.countAt s
      else t.countAt q := by
  induction s generalizing t q with
  | nil =>
    cases q with
    | nil => cases c? <;> cases i? <;> simp [add]
    | cons nc r => cases c? <;> cases i? <;> simp [add, countAt_cons]
  | cons nc s' ih =>
    rcases hch : t.child nc with _ | ch
    · cases q with
      | nil => simp [add, hch]
      | cons nc2 r =>
        by_cases hnc : nc = nc2
        · subst hnc
          simp [add, hch, countAt_cons, ih]
        · simp [add, hch, countAt_cons, child_setChild_other _ hnc,
            List.cons.injEq, Ne.symm hnc]
    · cases q with
      | nil => simp [add, hch]
      | cons nc2 r =>
        by_cases hnc : nc = nc2
        · subst hnc
          simp [add, hch, countAt_cons, ih]
        · simp [add, hch, countAt_cons, child_setChild_other _ hnc,
            List.cons.injEq, Ne.symm hnc]

theorem idxAt_add (t : Tree) (s : Pat) (c? : Option Int) (i? : Option Nat)
    (q : Pat) :
    (t.add s c? i?).idxAt q =
      if q = s then
        match i? with
        | some i => some i
        | none => t.idxAt s
      else t.idxAt q := by
  induction s generalizing t q with
  | nil =>
    cases q with
    | nil => cases c? <;> cases i? <;> simp [add]
    | cons nc r => cases c? <;> cases i? <;> simp [add, idxAt_cons]
  | cons nc s' ih =>
    rcases hch : t.child nc with _ | ch
    · cases q with
      | nil => simp [add, hch]
      | cons nc2 r =>
        by_cases hnc : nc = nc2
        · subst hnc
          simp [add, hch, idxAt_cons, ih]
        · simp [add, hch, idxAt_cons, child_setChild_other _ hnc,
            List.cons.injEq, Ne.symm hnc]
    · cases q with
      | nil => simp [add, hch]
      | cons nc2 r =>
        by_cases hnc : nc = nc2
        · subst hnc
          simp [add, hch, idxAt_cons, ih]
        · simp [add, hch, idxAt_cons, child_setChild_other _ hnc,
            List.cons.injEq, Ne.symm hnc]

theorem memP_add (t : Tree) (s : Pat) (c? : Option Int) (i? : Option Nat)
    (q : Pat) :
    (t.add s c? i?).memP q = (t.memP q || leads q s) := by
  induction s generalizing t q with
  | nil =>
    cases q with
    | nil => cases c? <;> cases i? <;> simp [add, leads]
    | cons nc r => cases c? <;> cases i? <;> simp [add, memP_cons, leads]
  | cons nc s' ih =>
    rcases hch : t.child nc with _ | ch
    · cases q with
      | nil => simp [add, hch, leads]
      | cons nc2 r =>
        by_cases hnc : nc = nc2
        · subst hnc
          simp [add, hch, memP_cons, ih, memP_leaf, leads]
          cases r <;> simp [leads]
        · simp [add, hch, memP_cons, child_setChild_other _ hnc, leads,
            Ne.symm hnc]
    · cases q with
      | nil => simp [add, hch, leads]
      | cons nc2 r =>
        by_cases hnc : nc = nc2
        · subst hnc
          simp [add, hch, memP_cons, ih, leads]
        · simp [add, hch, memP_cons, child_setChild_other _ hnc, leads,
            Ne.symm hnc]

theorem setChild_child_same {t : Tree} {nc : NC} {ch : Tree}
    (h : t.child nc = some ch) : t.setChild nc ch = t := by
  cases t <;> cases nc <;> simp [child] at h <;> simp [setChild, h]

theorem seq_increment (t : Tree) (s : Pat) (c : Int) :
    (t.increment_count s c).seq = t.seq := by
  cases s with
  | nil => simp [increment_count]
  | cons nc s' => rcases hch : t.child nc with _ | ch <;> simp [increment_count, hch]

theorem increment_of_not_mem {t : Tree} {s : Pat} (c : Int)
    (h : t.memP s = false) : t.increment_count s c = t := by
  induction s generalizing t with
  | nil => simp at h
  | cons nc s' ih =>
    rcases hch : t.child nc with _ | ch
    · simp [increment_count, hch]
    · simp [memP_cons, hch] at h
      simp [increment_count, hch, ih h, setChild_child_same hch]

theorem countAt_increment (t : Tree) (s : Pat) (c : Int) (q : Pat) :
    (t.increment_count s c).countAt q =
      if q = s ∧ t.memP s then some ((t.countAt s).getD 0 + c)
      else t.countAt q := by
  induction s generalizing t q with
  | nil =>
    cases q with
    | nil => simp [increment_count]
    | cons nc r => simp [increment_count, countAt_cons]
  | cons nc s' ih =>
    rcases hch : t.child nc with _ | ch
    · simp [increment_count, hch, memP_cons]
    · cases q with
      | nil => simp [increment_count, hch, memP_cons]
      | cons nc2 r =>
        by_cases hnc : nc = nc2
        · subst hnc
          simp [increment_count, hch, countAt_cons, memP_cons, ih]
        · simp [increment_count, hch, countAt_cons, memP_cons,
            child_setChild_other _ hnc,
            List.cons.injEq, Ne.symm hnc]

theorem idxAt_increment (t : Tree) (s : Pat) (c : Int) (q : Pat) :
    (t.increment_count s c).idxAt q = t.idxAt q := by
  induction s generalizing t q with
  | nil =>
    cases q with
    | nil => simp [increment_count]
    | cons nc r => simp [increment_count, idxAt_cons]
  | cons nc s' ih =>
    rcases hch : t.child nc with _ | ch
    · simp [increment_count, hch]
    · cases q with
      | nil => simp [increment_count, hch]
      | cons nc2 r =>
        by_cases hnc : nc = nc2
        · subst hnc
          simp [increment_count, hch, idxAt_cons, ih]
        · simp [increment_count, hch, idxAt_cons, child_setChild_other _ hnc]

theorem memP_increment (t : Tree) (s : Pat) (c : Int) (q : Pat) :
    (t.increment_count s c).memP q = t.memP q := by
  induction s generalizing t q with
  | nil =>
    cases q with
    | nil => simp
    | cons nc r => simp [increment_count, memP_cons]
  | cons nc s' ih =>
    rcases hch : t.child nc with _ | ch
    · simp [increment_count, hch]
    · cases q with
      | nil => simp [increment_count, hch]
      | cons nc2 r =>
        by_cases hnc : nc = nc2
        · subst hnc
          simp [increment_count, hch, memP_cons, ih]
        · simp [increment_count, hch, memP_cons, child_setChild_other _ hnc]

theorem seqAt_increment (t : Tree) (s : Pat) (c : Int) (q : Pat) :
    ((t.increment_count s c).pattern q).map Tree.seq
      = (t.pattern q).map Tree.seq := by
  induction s generalizing t q with
  | nil =>
    cases q with
    | nil => simp [increment_count]
    | cons nc r => simp [increment_count, pattern_cons]
  | cons nc s' ih =>
    rcases hch : t.child nc with _ | ch
    · simp [increment_count, hch]
    · cases q with
      | nil => simp [increment_count, hch, seq_increment]
      | cons nc2 r =>
        by_cases hnc : nc = nc2
        · subst hnc
          simp [increment_count, hch, pattern_cons, ih]
        · simp [increment_count, hch, pattern_cons, child_setChild_other _ hnc]

end Tree

end FSPM

/-! ### Path spelling and the effect of the bulk operations -/

namespace FSPM

namespace Tree

theorem pattern_leaf (x : Pat) (p : Pat) :
    (leaf x).pattern p = if p = [] then some (leaf x) else none := by
  cases p with
  | nil => simp
  | cons nc r => simp [pattern_cons]

theorem child_add_nil (t : Tree) (c? : Option Int) (i? : Option Nat) (nc : NC) :
    (t.add [] c? i?).child nc = t.child nc := by
  cases c? <;> cases i? <;> simp [add]

theorem SeqOK_leaf (x : Pat) : SeqOK (leaf x) := by
  intro p n hp
  rw [pattern_leaf] at hp
  by_cases hp0 : p = []
  · subst hp0; simp at hp; subst hp; simp
  · simp [hp0] at hp

theorem SeqOK_add {t : Tree} (h : SeqOK t) (s : Pat) (c? : Option Int)
    (i? : Option Nat) : SeqOK (t.add s c? i?) := by
  induction s generalizing t with
  | nil =>
    intro p n hp
    rw [seq_add]
    cases p with
    | nil =>
      simp at hp; subst hp
      rw [seq_add]; simp
    | cons nc r =>
      rw [pattern_cons, child_add_nil] at hp
      exact h (nc :: r) n (by rwa [pattern_cons])
  | cons nc s' ih =>
    intro p n hp
    rw [seq_add]
    have hadd : t.add (nc :: s') c? i? =
        t.setChild nc
          ((match t.child nc with
            | some ch => ch
            | none => Tree.leaf (t.seq ++ [nc])).add s' c? i?) := rfl
    cases p with
    | nil =>
      simp at hp
      subst hp
      rw [seq_add]
      simp
    | cons nc2 r =>
      rw [hadd, pattern_cons] at hp
      by_cases hnc : nc = nc2
      · subst hnc
        rw [child_setChild_same] at hp
        simp only [Option.some_bind] at hp
        rcases hch : t.child nc with _ | ch
        · rw [hch] at hp
          have hstep := ih (SeqOK_leaf (t.seq ++ [nc])) r n hp
          rw [seq_add, seq_leaf] at hstep
          rw [hstep]; simp
        · rw [hch] at hp
          have hchseq : ch.seq = t.seq ++ [nc] :=
            h [nc] ch (by rw [pattern_cons, hch]; rfl)
          have hchok : SeqOK ch := by
            intro q n' hq
            have := h (nc :: q) n' (by rw [pattern_cons, hch]; exact hq)
            rw [this, hchseq]; simp
          have hstep := ih hchok r n hp
          rw [seq_add, hchseq] at hstep
          rw [hstep]; simp
      · rw [child_setChild_other _ hnc] at hp
        exact h (nc2 :: r) n (by rwa [pattern_cons])

theorem SeqOK_increment {t : Tree} (h : SeqOK t) (s : Pat) (c : Int) :
    SeqOK (t.increment_count s c) := by
  intro p n hp
  have hm : ((t.increment_count s c).pattern p).map Tree.seq
      = (t.pattern p).map Tree.seq := seqAt_increment t s c p
  rw [hp] at hm
  rcases hq : t.pattern p with _ | m
  · rw [hq] at hm; simp at hm
  · rw [hq] at hm; simp at hm
    rw [hm, h p m hq, seq_increment]

end Tree

/-- Folding over a flattened list is the nested fold. -/
theorem foldl_flatMap {α β γ : Type} (f : γ → β → γ) (g : α → List β)
    (l : List α) (init : γ) :
    (l.flatMap g).foldl f init = l.foldl (fun acc a => (g a).foldl f acc) init := by
  induction l generalizing init with
  | nil => simp
  | cons a l ih => simp [List.flatMap_cons, List.foldl_append, ih]

theorem initial_tree_eq (data : Corpus) (len : Nat) :
    initial_tree data len
      = addOnes (Tree.leaf []) (data.flatMap fun s => subsequences s len) := by
  rw [initial_tree, addOnes, foldl_flatMap]

theorem run_apriori_eq (data : Corpus) (tree : Tree) (len : Nat) (thrd : Int) :
    run_apriori data tree len thrd
      = incOnes (addPlain tree (candidates tree len thrd))
          (data.flatMap fun s => subsequences s len) := by
  rw [run_apriori, incOnes, foldl_flatMap]; rfl

namespace Tree

theorem pcount_cons (q : Pat) (l : List Pat) (p : Pat) :
    pcount (q :: l) p = (if q = p then 1 else 0) + pcount l p := rfl

theorem countAt_addOnes (t : Tree) (l : List Pat) (p : Pat) :
    (addOnes t l).countAt p =
      if 0 < pcount l p then some ((t.countAt p).getD 0 + (pcount l p : Int))
      else t.countAt p := by
  induction l generalizing t with
  | nil => simp [addOnes, pcount]
  | cons q l ih =>
    have hstep : addOnes t (q :: l) = addOnes (t.add q (some 1) none) l := rfl
    rw [hstep, ih, countAt_add]
    by_cases hqp : q = p
    · subst hqp
      rw [if_pos (show q = q from rfl)]
      by_cases hc : 0 < pcount l q
      · rw [if_pos hc,
          if_pos (show 0 < pcount (q :: l) q by simp [pcount_cons])]
        congr 1
        simp [pcount_cons]
        ring
      · have h0 : pcount l q = 0 := by omega
        rw [if_neg hc,
          if_pos (show 0 < pcount (q :: l) q by simp [pcount_cons])]
        simp [pcount_cons, h0]
    · rw [if_neg (show ¬(p = q) from fun hx => hqp hx.symm)]
      simp [pcount_cons, hqp]

theorem idxAt_addOnes (t : Tree) (l : List Pat) (p : Pat) :
    (addOnes t l).idxAt p = t.idxAt p := by
  induction l generalizing t with
  | nil => simp [addOnes]
  | cons q l ih =>
    have hstep : addOnes t (q :: l) = addOnes (t.add q (some 1) none) l := rfl
    rw [hstep, ih, idxAt_add]
    by_cases hpq : p = q <;> simp [hpq]

theorem memP_addOnes (t : Tree) (l : List Pat) (p : Pat) :
    (addOnes t l).memP p = (t.memP p || l.any fun q => leads p q) := by
  induction l generalizing t with
  | nil => simp [addOnes]
  | cons q l ih =>
    have hstep : addOnes t (q :: l) = addOnes (t.add q (some 1) none) l := rfl
    rw [hstep, ih, memP_add]
    simp [List.any_cons, Bool.or_assoc]

theorem SeqOK_addOnes {t : Tree} (h : SeqOK t) (l : List Pat) :
    SeqOK (addOnes t l) := by
  induction l generalizing t with
  | nil => exact h
  | cons q l ih => exact ih (SeqOK_add h q _ _)

theorem countAt_addPlain (t : Tree) (l : List Pat) (p : Pat) :
    (addPlain t l).countAt p = t.countAt p := by
  induction l generalizing t with
  | nil => simp [addPlain]
  | cons q l ih =>
    have hstep : addPlain t (q :: l) = addPlain (t.add q none none) l := rfl
    rw [hstep, ih, countAt_add]
    by_cases hpq : p = q <;> simp [hpq]

theorem idxAt_addPlain (t : Tree) (l : List Pat) (p : Pat) :
    (addPlain t l).idxAt p = t.idxAt p := by
  induction l generalizing t with
  | nil => simp [addPlain]
  | cons q l ih =>
    have hstep : addPlain t (q :: l) = addPlain (t.add q none none) l := rfl
    rw [hstep, ih, idxAt_add]
    by_cases hpq : p = q <;> simp [hpq]

theorem memP_addPlain (t : Tree) (l : List Pat) (p : Pat) :
    (addPlain t l).memP p = (t.memP p || l.any fun q => leads p q) := by
  induction l generalizing t with
  | nil => simp [addPlain]
  | cons q l ih =>
    have hstep : addPlain t (q :: l) = addPlain (t.add q none none) l := rfl
    rw [hstep, ih, memP_add]
    simp [List.any_cons, Bool.or_assoc]

theorem SeqOK_addPlain {t : Tree} (h : SeqOK t) (l : List Pat) :
    SeqOK (addPlain t l) := by
  induction l generalizing t with
  | nil => exact h
  | cons q l ih => exact ih (SeqOK_add h q _ _)

theorem memP_incOnes (t : Tree) (l : List Pat) (p : Pat) :
    (incOnes t l).memP p = t.memP p := by
  induction l generalizing t with
  | nil => simp [incOnes]
  | cons q l ih =>
    have hstep : incOnes t (q :: l) = incOnes (t.increment_count q 1) l := rfl
    rw [hstep, ih, memP_increment]

theorem idxAt_incOnes (t : Tree) (l : List Pat) (p : Pat) :
    (incOnes t l).idxAt p = t.idxAt p := by
  induction l generalizing t with
  | nil => simp [incOnes]
  | cons q l ih =>
    have hstep : incOnes t (q :: l) = incOnes (t.increment_count q 1) l := rfl
    rw [hstep, ih, idxAt_increment]

theorem countAt_incOnes (t : Tree) (l : List Pat) (p : Pat) :
    (incOnes t l).countAt p =
      if t.memP p ∧ 0 < pcount l p
      then some ((t.countAt p).getD 0 + (pcount l p : Int))
      else t.countAt p := by
  induction l generalizing t with
  | nil => simp [incOnes, pcount]
  | cons q l ih =>
    have hstep : incOnes t (q :: l) = incOnes (t.increment_count q 1) l := rfl
    rw [hstep, ih, memP_increment, countAt_increment]
    by_cases hqp : q = p
    · subst hqp
      by_cases hm : t.memP q
      · rw [if_pos (show q = q ∧ t.memP q from And.intro rfl hm)]
        by_cases hc : 0 < pcount l q
        · rw [if_pos (show t.memP q ∧ 0 < pcount l q from And.intro hm hc),
            if_pos (show t.memP q ∧ 0 < pcount (q :: l) q from
              And.intro hm (by simp [pcount_cons]))]
          congr 1
          simp [pcount_cons]
          ring
        · have h0 : pcount l q = 0 := by omega
          rw [if_neg (show ¬(t.memP q ∧ 0 < pcount l q) from fun hx => hc hx.2),
            if_pos (show t.memP q ∧ 0 < pcount (q :: l) q from
              And.intro hm (by simp [pcount_cons]))]
          simp [pcount_cons, h0]
      · have hmf : t.memP q = false := by simpa using hm
        simp [hmf]
    · rw [if_neg (show ¬(p = q ∧ t.memP q) from fun hx => hqp hx.1.symm)]
      simp [pcount_cons, hqp]

theorem SeqOK_incOnes {t : Tree} (h : SeqOK t) (l : List Pat) :
    SeqOK (incOnes t l) := by
  induction l generalizing t with
  | nil => exact h
  | cons q l ih => exact ih (SeqOK_increment h q 1)

end Tree

end FSPM

/-! ### Positions in pattern lists -/

namespace FSPM

theorem posOf_nil (w : Pat) : posOf [] w = none := rfl

theorem posOf_cons (q : Pat) (l : List Pat) (w : Pat) :
    posOf (q :: l) w = if q = w then some 0 else (posOf l w).map fun k => k + 1 := rfl

theorem posOf_eq_none_iff {l : List Pat} {w : Pat} :
    posOf l w = none ↔ w ∉ l := by
  induction l with
  | nil => simp [posOf]
  | cons q l ih =>
    rw [posOf_cons]
    by_cases hq : q = w
    · simp [hq]
    · simp [hq, Option.map_eq_none, ih, Ne.symm hq]

theorem posOf_isSome_of_mem {l : List Pat} {w : Pat} (h : w ∈ l) :
    ∃ k, posOf l w = some k := by
  rcases hp : posOf l w with _ | k
  · exact absurd (posOf_eq_none_iff.1 hp) (by simp [h])
  · exact ⟨k, rfl⟩

theorem getElem_of_posOf {l : List Pat} {w : Pat} {k : Nat}
    (h : posOf l w = some k) : l[k]? = some w := by
  induction l generalizing k with
  | nil => simp [posOf] at h
  | cons q l ih =>
    rw [posOf_cons] at h
    by_cases hq : q = w
    · simp [hq] at h
      subst h; simp [hq]
    · simp [hq] at h
      rcases h with ⟨k', hk', rfl⟩
      simpa using ih hk'

theorem posOf_of_getElem {l : List Pat} (hnd : l.Nodup) {w : Pat} {k : Nat}
    (h : l[k]? = some w) : posOf l w = some k := by
  induction l generalizing k with
  | nil => simp at h
  | cons q l ih =>
    rcases List.nodup_cons.1 hnd with ⟨hq, hnd'⟩
    cases k with
    | zero =>
      simp at h
      simp [posOf_cons, h]
    | succ k =>
      simp at h
      have hne : q ≠ w := by
        intro hqw; subst hqw
        exact hq (by
          have := List.getElem?_mem h
          exact this)
      rw [posOf_cons, if_neg hne, ih hnd' h]
      rfl

theorem posOf_append (a b : List Pat) (w : Pat) :
    posOf (a ++ b) w =
      match posOf a w with
      | some k => some k
      | none => (posOf b w).map fun k => k + a.length := by
  induction a with
  | nil => simp [posOf]
  | cons q a ih =>
    by_cases hq : q = w
    · simp [posOf_cons, hq]
    · simp only [List.cons_append, posOf_cons, if_neg hq, ih]
      rcases posOf a w with _ | k
      · simp only []
        rcases posOf b w with _ | k2 <;> simp [Nat.add_assoc, Nat.add_comm 1]
      · rfl

theorem posOf_map_cons_same (l : List Pat) (nc : NC) (r : Pat) :
    posOf (l.map fun q => nc :: q) (nc :: r) = posOf l r := by
  induction l with
  | nil => rfl
  | cons q l ih => by_cases hq : q = r <;> simp [posOf_cons, hq, ih]

theorem posOf_map_cons_other (l : List Pat) {nc nc2 : NC} (h : nc ≠ nc2)
    (r : Pat) : posOf (l.map fun q => nc :: q) (nc2 :: r) = none := by
  induction l with
  | nil => rfl
  | cons q l ih => simp [posOf_cons, ih, h]

theorem posOf_map_cons_nil (l : List Pat) (nc : NC) :
    posOf (l.map fun q => nc :: q) [] = none := by
  induction l with
  | nil => rfl
  | cons q l ih => simp [posOf_cons, ih]

@[simp] theorem idxShift_some (k i0 : Nat) (fb : Option Nat) :
    idxShift (some k) i0 fb = some (i0 + k) := rfl

@[simp] theorem idxShift_none (i0 : Nat) (fb : Option Nat) :
    idxShift none i0 fb = fb := rfl

theorem posOf_append_some {a : List Pat} {w : Pat} {k : Nat}
    (h : posOf a w = some k) (b : List Pat) : posOf (a ++ b) w = some k := by
  rw [posOf_append, h]

theorem posOf_append_none {a : List Pat} {w : Pat} (h : posOf a w = none)
    (b : List Pat) :
    posOf (a ++ b) w = (posOf b w).map fun k => k + a.length := by
  rw [posOf_append, h]

end FSPM

/-! ### Enumeration of trie nodes along paths -/

namespace FSPM

namespace Tree

theorem mem_optNodes {o : Option Tree} {n : Tree} :
    n ∈ optNodes o ↔ ∃ x, o = some x ∧ n ∈ x.all_nodes := by
  cases o <;> simp [optNodes]

theorem all_nodes_unfold (t : Tree) :
    t.all_nodes = t :: (optNodes (t.child .A) ++ (optNodes (t.child .C) ++
      (optNodes (t.child .T) ++ optNodes (t.child .G)))) := by
  cases t; rw [all_nodes]; rfl

theorem mem_all_nodes_of_child {t x n : Tree} {nc : NC}
    (hch : t.child nc = some x) (hn : n ∈ x.all_nodes) : n ∈ t.all_nodes := by
  rw [all_nodes_unfold]
  cases nc <;> rw [hch] <;>
    simp [optNodes, hn]

theorem mem_all_nodes_elim {t n : Tree} (hn : n ∈ t.all_nodes) :
    n = t ∨ ∃ nc x, t.child nc = some x ∧ n ∈ x.all_nodes := by
  rw [all_nodes_unfold] at hn
  rcases List.mem_cons.1 hn with h0 | hmem
  · exact Or.inl h0
  · right
    simp only [List.mem_append] at hmem
    rcases hmem with h | h | h | h <;>
      [ (rcases mem_optNodes.1 h with ⟨x, hx, hnx⟩; exact ⟨.A, x, hx, hnx⟩);
        (rcases mem_optNodes.1 h with ⟨x, hx, hnx⟩; exact ⟨.C, x, hx, hnx⟩);
        (rcases mem_optNodes.1 h with ⟨x, hx, hnx⟩; exact ⟨.T, x, hx, hnx⟩);
        (rcases mem_optNodes.1 h with ⟨x, hx, hnx⟩; exact ⟨.G, x, hx, hnx⟩)]

theorem mem_all_nodes {t n : Tree} :
    n ∈ t.all_nodes ↔ ∃ p, t.pattern p = some n := by
  induction t using treeInd with
  | h s c i a b tt g ih =>
    constructor
    · intro hn
      rcases mem_all_nodes_elim hn with h0 | ⟨nc, x, hx, hnx⟩
      · exact ⟨[], by rw [h0]; rfl⟩
      · rcases (ih nc x hx).1 hnx with ⟨p, hp⟩
        exact ⟨nc :: p, by rw [pattern_cons, hx, Option.some_bind, hp]⟩
    · rintro ⟨p, hp⟩
      cases p with
      | nil =>
        simp at hp
        exact hp ▸ List.mem_cons_self _ _
      | cons nc r =>
        rw [pattern_cons] at hp
        rcases hx : (Tree.node s c i a b tt g).child nc with _ | x
        · rw [hx] at hp; simp at hp
        · rw [hx, Option.some_bind] at hp
          exact mem_all_nodes_of_child hx ((ih nc x hx).2 ⟨r, hp⟩)

theorem mem_all_children {t x : Tree} :
    x ∈ t.all_children ↔ ∃ nc, t.child nc = some x := by
  constructor
  · intro hx
    rcases List.mem_filterMap.1 hx with ⟨nc, _, hnc⟩
    exact ⟨nc, hnc⟩
  · rintro ⟨nc, hnc⟩
    exact List.mem_filterMap.2 ⟨nc, by cases nc <;> simp [nucleotides], hnc⟩

theorem mem_nodes_at_level {t n : Tree} {l : Nat} :
    n ∈ t.nodes_at_level l ↔ ∃ p, p.length = l ∧ t.pattern p = some n := by
  induction l generalizing t with
  | zero =>
    simp only [nodes_at_level, List.mem_singleton]
    constructor
    · rintro rfl; exact ⟨[], rfl, rfl⟩
    · rintro ⟨p, hp, hn⟩
      rw [List.length_eq_zero] at hp
      subst hp; simp at hn; exact hn.symm
  | succ l ih =>
    simp only [nodes_at_level, List.mem_flatMap]
    constructor
    · rintro ⟨ch, hch, hn⟩
      rcases mem_all_children.1 hch with ⟨nc, hnc⟩
      rcases ih.1 hn with ⟨r, hr, hrn⟩
      exact ⟨nc :: r, by simp [hr], by rw [pattern_cons, hnc, Option.some_bind]; exact hrn⟩
    · rintro ⟨p, hp, hn⟩
      cases p with
      | nil => simp at hp
      | cons nc r =>
        rw [pattern_cons] at hn
        rcases hnc : t.child nc with _ | ch
        · rw [hnc] at hn; simp at hn
        · rw [hnc, Option.some_bind] at hn
          exact ⟨ch, mem_all_children.2 ⟨nc, hnc⟩,
            ih.2 ⟨r, by simpa using hp, hn⟩⟩

/-- A child of a node satisfying the path invariant satisfies it too, and
its pattern extends the parent's by the edge symbol. -/
theorem SeqOK_child {t ch : Tree} (h : SeqOK t) {nc : NC}
    (hch : t.child nc = some ch) :
    ch.seq = t.seq ++ [nc] ∧ SeqOK ch := by
  have hchseq : ch.seq = t.seq ++ [nc] :=
    h [nc] ch (by rw [pattern_cons, hch]; rfl)
  refine ⟨hchseq, fun q n hq => ?side⟩
  have := h (nc :: q) n (by rw [pattern_cons, hch]; exact hq)
  rw [this, hchseq]; simp

end Tree

theorem has_count_at_least_eq_freqB (t : Tree) (thrd : Int) :
    t.has_count_at_least thrd = freqB t thrd [] := by
  cases hc : t.count
  all_goals simp [Tree.has_count_at_least, freqB, Tree.countAt_nil, hc]

theorem mem_freqPaths {t : Tree} {l : Nat} {thrd : Int} {p : Pat} :
    p ∈ freqPaths t l thrd ↔ p.length = l ∧ freqB t thrd p := by
  induction l generalizing t p with
  | zero =>
    rw [freqPaths]
    by_cases hf : t.has_count_at_least thrd
    · simp only [if_pos hf, List.mem_singleton]
      constructor
      · rintro rfl
        exact ⟨rfl, by rw [← has_count_at_least_eq_freqB]; exact hf⟩
      · rintro ⟨hp, _⟩
        rw [List.length_eq_zero] at hp; exact hp
    · simp only [if_neg hf, List.not_mem_nil, false_iff, not_and]
      intro hp
      rw [List.length_eq_zero] at hp; subst hp
      simpa [has_count_at_least_eq_freqB] using hf
  | succ l ih =>
    rw [freqPaths]
    simp only [List.mem_flatMap]
    constructor
    · rintro ⟨nc, _, hp⟩
      rcases hch : t.child nc with _ | ch
      · rw [hch] at hp; simp at hp
      · rw [hch] at hp
        rcases List.mem_map.1 hp with ⟨r, hr, rfl⟩
        rcases ih.1 hr with ⟨hlen, hfreq⟩
        exact ⟨by simp [hlen],
          by simpa [freqB, Tree.countAt_cons, hch] using hfreq⟩
    · rintro ⟨hlen, hfreq⟩
      cases p with
      | nil => simp at hlen
      | cons nc r =>
        rcases hch : t.child nc with _ | ch
        · simp [freqB, Tree.countAt_cons, hch] at hfreq
        · have hfr : freqB ch thrd r := by
            simpa [freqB, Tree.countAt_cons, hch] using hfreq
          exact ⟨nc, by cases nc <;> simp [nucleotides],
            by rw [hch]
               exact List.mem_map.2 ⟨r, ih.2 ⟨by simpa using hlen, hfr⟩, rfl⟩⟩

theorem nodup_freqPaths (t : Tree) (l : Nat) (thrd : Int) :
    (freqPaths t l thrd).Nodup := by
  induction l generalizing t with
  | zero =>
    rw [freqPaths]
    by_cases hf : t.has_count_at_least thrd <;> simp [hf]
  | succ l ih =>
    rw [freqPaths]
    have inner : ∀ ncs : List NC, ncs.Nodup →
        (ncs.flatMap fun nc =>
          match t.child nc with
          | some ch => (freqPaths ch l thrd).map fun q => nc :: q
          | none => []).Nodup := by
      intro ncs hncs
      induction ncs with
      | nil => simp
      | cons nc ncs ihn =>
        rcases List.nodup_cons.1 hncs with ⟨hnc, hncs'⟩
        rw [List.flatMap_cons]
        refine List.Nodup.append ?b1 (ihn hncs') ?dj
        · rcases t.child nc with _ | ch
          · simp
          · exact (ih ch).map fun x y hxy => by simpa using hxy
        · intro x hx1 hx2
          rcases hch : t.child nc with _ | ch
          · rw [hch] at hx1; simp at hx1
          · rw [hch] at hx1
            rcases List.mem_map.1 hx1 with ⟨r, _, rfl⟩
            rcases List.mem_flatMap.1 hx2 with ⟨nc2, hnc2, hx2m⟩
            rcases hch2 : t.child nc2 with _ | ch2
            · rw [hch2] at hx2m; simp at hx2m
            · rw [hch2] at hx2m
              rcases List.mem_map.1 hx2m with ⟨r2, _, heq⟩
              have : nc2 = nc := by injection heq
              exact hnc (this ▸ hnc2)
    exact inner nucleotides (by simp [nucleotides])

end FSPM

/-! ### The frequent nodes at a level, in traversal order -/

namespace FSPM

theorem flatMap_congr {α β : Type} {l : List α} {f g : α → List β}
    (h : ∀ a ∈ l, f a = g a) : l.flatMap f = l.flatMap g := by
  induction l with
  | nil => rfl
  | cons a l ih =>
    simp only [List.flatMap_cons, h a (List.mem_cons_self a l),
      ih fun x hx => h x (List.mem_cons_of_mem a hx)]

theorem filter_flatMap {α β : Type} (l : List α) (g : α → List β) (p : β → Bool) :
    ((l.flatMap g).filter p) = l.flatMap fun a => (g a).filter p := by
  induction l with
  | nil => rfl
  | cons a l ih => simp [List.flatMap_cons, List.filter_append, ih]

theorem map_flatMap {α β γ : Type} (l : List α) (g : α → List β) (f : β → γ) :
    ((l.flatMap g).map f) = l.flatMap fun a => (g a).map f := by
  induction l with
  | nil => rfl
  | cons a l ih => simp [List.flatMap_cons, ih]

theorem flatMap_filterMap {α β γ : Type} (l : List α) (f : α → Option β)
    (g : β → List γ) :
    ((l.filterMap f).flatMap g)
      = l.flatMap fun a =>
          match f a with
          | some b => g b
          | none => [] := by
  induction l with
  | nil => rfl
  | cons a l ih =>
    rcases hfa : f a with _ | b
    · rw [List.filterMap_cons_none hfa, List.flatMap_cons, ih, hfa]
      simp
    · rw [List.filterMap_cons_some hfa, List.flatMap_cons, List.flatMap_cons, ih, hfa]

theorem freq_level_seqs {t : Tree} (h : Tree.SeqOK t) (l : Nat) (thrd : Int) :
    ((t.nodes_at_level l).filter fun n => n.has_count_at_least thrd).map Tree.seq
      = (freqPaths t l thrd).map fun q => t.seq ++ q := by
  induction l generalizing t with
  | zero =>
    rw [Tree.nodes_at_level, freqPaths]
    by_cases hf : t.has_count_at_least thrd <;> simp [hf]
  | succ l ih =>
    rw [Tree.nodes_at_level, freqPaths, Tree.all_children,
      flatMap_filterMap, filter_flatMap, map_flatMap, map_flatMap]
    refine flatMap_congr fun nc _IGNORE => ?point
    rcases hch : t.child nc with _ | ch
    · simp
    · simp only []
      rcases Tree.SeqOK_child h hch with ⟨hseq, hok⟩
      rw [ih hok, List.map_map, hseq]
    -- each child contributes its frequent paths shifted by the edge symbol
      refine List.map_congr_left fun q _IGNORE2 => ?eq
      simp

end FSPM

/-! ### Effect of the index assignment pass -/

namespace FSPM

namespace Tree

theorem countAt_setIdx (t : Tree) (v : Nat) (q : Pat) :
    (t.setIdx v).countAt q = t.countAt q := by
  cases q with
  | nil => simp
  | cons nc r => simp [countAt_cons]

theorem memP_setIdx (t : Tree) (v : Nat) (q : Pat) :
    (t.setIdx v).memP q = t.memP q := by
  cases q with
  | nil => simp
  | cons nc r => simp [memP_cons]

theorem seqAt_setIdx (t : Tree) (v : Nat) (q : Pat) :
    ((t.setIdx v).pattern q).map Tree.seq = (t.pattern q).map Tree.seq := by
  cases q with
  | nil => simp
  | cons nc r => simp [pattern_cons]

theorem idxAt_setIdx (t : Tree) (v : Nat) (q : Pat) :
    (t.setIdx v).idxAt q = if q = [] then some v else t.idxAt q := by
  cases q with
  | nil => simp
  | cons nc r => simp [idxAt_cons]

theorem countAt_setChild_cons (t x : Tree) (nc nc2 : NC) (r : Pat) :
    (t.setChild nc x).countAt (nc2 :: r)
      = if nc = nc2 then x.countAt r else t.countAt (nc2 :: r) := by
  by_cases hnc : nc = nc2
  · subst hnc; simp [countAt_cons]
  · simp [countAt_cons, child_setChild_other _ hnc, hnc]

theorem memP_setChild_cons (t x : Tree) (nc nc2 : NC) (r : Pat) :
    (t.setChild nc x).memP (nc2 :: r)
      = if nc = nc2 then x.memP r else t.memP (nc2 :: r) := by
  by_cases hnc : nc = nc2
  · subst hnc; simp [memP_cons]
  · simp [memP_cons, child_setChild_other _ hnc, hnc]

theorem idxAt_setChild_cons (t x : Tree) (nc nc2 : NC) (r : Pat) :
    (t.setChild nc x).idxAt (nc2 :: r)
      = if nc = nc2 then x.idxAt r else t.idxAt (nc2 :: r) := by
  by_cases hnc : nc = nc2
  · subst hnc; simp [idxAt_cons]
  · simp [idxAt_cons, child_setChild_other _ hnc, hnc]

theorem seqAt_setChild_cons (t x : Tree) (nc nc2 : NC) (r : Pat) :
    ((t.setChild nc x).pattern (nc2 :: r)).map Tree.seq
      = if nc = nc2 then (x.pattern r).map Tree.seq
        else (t.pattern (nc2 :: r)).map Tree.seq := by
  by_cases hnc : nc = nc2
  · subst hnc; simp [pattern_cons]
  · simp [pattern_cons, child_setChild_other _ hnc, hnc]

end Tree

/-- The one-level slice of the `freqPaths` flat map, relative to an
arbitrary set of starting symbols: the relative paths of frequent depth
`l + 1` nodes reachable through a symbol of `ncs`. -/
def freqPathsOver (ncs : List NC) (t : Tree) (l : Nat) (thrd : Int) : List Pat :=
  ncs.flatMap fun nc =>
    match t.child nc with
    | some ch => (freqPaths ch l thrd).map fun q => nc :: q
    | none => []

theorem freqPaths_succ (t : Tree) (l : Nat) (thrd : Int) :
    freqPaths t (l + 1) thrd = freqPathsOver nucleotides t l thrd := rfl

theorem assignIdxAux_spec (l : Nat) :
    ∀ (t : Tree) (thrd : Int) (i0 : Nat),
      (t.assignIdxAux l thrd i0).2 = i0 + (freqPaths t l thrd).length ∧
      ∀ q, (t.assignIdxAux l thrd i0).1.countAt q = t.countAt q ∧
        (t.assignIdxAux l thrd i0).1.memP q = t.memP q ∧
        ((t.assignIdxAux l thrd i0).1.pattern q).map Tree.seq
          = (t.pattern q).map Tree.seq ∧
        (t.assignIdxAux l thrd i0).1.idxAt q
          = idxShift (posOf (freqPaths t l thrd) q) i0 (t.idxAt q) := by
  induction l with
  | zero =>
    intro t thrd i0
    rw [Tree.assignIdxAux, freqPaths]
    by_cases hf : t.has_count_at_least thrd
    · rw [if_pos hf]
      refine ⟨by simp [hf], fun q => ?props⟩
      refine ⟨Tree.countAt_setIdx t i0 q, Tree.memP_setIdx t i0 q,
        Tree.seqAt_setIdx t i0 q, ?idxp⟩
      rw [Tree.idxAt_setIdx]
      by_cases hq : q = []
      · subst hq; simp [hf, posOf_cons]
      · simp [hq, hf, posOf_cons, Ne.symm hq, posOf_nil]
    · have hff : t.has_count_at_least thrd = false := by simpa using hf
      rw [if_neg hf]
      exact ⟨by simp [hff, posOf_nil], fun q =>
        ⟨rfl, rfl, rfl, by simp [hff, posOf_nil]⟩⟩
  | succ l ih =>
    have inner : ∀ (ncs : List NC), ncs.Nodup →
        ∀ (t : Tree) (thrd : Int) (i0 : Nat),
        (ncs.foldl
          (fun (acc : Tree × Nat) nc =>
            match acc.1.child nc with
            | some ch =>
              let p := ch.assignIdxAux l thrd acc.2
              (acc.1.setChild nc p.1, p.2)
            | none => acc)
          (t, i0)).2 = i0 + (freqPathsOver ncs t l thrd).length ∧
        ∀ q, (ncs.foldl
          (fun (acc : Tree × Nat) nc =>
            match acc.1.child nc with
            | some ch =>
              let p := ch.assignIdxAux l thrd acc.2
              (acc.1.setChild nc p.1, p.2)
            | none => acc)
          (t, i0)).1.countAt q = t.countAt q ∧
          (ncs.foldl
            (fun (acc : Tree × Nat) nc =>
              match acc.1.child nc with
              | some ch =>
                let p := ch.assignIdxAux l thrd acc.2
                (acc.1.setChild nc p.1, p.2)
              | none => acc)
            (t, i0)).1.memP q = t.memP q ∧
          ((ncs.foldl
            (fun (acc : Tree × Nat) nc =>
              match acc.1.child nc with
              | some ch =>
                let p := ch.assignIdxAux l thrd acc.2
                (acc.1.setChild nc p.1, p.2)
              | none => acc)
            (t, i0)).1.pattern q).map Tree.seq = (t.pattern q).map Tree.seq ∧
          (ncs.foldl
            (fun (acc : Tree × Nat) nc =>
              match acc.1.child nc with
              | some ch =>
                let p := ch.assignIdxAux l thrd acc.2
                (acc.1.setChild nc p.1, p.2)
              | none => acc)
            (t, i0)).1.idxAt q
            = idxShift (posOf (freqPathsOver ncs t l thrd) q) i0 (t.idxAt q) := by
      intro ncs
      induction ncs with
      | nil =>
        intro _ t thrd i0
        exact ⟨by simp [freqPathsOver, posOf_nil], fun q =>
          ⟨rfl, rfl, rfl, by simp [freqPathsOver, posOf_nil]⟩⟩
      | cons nc ncs ihn =>
        intro hnd t thrd i0
        rcases List.nodup_cons.1 hnd with ⟨hncmem, hnd'⟩
        rw [List.foldl_cons]
        rcases hch : t.child nc with _ | ch
        · -- no child along nc: this symbol contributes nothing
          simp only [hch]
          have hF : freqPathsOver (nc :: ncs) t l thrd
              = freqPathsOver ncs t l thrd := by
            simp [freqPathsOver, List.flatMap_cons, hch]
          rw [hF]
          exact ihn hnd' t thrd i0
        · rcases ih ch thrd i0 with ⟨hcnt, hprops⟩
          rcases hE : ch.assignIdxAux l thrd i0 with ⟨ch2, i1⟩
          have hcnt1 : i1 = i0 + (freqPaths ch l thrd).length := by
            rw [hE] at hcnt; exact hcnt
          have hpr : ∀ q, ch2.countAt q = ch.countAt q ∧
              ch2.memP q = ch.memP q ∧
              (ch2.pattern q).map Tree.seq = (ch.pattern q).map Tree.seq ∧
              ch2.idxAt q
                = idxShift (posOf (freqPaths ch l thrd) q) i0 (ch.idxAt q) := by
            intro q
            have hx := hprops q
            rw [hE] at hx
            exact hx
          simp only [hch, hE]
          set t1 := t.setChild nc ch2 with ht1
          have hchild_t1 : ∀ nc2, nc2 ≠ nc → t1.child nc2 = t.child nc2 := by
            intro nc2 hne
            rw [ht1, Tree.child_setChild_other _ (fun hxx => hne hxx.symm)]
          have hFrest : freqPathsOver ncs t1 l thrd
              = freqPathsOver ncs t l thrd := by
            refine flatMap_congr fun nc2 hnc2 => ?point
            have hne : nc2 ≠ nc := fun hxx => hncmem (hxx ▸ hnc2)
            rw [hchild_t1 nc2 hne]
          have hblock : freqPathsOver (nc :: ncs) t l thrd
              = ((freqPaths ch l thrd).map fun q => nc :: q)
                  ++ freqPathsOver ncs t l thrd := by
            simp [freqPathsOver, List.flatMap_cons, hch]
          rcases ihn hnd' t1 thrd i1 with ⟨hcnt2, hprops2⟩
          have hq_t1_cnt : ∀ q, t1.countAt q = t.countAt q := by
            intro q
            cases q with
            | nil => rw [ht1]; simp
            | cons nc2 r =>
              rw [ht1, Tree.countAt_setChild_cons]
              by_cases hnc2 : nc = nc2
              · subst hnc2
                rw [if_pos rfl, (hpr r).1, Tree.countAt_cons, hch,
                  Option.some_bind]
              · rw [if_neg hnc2]
          have hq_t1_mem : ∀ q, t1.memP q = t.memP q := by
            intro q
            cases q with
            | nil => rw [ht1]; simp
            | cons nc2 r =>
              rw [ht1, Tree.memP_setChild_cons]
              by_cases hnc2 : nc = nc2
              · subst hnc2
                rw [if_pos rfl, (hpr r).2.1, Tree.memP_cons, hch]
                rfl
              · rw [if_neg hnc2]
          have hq_t1_seq : ∀ q, (t1.pattern q).map Tree.seq
              = (t.pattern q).map Tree.seq := by
            intro q
            cases q with
            | nil =>
              rw [ht1]
              simp [Tree.pattern_nil]
            | cons nc2 r =>
              rw [ht1, Tree.seqAt_setChild_cons]
              by_cases hnc2 : nc = nc2
              · subst hnc2
                rw [if_pos rfl, (hpr r).2.2.1, Tree.pattern_cons, hch,
                  Option.some_bind]
              · rw [if_neg hnc2]
          constructor
          · rw [hcnt2, hFrest, hblock, hcnt1]
            simp
            omega
          · intro q
            rcases hprops2 q with ⟨hc2, hm2, hs2, hi2⟩
            refine ⟨by rw [hc2, hq_t1_cnt], by rw [hm2, hq_t1_mem],
              by rw [hs2, hq_t1_seq], ?idxpart⟩
            rw [hi2, hFrest, hblock]
            cases q with
            | nil =>
              rw [posOf_append_none (posOf_map_cons_nil _ _) _]
              rcases hpos : posOf (freqPathsOver ncs t l thrd) [] with _ | k
              · simp only [Option.map_none', idxShift_none]
                rw [ht1]; simp
              · simp only [Option.map_some', idxShift_some, List.length_map]
                rw [hcnt1]
                congr 1
                omega
            | cons nc2 r =>
              by_cases hnc2 : nc = nc2
              · subst hnc2
                have hrest_none :
                    posOf (freqPathsOver ncs t l thrd) (nc :: r) = none := by
                  rw [posOf_eq_none_iff]
                  intro hmem
                  rcases List.mem_flatMap.1 hmem with ⟨nc3, hnc3, hin⟩
                  rcases hch3 : t.child nc3 with _ | ch3
                  · rw [hch3] at hin; simp at hin
                  · rw [hch3] at hin
                    rcases List.mem_map.1 hin with ⟨r3, _, heq⟩
                    have : nc3 = nc := by injection heq
                    exact hncmem (this ▸ hnc3)
                rw [hrest_none, idxShift_none]
                rcases hpos : posOf (freqPaths ch l thrd) r with _ | k
                · rw [posOf_append_none (by rw [posOf_map_cons_same, hpos]) _,
                    hrest_none]
                  simp only [Option.map_none', idxShift_none]
                  rw [ht1, Tree.idxAt_setChild_cons, if_pos rfl,
                    (hpr r).2.2.2, hpos, idxShift_none]
                  rw [Tree.idxAt_cons, hch, Option.some_bind]
                · rw [posOf_append_some (by rw [posOf_map_cons_same, hpos]) _,
                    idxShift_some]
                  rw [ht1, Tree.idxAt_setChild_cons, if_pos rfl,
                    (hpr r).2.2.2, hpos, idxShift_some]
              · rw [posOf_append_none (posOf_map_cons_other _ hnc2 _) _]
                rcases hpos : posOf (freqPathsOver ncs t l thrd) (nc2 :: r)
                    with _ | k2
                · simp only [Option.map_none', idxShift_none]
                  rw [ht1, Tree.idxAt_setChild_cons, if_neg hnc2]
                · simp only [Option.map_some', idxShift_some, List.length_map]
                  rw [hcnt1]
                  congr 1
                  omega
    intro t thrd i0
    rw [Tree.assignIdxAux, freqPaths_succ]
    exact inner nucleotides (by simp [nucleotides]) t thrd i0

end FSPM

/-! ### Windows and occurrence counts -/

namespace FSPM

theorem pcount_append (a b : List Pat) (p : Pat) :
    pcount (a ++ b) p = pcount a p + pcount b p := by
  induction a with
  | nil => simp [pcount]
  | cons q a ih => simp [Tree.pcount_cons, ih]; omega

theorem pcount_map {α : Type} (l : List α) (f : α → Pat) (p : Pat) :
    pcount (l.map f) p = (l.filter fun a => f a = p).length := by
  induction l with
  | nil => rfl
  | cons a l ih =>
    by_cases ha : f a = p <;> simp [Tree.pcount_cons, List.filter_cons, ha, ih] <;> omega

theorem window_length {s : Pat} {i len : Nat} (h : i + len ≤ s.length) :
    ((s.drop i).take len).length = len := by
  simp [List.length_take, List.length_drop]
  omega

theorem occSeq_eq_filter (s p : Pat) :
    occSeq s p = ((List.range (s.length + 1 - p.length)).filter
      fun off => (s.drop off).take p.length = p).length := rfl

theorem pcount_subsequences (s : Pat) (len : Nat) (p : Pat) :
    pcount (subsequences s len) p = if p.length = len then occSeq s p else 0 := by
  rw [subsequences, pcount_map]
  by_cases hlen : p.length = len
  · rw [if_pos hlen, occSeq_eq_filter, hlen]
  · rw [if_neg hlen]
    have : ∀ i ∈ List.range (s.length + 1 - len),
        ¬((s.drop i).take len = p) := by
      intro i hi heq
      rw [List.mem_range] at hi
      have hw : ((s.drop i).take len).length = len := window_length (by omega)
      rw [heq] at hw
      exact hlen hw
    rw [List.filter_eq_nil_iff.2 (by simpa using this)]
    rfl

theorem pcount_flat_subsequences (data : Corpus) (len : Nat) (p : Pat) :
    pcount (data.flatMap fun s => subsequences s len) p
      = if p.length = len then occ data p else 0 := by
  induction data with
  | nil => simp [pcount, occ]
  | cons s data ih =>
    rw [List.flatMap_cons, pcount_append, ih, pcount_subsequences]
    by_cases hlen : p.length = len <;> simp [hlen, occ]

theorem occSeq_le_of_pointwise {s p p' : Pat}
    (hle : s.length + 1 - p.length ≤ s.length + 1 - p'.length)
    (himp : ∀ i ∈ List.range (s.length + 1 - p.length),
      (s.drop i).take p.length = p → (s.drop i).take p'.length = p') :
    occSeq s p ≤ occSeq s p' := by
  rw [occSeq_eq_filter, occSeq_eq_filter,
    ← List.countP_eq_length_filter, ← List.countP_eq_length_filter]
  calc (List.range (s.length + 1 - p.length)).countP
        (fun off => decide ((s.drop off).take p.length = p))
      ≤ (List.range (s.length + 1 - p.length)).countP
        (fun off => decide ((s.drop off).take p'.length = p')) := by
        apply List.countP_mono_left
        intro i hi hdec
        simpa using himp i hi (by simpa using hdec)
    _ ≤ (List.range (s.length + 1 - p'.length)).countP
        (fun off => decide ((s.drop off).take p'.length = p')) := by
        apply List.Sublist.countP_le
        exact (List.range_sublist.2 hle)

theorem window_dropLast {s : Pat} {i m : Nat} (h : i + (m + 1) ≤ s.length) :
    ((s.drop i).take (m + 1)).dropLast = (s.drop i).take m := by
  have hlen : ((s.drop i).take (m + 1)).length = m + 1 := window_length h
  rw [List.dropLast_eq_take, hlen]
  simp [List.take_take]

theorem window_tail {s : Pat} (i m : Nat) :
    ((s.drop i).take (m + 1)).drop 1 = (s.drop (i + 1)).take m := by
  rw [List.drop_take, List.drop_drop]
  simp

theorem occSeq_dropLast_ge (s p : Pat) (hp : p ≠ []) :
    occSeq s p ≤ occSeq s p.dropLast := by
  rcases List.exists_cons_of_ne_nil hp with ⟨a, r, rfl⟩
  have hlen : (a :: r).length = r.length + 1 := by simp
  have hlen2 : (a :: r).dropLast.length = r.length := by simp
  apply occSeq_le_of_pointwise
  · rw [hlen, hlen2]; omega
  · intro i hi heq
    rw [List.mem_range] at hi
    rw [hlen] at hi heq
    rw [hlen2]
    have hik : i + (r.length + 1) ≤ s.length := by omega
    have := @window_dropLast s i r.length hik
    rw [heq] at this
    rw [← this]

theorem occSeq_tail_ge (s p : Pat) (hp : p ≠ []) :
    occSeq s p ≤ occSeq s (p.drop 1) := by
  rcases List.exists_cons_of_ne_nil hp with ⟨a, r, rfl⟩
  simp only [List.drop_one, List.tail_cons]
  rcases le_or_lt (r.length + 1) s.length with hsz | hsz
  · -- the shifted injection off ↦ off + 1
    rw [occSeq_eq_filter, occSeq_eq_filter,
      ← List.countP_eq_length_filter, ← List.countP_eq_length_filter]
    have hlen : (a :: r).length = r.length + 1 := by simp
    rw [hlen]
    calc (List.range (s.length + 1 - (r.length + 1))).countP
          (fun off => decide ((s.drop off).take (r.length + 1) = a :: r))
        ≤ (List.range (s.length + 1 - (r.length + 1))).countP
          (fun off => decide ((s.drop (off + 1)).take r.length = r)) := by
          apply List.countP_mono_left
          intro i hi hdec
          rw [List.mem_range] at hi
          have heq : (s.drop i).take (r.length + 1) = a :: r := by simpa using hdec
          have := @window_tail s i r.length
          rw [heq] at this
          simp at this
          simpa using this.symm
      _ = ((List.range (s.length + 1 - (r.length + 1))).map fun i => i + 1).countP
          (fun off => decide ((s.drop off).take r.length = r)) := by
          rw [List.countP_map]
          rfl
      _ ≤ (List.range (s.length + 1 - r.length)).countP
          (fun off => decide ((s.drop off).take r.length = r)) := by
          apply List.Sublist.countP_le
          have h1 : s.length + 1 - r.length = (s.length + 1 - (r.length + 1)) + 1 := by
            omega
          have h2 : (List.range (s.length + 1 - (r.length + 1))).map
                (fun i => i + 1)
              = (List.range (s.length + 1 - (r.length + 1))).map Nat.succ := by
            simp
          rw [h1, h2, List.range_succ_eq_map]
          exact List.sublist_cons_self _ _
  · -- the pattern is longer than the sequence: no occurrence at all
    have : s.length + 1 - (a :: r).length = 0 := by simp; omega
    rw [occSeq_eq_filter, this]
    simp

theorem occ_dropLast_ge (data : Corpus) (p : Pat) (hp : p ≠ []) :
    occ data p ≤ occ data p.dropLast := by
  rw [occ, occ]
  induction data with
  | nil => simp
  | cons s data ih =>
    simp only [List.map_cons, List.sum_cons]
    exact Nat.add_le_add (occSeq_dropLast_ge s p hp) ih

theorem occ_tail_ge (data : Corpus) (p : Pat) (hp : p ≠ []) :
    occ data p ≤ occ data (p.drop 1) := by
  rw [occ, occ]
  induction data with
  | nil => simp
  | cons s data ih =>
    simp only [List.map_cons, List.sum_cons]
    exact Nat.add_le_add (occSeq_tail_ge s p hp) ih

theorem window_join {s : Pat} {off m : Nat} (hm : 1 ≤ m)
    (h : off + 1 + m ≤ s.length) :
    (s.drop off).take (m + 1)
      = (s.drop off).take m ++
          (((s.drop (off + 1)).take m).drop
            (((s.drop (off + 1)).take m).length - 1)) := by
  have hlen : ((s.drop (off + 1)).take m).length = m :=
    window_length (by omega)
  rw [hlen]
  have h1 : (s.drop off).take (m + 1)
      = (s.drop off).take m ++ ((s.drop off).drop m).take 1 := by
    rw [← List.take_add]
  have e1 : m - (m - 1) = 1 := by omega
  have e2 : off + 1 + (m - 1) = off + m := by omega
  rw [h1, List.drop_drop, List.drop_take, List.drop_drop, e1, e2]

end FSPM

/-! ### The adjacency scan of the position queue -/

namespace FSPM

theorem recLt_trans {x y z : QRec} (h1 : recLt x y) (h2 : recLt y z) :
    recLt x z := by
  rcases h1 with h1 | ⟨h1a, h1b⟩ <;> rcases h2 with h2 | ⟨h2a, h2b⟩ <;>
    unfold recLt <;> omega

theorem recLt_irrefl (x : QRec) : ¬recLt x x := by
  unfold recLt; omega

theorem recLt_of_ne_keys {x y : QRec} (hx : x.1 = y.1 → x.2.1 ≠ y.2.1) :
    recLt x y ∨ recLt y x := by
  unfold recLt
  by_cases h : x.1 = y.1
  · have := hx h; omega
  · omega

theorem posJoin_fst (imap : List ((Nat × Nat) × Nat)) (pats : List (Nat × Pat))
    (cur : QRec) (rest : List QRec) (tree : Tree) :
    (posJoin imap pats cur rest tree).1 = adjEmits imap (cur :: rest) := by
  induction rest generalizing cur tree with
  | nil => simp [posJoin, adjEmits]
  | cons nxt rest ih =>
    rw [posJoin]
    have hadj : adjEmits imap (cur :: nxt :: rest)
        = (match emitHit imap cur nxt with
           | some r => [r]
           | none => []) ++ adjEmits imap (nxt :: rest) := by
      rw [adjEmits, adjEmits]
      simp only [List.tail_cons, List.zip_cons_cons, List.filterMap_cons]
      rcases emitHit imap cur nxt with _ | r <;> simp
    rw [hadj]
    rcases hh : emitHit imap cur nxt with _ | r
    · show (posJoin imap pats nxt rest tree).1
        = [] ++ adjEmits imap (nxt :: rest)
      rw [ih]
      simp
    · show r :: (posJoin imap pats nxt rest
          (tree.increment_count ((dictFind pats r.2.2).getD []) 1)).1
        = [r] ++ adjEmits imap (nxt :: rest)
      rw [ih]
      simp

theorem posJoin_snd (imap : List ((Nat × Nat) × Nat)) (pats : List (Nat × Pat))
    (cur : QRec) (rest : List QRec) (tree : Tree) :
    (posJoin imap pats cur rest tree).2
      = incOnes tree ((adjEmits imap (cur :: rest)).map fun r =>
          (dictFind pats r.2.2).getD []) := by
  induction rest generalizing cur tree with
  | nil => simp [posJoin, adjEmits, incOnes]
  | cons nxt rest ih =>
    rw [posJoin]
    have hadj : adjEmits imap (cur :: nxt :: rest)
        = (match emitHit imap cur nxt with
           | some r => [r]
           | none => []) ++ adjEmits imap (nxt :: rest) := by
      rw [adjEmits, adjEmits]
      simp only [List.tail_cons, List.zip_cons_cons, List.filterMap_cons]
      rcases emitHit imap cur nxt with _ | r <;> simp
    rw [hadj]
    rcases hh : emitHit imap cur nxt with _ | r
    · show (posJoin imap pats nxt rest tree).2
        = incOnes tree ((([] : List QRec) ++ adjEmits imap (nxt :: rest)).map
            fun r2 => (dictFind pats r2.2.2).getD [])
      rw [ih]
      simp
    · show (posJoin imap pats nxt rest
          (tree.increment_count ((dictFind pats r.2.2).getD []) 1)).2
        = incOnes tree (([r] ++ adjEmits imap (nxt :: rest)).map
            fun r2 => (dictFind pats r2.2.2).getD [])
      rw [ih]
      simp only [List.singleton_append, List.map_cons]
      rfl

theorem emitHit_elim {imap : List ((Nat × Nat) × Nat)} {a b e : QRec}
    (h : emitHit imap a b = some e) :
    b.1 = a.1 ∧ b.2.1 - a.2.1 = 1 ∧
      dictFind imap (a.2.2, b.2.2) = some e.2.2 ∧ e = (a.1, a.2.1, e.2.2) := by
  rw [emitHit] at h
  by_cases hc : b.1 = a.1 ∧ b.2.1 - a.2.1 = 1
  · rw [if_pos hc] at h
    rcases hd : dictFind imap (a.2.2, b.2.2) with _ | j
    · rw [hd] at h; simp at h
    · rw [hd] at h
      simp only [Option.some_inj] at h
      subst h
      exact ⟨hc.1, hc.2, rfl, rfl⟩
  · rw [if_neg hc] at h; simp at h

theorem emitHit_intro (imap : List ((Nat × Nat) × Nat)) {a b : QRec} {j : Nat}
    (hid : b.1 = a.1) (hoff : b.2.1 = a.2.1 + 1)
    (hd : dictFind imap (a.2.2, b.2.2) = some j) :
    emitHit imap a b = some (a.1, a.2.1, j) := by
  rw [emitHit, if_pos ⟨hid, by omega⟩, hd]

theorem mem_adjEmits_elim {imap : List ((Nat × Nat) × Nat)} {l : List QRec}
    {e : QRec} (h : e ∈ adjEmits imap l) :
    ∃ x y, x ∈ l ∧ y ∈ l ∧ (x, y) ∈ l.zip l.tail ∧ emitHit imap x y = some e := by
  rcases List.mem_filterMap.1 h with ⟨⟨x, y⟩, hmem, hemit⟩
  have hx := (List.of_mem_zip hmem).1
  have hy := List.tail_sublist l |>.mem (List.of_mem_zip hmem).2
  exact ⟨x, y, hx, hy, hmem, hemit⟩

theorem zip_tail_lt {l : List QRec} (hsort : l.Pairwise recLt) {x y : QRec}
    (h : (x, y) ∈ l.zip l.tail) : recLt x y := by
  induction l with
  | nil => simp at h
  | cons a rest ih =>
    cases rest with
    | nil => simp at h
    | cons b rest2 =>
      rw [List.tail_cons, List.zip_cons_cons] at h
      rcases List.mem_cons.1 h with h0 | h1
      · injection h0 with h0a h0b
        subst h0a; subst h0b
        exact (List.pairwise_cons.1 hsort).1 _ (List.mem_cons_self _ _)
      · exact ih (List.pairwise_cons.1 hsort).2
          (by rw [List.tail_cons]; exact h1)

theorem zip_tail_intro {l : List QRec} (hsort : l.Pairwise recLt) {x y : QRec}
    (hx : x ∈ l) (hy : y ∈ l) (hlt : recLt x y)
    (hbetween : ∀ z ∈ l, ¬(recLt x z ∧ recLt z y)) : (x, y) ∈ l.zip l.tail := by
  induction l with
  | nil => simp at hx
  | cons a rest ih =>
    rcases List.pairwise_cons.1 hsort with ⟨ha, hrest⟩
    rcases List.mem_cons.1 hx with rfl | hx2
    · -- x is the head; y must be the next element
      have hyr : y ∈ rest := by
        rcases List.mem_cons.1 hy with rfl | h2
        · exact absurd hlt (recLt_irrefl y)
        · exact h2
      cases rest with
      | nil => simp at hyr
      | cons b rest2 =>
        have hyb : y = b := by
          rcases List.mem_cons.1 hyr with rfl | hy3
          · rfl
          · exfalso
            exact hbetween b (by simp)
              ⟨ha b (by simp), (List.pairwise_cons.1 hrest).1 y hy3⟩
        subst hyb
        rw [List.tail_cons, List.zip_cons_cons]
        exact List.mem_cons_self _ _
    · -- x occurs later; recurse into the tail
      have hyr : y ∈ rest := by
        rcases List.mem_cons.1 hy with rfl | h2
        · exfalso
          exact absurd (recLt_trans (ha x hx2) hlt) (recLt_irrefl y)
        · exact h2
      have hmem := ih hrest hx2 hyr
        (fun z hz => hbetween z (List.mem_cons_of_mem a hz))
      cases rest with
      | nil => simp at hx2
      | cons b rest2 =>
        rw [List.tail_cons, List.zip_cons_cons]
        exact List.mem_cons_of_mem _ (by rw [List.tail_cons] at hmem; exact hmem)

theorem adjEmits_pairwise {imap : List ((Nat × Nat) × Nat)} {l : List QRec}
    (hsort : l.Pairwise recLt) : (adjEmits imap l).Pairwise recLt := by
  induction l with
  | nil => simp [adjEmits]
  | cons a rest ih =>
    rcases List.pairwise_cons.1 hsort with ⟨ha, hrest⟩
    cases rest with
    | nil => simp [adjEmits]
    | cons b rest2 =>
      have hadj : adjEmits imap (a :: b :: rest2)
          = (match emitHit imap a b with
             | some r => [r]
             | none => []) ++ adjEmits imap (b :: rest2) := by
        rw [adjEmits, adjEmits]
        simp only [List.tail_cons, List.zip_cons_cons, List.filterMap_cons]
        rcases emitHit imap a b with _ | r <;> simp
      rw [hadj]
      rcases hh : emitHit imap a b with _ | r
      · simpa using ih hrest
      · simp only [List.singleton_append, List.pairwise_cons]
        refine ⟨?hd, ih hrest⟩
        intro e he
        rcases mem_adjEmits_elim he with ⟨x, y, hxm, _hym, _hp, hex⟩
        rcases emitHit_elim hex with ⟨_, _, _, hee⟩
        rcases emitHit_elim hh with ⟨_, _, _, hre⟩
        have hax : recLt a x := ha x hxm
        rw [hre, hee]
        unfold recLt at hax ⊢
        simpa using hax

end FSPM

/-! ### Sorted queues, dictionaries and positions -/

namespace FSPM

theorem sorted_eq_of_mem_iff :
    ∀ {l1 l2 : List QRec}, l1.Pairwise recLt → l2.Pairwise recLt →
      (∀ x, x ∈ l1 ↔ x ∈ l2) → l1 = l2 := by
  intro l1
  induction l1 with
  | nil =>
    intro l2 _ _ hm
    cases l2 with
    | nil => rfl
    | cons b l2 => exact absurd ((hm b).2 (List.mem_cons_self _ _)) (by simp)
  | cons a l1 ih =>
    intro l2 h1 h2 hm
    cases l2 with
    | nil => exact absurd ((hm a).1 (List.mem_cons_self _ _)) (by simp)
    | cons b l2 =>
      rcases List.pairwise_cons.1 h1 with ⟨ha, h1t⟩
      rcases List.pairwise_cons.1 h2 with ⟨hb, h2t⟩
      have hab : a = b := by
        rcases List.mem_cons.1 ((hm a).1 (List.mem_cons_self _ _)) with h | h
        · exact h
        · rcases List.mem_cons.1 ((hm b).2 (List.mem_cons_self _ _)) with h' | h'
          · exact h'.symm
          · exact absurd (recLt_trans (ha b h') (hb a h)) (recLt_irrefl a)
      subst hab
      have hmt : ∀ x, x ∈ l1 ↔ x ∈ l2 := by
        intro x
        constructor
        · intro hx
          rcases List.mem_cons.1 ((hm x).1 (List.mem_cons_of_mem a hx)) with h | h
          · exact absurd (h ▸ ha x hx) (recLt_irrefl x)
          · exact h
        · intro hx
          rcases List.mem_cons.1 ((hm x).2 (List.mem_cons_of_mem a hx)) with h | h
          · exact absurd (h ▸ hb x hx) (recLt_irrefl x)
          · exact h
      rw [ih h1t h2t hmt]

theorem mem_adjEmits_iff {imap : List ((Nat × Nat) × Nat)} {l : List QRec}
    (hsort : l.Pairwise recLt) (e : QRec) :
    e ∈ adjEmits imap l ↔
      ∃ x y, x ∈ l ∧ y ∈ l ∧ y.1 = x.1 ∧ y.2.1 = x.2.1 + 1 ∧
        dictFind imap (x.2.2, y.2.2) = some e.2.2 ∧ e = (x.1, x.2.1, e.2.2) := by
  constructor
  · intro h
    rcases mem_adjEmits_elim h with ⟨x, y, hx, hy, hpair, hemit⟩
    rcases emitHit_elim hemit with ⟨hid, hoff, hdict, hee⟩
    exact ⟨x, y, hx, hy, hid, by omega, hdict, hee⟩
  · rintro ⟨x, y, hx, hy, hid, hoff, hdict, hee⟩
    have hlt : recLt x y := Or.inr ⟨hid.symm, by omega⟩
    have hbet : ∀ z ∈ l, ¬(recLt x z ∧ recLt z y) := by
      intro z _ ⟨hz1, hz2⟩
      unfold recLt at hz1 hz2
      omega
    have hpair := zip_tail_intro hsort hx hy hlt hbet
    refine List.mem_filterMap.2 ⟨(x, y), hpair, ?emit⟩
    rw [emitHit_intro imap hid hoff hdict, ← hee]

theorem adjEmits_nodup {imap : List ((Nat × Nat) × Nat)} {l : List QRec}
    (hsort : l.Pairwise recLt) : (adjEmits imap l).Nodup :=
  (adjEmits_pairwise hsort).imp fun hxy => by
    intro heq; subst heq; exact recLt_irrefl _ hxy

theorem foldl_prepend {α β : Type} (l : List α) (f : α → β) (init : List β) :
    l.foldl (fun m e => f e :: m) init = (l.map f).reverse ++ init := by
  induction l generalizing init with
  | nil => simp
  | cons a l ih => simp [ih, List.append_assoc]

theorem dictFind_eq_none_iff {α β : Type} [DecidableEq α] {l : List (α × β)}
    {k : α} : dictFind l k = none ↔ ∀ v, (k, v) ∉ l := by
  induction l with
  | nil => simp [dictFind]
  | cons e l ih =>
    rcases e with ⟨k2, v2⟩
    rw [dictFind]
    by_cases hk : k2 = k
    · subst hk
      rw [if_pos rfl]
      constructor
      · intro h; cases h
      · intro h
        exact absurd (List.mem_cons_self _ _) (h v2)
    · rw [if_neg hk, ih]
      constructor
      · intro h v hv
        rcases List.mem_cons.1 hv with h2 | h2
        · exact hk (congrArg Prod.fst h2.symm)
        · exact h v h2
      · intro h v hv
        exact h v (List.mem_cons_of_mem _ hv)

theorem dictFind_eq_some_iff {α β : Type} [DecidableEq α] {l : List (α × β)}
    (hnd : (l.map Prod.fst).Nodup) {k : α} {v : β} :
    dictFind l k = some v ↔ (k, v) ∈ l := by
  induction l with
  | nil => simp [dictFind]
  | cons e l ih =>
    rcases e with ⟨k2, v2⟩
    have hnd0 := hnd
    rw [List.map_cons, List.nodup_cons] at hnd0
    rcases hnd0 with ⟨hk2, hnd2⟩
    rw [dictFind]
    by_cases hk : k2 = k
    · subst hk
      rw [if_pos rfl]
      simp only [Option.some_inj]
      constructor
      · rintro rfl; exact List.mem_cons_self _ _
      · intro h
        rcases List.mem_cons.1 h with h2 | h2
        · exact (congrArg Prod.snd h2.symm)
        · exact absurd (List.mem_map.2 ⟨(k2, v), h2, rfl⟩) hk2
    · rw [if_neg hk, ih hnd2]
      constructor
      · exact fun h => List.mem_cons_of_mem _ h
      · intro h
        rcases List.mem_cons.1 h with h2 | h2
        · exact absurd (congrArg Prod.fst h2.symm) hk
        · exact h2

theorem dictFind_mem {α β : Type} [DecidableEq α] {l : List (α × β)} {k : α}
    {v : β} (h : dictFind l k = some v) : (k, v) ∈ l := by
  induction l with
  | nil => simp [dictFind] at h
  | cons e l ih =>
    rcases e with ⟨k2, v2⟩
    rw [dictFind] at h
    by_cases hk : k2 = k
    · subst hk
      rw [if_pos rfl] at h
      injection h with h2
      subst h2
      exact List.mem_cons_self _ _
    · rw [if_neg hk] at h
      exact List.mem_cons_of_mem _ (ih h)

theorem dictFind_isSome_of_mem {α β : Type} [DecidableEq α] {l : List (α × β)}
    {k : α} {v : β} (h : (k, v) ∈ l) : ∃ v2, dictFind l k = some v2 := by
  induction l with
  | nil => simp at h
  | cons e l ih =>
    rcases e with ⟨k2, v2⟩
    rw [dictFind]
    by_cases hk : k2 = k
    · exact ⟨v2, by rw [if_pos hk]⟩
    · rw [if_neg hk]
      rcases List.mem_cons.1 h with h2 | h2
      · exact absurd (congrArg Prod.fst h2.symm) hk
      · exact ih h2

theorem mem_withPos {α : Type} {l : List α} :
    ∀ {j : Nat} {e : Nat × α},
      e ∈ withPos j l ↔ ∃ k, l[k]? = some e.2 ∧ e.1 = j + k := by
  induction l with
  | nil => simp [withPos]
  | cons a l ih =>
    intro j e
    rw [withPos, List.mem_cons, ih]
    constructor
    · rintro (rfl | ⟨k, hk, he⟩)
      · exact ⟨0, by simp⟩
      · exact ⟨k + 1, by simpa using hk, by omega⟩
    · rintro ⟨k, hk, he⟩
      cases k with
      | zero =>
        left
        rcases e with ⟨e1, e2⟩
        simp only [List.getElem?_cons_zero, Option.some_inj] at hk
        simp only [Prod.mk.injEq]
        exact ⟨by omega, hk.symm⟩
      | succ k =>
        right
        exact ⟨k, by simpa using hk, by omega⟩

theorem withPos_map_snd {α : Type} (l : List α) :
    ∀ j, (withPos j l).map Prod.snd = l := by
  induction l with
  | nil => intro j; rfl
  | cons a l ih => intro j; simp [withPos, ih]

end FSPM

/-! ### Characterization of the candidate join -/

namespace FSPM

theorem flatMap_if_filter {α β : Type} (l : List α) (P : α → Bool)
    (f : α → List β) :
    (l.flatMap fun a => if P a then f a else [])
      = (l.filter P).flatMap f := by
  induction l with
  | nil => rfl
  | cons a l ih =>
    by_cases ha : P a <;> simp [List.filter_cons, ha, ih]

theorem flatMap_map_eq {α β γ : Type} (l : List α) (m : α → β)
    (f : α → List γ) (g : β → List γ) (h : ∀ a ∈ l, f a = g (m a)) :
    l.flatMap f = (l.map m).flatMap g := by
  induction l with
  | nil => rfl
  | cons a l ih =>
    simp only [List.flatMap_cons, List.map_cons,
      h a (List.mem_cons_self a l)]
    rw [ih fun x hx => h x (List.mem_cons_of_mem a hx)]

theorem all_children_def (t : Tree) :
    t.all_children = nucleotides.filterMap t.child := rfl

theorem filterMap_congr_mem {α β : Type} {l : List α} {f g : α → Option β}
    (h : ∀ a ∈ l, f a = g a) : l.filterMap f = l.filterMap g := by
  induction l with
  | nil => rfl
  | cons a l ih =>
    rw [List.filterMap_cons, List.filterMap_cons, h a (List.mem_cons_self a l),
      ih fun x hx => h x (List.mem_cons_of_mem a hx)]

theorem drop_append_singleton_last {x : Pat} {a : NC} :
    (x ++ [a]).drop ((x ++ [a]).length - 1) = [a] := by
  have h1 : (x ++ [a]).length - 1 = x.length := by simp
  rw [h1, List.drop_left]

/-- The inner join of `cand_triples` relative to the paths: for a frequent
prefix path `p`, the candidates are `p ++ [nc]` for each symbol `nc` such
that the node of `p.drop 1 ++ [nc]` is frequent. -/
def candOf (t : Tree) (thrd : Int) (p : Pat) : List (Pat × Nat × Nat) :=
  nucleotides.filterMap fun nc =>
    if freqB t thrd (p.drop 1 ++ [nc]) then
      some (p ++ [nc], (t.idxAt p).getD 0,
        (t.idxAt (p.drop 1 ++ [nc])).getD 0)
    else none

theorem cand_triples_eq {t : Tree} (hr : Rooted t) (len : Nat) (thrd : Int) :
    cand_triples t len thrd
      = (freqPaths t (len - 1) thrd).flatMap (candOf t thrd) := by
  rcases hr with ⟨hseq, hok⟩
  rw [cand_triples]
  have h1 : ((t.nodes_at_level (len - 1)).flatMap fun node_p =>
      if node_p.has_count_at_least thrd then
        (match t.pattern (node_p.seq.drop 1) with
          | none => []
          | some node_i =>
            node_i.all_children.filterMap fun node_s =>
              if node_s.has_count_at_least thrd then
                some (node_p.seq ++ node_s.seq.drop (node_s.seq.length - 1),
                      node_p.idx.getD 0, node_s.idx.getD 0)
              else none)
      else [])
      = (((t.nodes_at_level (len - 1)).filter
          fun n => n.has_count_at_least thrd).flatMap fun node_p =>
        match t.pattern (node_p.seq.drop 1) with
        | none => []
        | some node_i =>
          node_i.all_children.filterMap fun node_s =>
            if node_s.has_count_at_least thrd then
              some (node_p.seq ++ node_s.seq.drop (node_s.seq.length - 1),
                    node_p.idx.getD 0, node_s.idx.getD 0)
            else none) := by
    rw [← flatMap_if_filter]
  rw [h1]
  have h2 : ∀ n ∈ (t.nodes_at_level (len - 1)).filter
      (fun n => n.has_count_at_least thrd),
      (match t.pattern (n.seq.drop 1) with
        | none => []
        | some node_i =>
          node_i.all_children.filterMap fun node_s =>
            if node_s.has_count_at_least thrd then
              some (n.seq ++ node_s.seq.drop (node_s.seq.length - 1),
                    n.idx.getD 0, node_s.idx.getD 0)
            else none)
        = candOf t thrd n.seq := by
    intro n hn
    rcases List.mem_filter.1 hn with ⟨hn2, _⟩
    rcases Tree.mem_nodes_at_level.1 hn2 with ⟨p, _, hp⟩
    have hnseq : n.seq = p := by
      have := hok p n hp
      rw [this, hseq]; rfl
    have hidx : t.idxAt n.seq = n.idx := by
      rw [hnseq, Tree.idxAt, hp, Option.some_bind]
    rw [candOf]
    rcases hni : t.pattern (n.seq.drop 1) with _ | node_i
    · -- no intersection node: every symbol test fails
      have hfall : ∀ nc : NC, freqB t thrd (n.seq.drop 1 ++ [nc]) = false := by
        intro nc
        have hca : t.countAt (n.seq.drop 1 ++ [nc]) = none := by
          rw [Tree.countAt, Tree.pattern_append, hni]
          simp
        rw [freqB, hca]
        rfl
      show ([] : List (Pat × Nat × Nat)) = candOf t thrd n.seq
      symm
      rw [candOf]
      refine List.filterMap_eq_nil_iff.2 fun nc _ => ?fmnil
      rw [hfall nc]
      simp
    · show node_i.all_children.filterMap (fun node_s =>
          if node_s.has_count_at_least thrd then
            some (n.seq ++ node_s.seq.drop (node_s.seq.length - 1),
                  n.idx.getD 0, node_s.idx.getD 0)
          else none)
        = candOf t thrd n.seq
      rw [candOf]
      rw [all_children_def, List.filterMap_filterMap]
      refine (filterMap_congr_mem ?fmcongr).symm
      intro nc _
      rcases hchs : node_i.child nc with _ | node_s
      · have hf : freqB t thrd (n.seq.drop 1 ++ [nc]) = false := by
          rw [freqB]
          have : t.countAt (n.seq.drop 1 ++ [nc]) = none := by
            rw [Tree.countAt, Tree.pattern_append, hni, Option.some_bind,
              Tree.pattern_cons, hchs]
            rfl
          rw [this]
          simp
        rw [hf]
        simp
      · have hps : t.pattern (n.seq.drop 1 ++ [nc]) = some node_s := by
          rw [Tree.pattern_append, hni, Option.some_bind, Tree.pattern_cons,
            hchs, Option.some_bind, Tree.pattern_nil]
        have hf : freqB t thrd (n.seq.drop 1 ++ [nc])
            = node_s.has_count_at_least thrd := by
          have hca : t.countAt (n.seq.drop 1 ++ [nc]) = node_s.count := by
            rw [Tree.countAt, hps, Option.some_bind]
          rw [freqB, hca, has_count_at_least_eq_freqB, freqB, Tree.countAt_nil]
        have hsseq : node_s.seq = n.seq.drop 1 ++ [nc] := by
          have := hok (n.seq.drop 1 ++ [nc]) node_s hps
          rw [this, hseq]; rfl
        have hsidx : t.idxAt (n.seq.drop 1 ++ [nc]) = node_s.idx := by
          rw [Tree.idxAt, hps, Option.some_bind]
        simp only [Option.some_bind]
        by_cases hfs : node_s.has_count_at_least thrd
        · rw [if_pos hfs, if_pos (by rw [hf]; exact hfs)]
          rw [hsseq, drop_append_singleton_last, hidx, hsidx]
        · rw [if_neg hfs, if_neg (by rw [hf]; exact hfs)]
  rw [flatMap_map_eq _ Tree.seq _ (candOf t thrd) h2]
  have h3 : ((t.nodes_at_level (len - 1)).filter
      fun n => n.has_count_at_least thrd).map Tree.seq
      = freqPaths t (len - 1) thrd := by
    rw [freq_level_seqs hok, hseq]
    simp
  rw [h3]

end FSPM

/-! ### The counting invariant of the Apriori phase -/

namespace FSPM

theorem mem_nucleotides (nc : NC) : nc ∈ nucleotides := by
  cases nc <;> simp [nucleotides]

theorem leads_length {p q : Pat} : leads p q = true → p.length ≤ q.length := by
  induction p generalizing q with
  | nil => intro _; simp
  | cons a p ih =>
    cases q with
    | nil => intro h; simp [leads] at h
    | cons b q =>
      intro h
      rw [leads, Bool.and_eq_true] at h
      have := ih h.2
      simp only [List.length_cons]
      omega

theorem leads_refl (p : Pat) : leads p p = true := by
  induction p with
  | nil => rfl
  | cons a p ih => simp [leads, ih]

theorem mem_subsequences_length {s : Pat} {len : Nat} {w : Pat}
    (h : w ∈ subsequences s len) : w.length = len := by
  rcases List.mem_map.1 h with ⟨i, hi, rfl⟩
  rw [List.mem_range] at hi
  exact window_length (by omega)

theorem memP_of_countAt {t : Tree} {p : Pat} {c : Int}
    (h : t.countAt p = some c) : t.memP p = true := by
  rw [Tree.countAt] at h
  rcases hp : t.pattern p with _ | n
  · rw [hp] at h; simp at h
  · simp [Tree.memP, hp]

theorem freqB_eq_true_iff {t : Tree} {thrd : Int} {p : Pat} :
    freqB t thrd p = true ↔ ∃ c, t.countAt p = some c ∧ thrd ≤ c := by
  rw [freqB]
  rcases h : t.countAt p with _ | c <;> simp [h]

theorem seq_addOnes (t : Tree) (l : List Pat) : (addOnes t l).seq = t.seq := by
  induction l generalizing t with
  | nil => rfl
  | cons q l ih =>
    have hstep : addOnes t (q :: l) = addOnes (t.add q (some 1) none) l := rfl
    rw [hstep, ih, Tree.seq_add]

theorem seq_addPlain (t : Tree) (l : List Pat) :
    (addPlain t l).seq = t.seq := by
  induction l generalizing t with
  | nil => rfl
  | cons q l ih =>
    have hstep : addPlain t (q :: l) = addPlain (t.add q none none) l := rfl
    rw [hstep, ih, Tree.seq_add]

theorem seq_incOnes (t : Tree) (l : List Pat) : (incOnes t l).seq = t.seq := by
  induction l generalizing t with
  | nil => rfl
  | cons q l ih =>
    have hstep : incOnes t (q :: l) = incOnes (t.increment_count q 1) l := rfl
    rw [hstep, ih, Tree.seq_increment]

theorem idxAt_leaf_path (x p : Pat) : (Tree.leaf x).idxAt p = none := by
  rw [Tree.idxAt, Tree.pattern_leaf]
  by_cases hp : p = [] <;> simp [hp, Tree.leaf, Tree.idx]

theorem countAt_leaf_path (x p : Pat) : (Tree.leaf x).countAt p = none := by
  rw [Tree.countAt, Tree.pattern_leaf]
  by_cases hp : p = [] <;> simp [hp, Tree.leaf, Tree.count]

theorem countAt_initial_tree (data : Corpus) (len : Nat) (p : Pat) :
    (initial_tree data len).countAt p =
      if p.length = len ∧ 1 ≤ occ data p then some (occ data p : Int)
      else none := by
  rw [initial_tree_eq, Tree.countAt_addOnes, countAt_leaf_path,
    pcount_flat_subsequences]
  by_cases hl : p.length = len
  · by_cases ho : 1 ≤ occ data p
    · simp [hl, ho, show 0 < occ data p from ho]
    · simp [hl, ho, show ¬(0 < occ data p) from ho]
  · simp [hl]

theorem NoIdx_initial_tree (data : Corpus) (len : Nat) :
    NoIdx (initial_tree data len) := by
  intro p
  rw [initial_tree_eq, Tree.idxAt_addOnes, idxAt_leaf_path]

theorem initial_tree_CountInv (data : Corpus) (thrd : Int) (min_len : Nat) :
    CountInv data thrd min_len min_len (initial_tree data min_len) := by
  refine ⟨⟨?seq, ?okk⟩, ?sound, ?complete, ?bound⟩
  · rw [initial_tree_eq, seq_addOnes]; rfl
  · rw [initial_tree_eq]
    exact Tree.SeqOK_addOnes (Tree.SeqOK_leaf []) _
  · intro p c h
    rw [countAt_initial_tree] at h
    by_cases hc : p.length = min_len ∧ 1 ≤ occ data p
    · rw [if_pos hc] at h
      exact ⟨le_of_eq hc.1.symm, le_of_eq hc.1,
        (Option.some_inj.1 h).symm, hc.2⟩
    · rw [if_neg hc] at h; cases h
  · intro p h1 h2 hf
    have hl : p.length = min_len := le_antisymm h2 h1
    rw [countAt_initial_tree, if_pos (And.intro hl hf.1)]
  · intro p h
    by_cases hp : p = []
    · subst hp; simp
    · rw [initial_tree_eq, Tree.memP_addOnes, Bool.or_eq_true] at h
      rcases h with h | h
      · rw [Tree.memP_leaf] at h
        exact absurd h hp
      · rw [List.any_eq_true] at h
        rcases h with ⟨q, hq, hle⟩
        rcases List.mem_flatMap.1 hq with ⟨s, _, hw⟩
        have := mem_subsequences_length hw
        have := leads_length hle
        omega

end FSPM

namespace FSPM

theorem freqB_iff_freqOcc {data : Corpus} {thrd : Int} {min_len L : Nat}
    {t : Tree} (hI : CountInv data thrd min_len L t) {p : Pat}
    (h1 : min_len ≤ p.length) (h2 : p.length ≤ L) :
    freqB t thrd p = true ↔ freqOcc data thrd p := by
  rw [freqB_eq_true_iff]
  constructor
  · rintro ⟨c, hc, ht⟩
    rcases hI.sound p c hc with ⟨_, _, rfl, ho⟩
    exact ⟨ho, ht⟩
  · intro hf
    exact ⟨_, hI.complete p h1 h2 hf, hf.2⟩

theorem candidates_eq (t : Tree) (len : Nat) (thrd : Int) :
    candidates t len thrd = (cand_triples t len thrd).map fun e => e.1 := by
  rw [candidates, cand_triples, map_flatMap]
  refine flatMap_congr fun node_p _ => ?point
  by_cases hP : node_p.has_count_at_least thrd = true
  · rw [if_pos hP, if_pos hP]
    rcases hni : t.pattern (node_p.seq.drop 1) with _ | ni
    · rfl
    · show ni.all_children.filterMap (fun node_s =>
          if node_s.has_count_at_least thrd then
            some (node_p.seq ++ node_s.seq.drop (node_s.seq.length - 1))
          else none)
        = (ni.all_children.filterMap (fun node_s =>
            if node_s.has_count_at_least thrd then
              some (node_p.seq ++ node_s.seq.drop (node_s.seq.length - 1),
                    node_p.idx.getD 0, node_s.idx.getD 0)
            else none)).map fun e => e.1
      rw [List.map_filterMap]
      refine filterMap_congr_mem fun node_s _ => ?q
      by_cases hf : node_s.has_count_at_least thrd = true <;> simp [hf]
  · rw [if_neg hP, if_neg hP]; rfl

theorem mem_candOf {t : Tree} {thrd : Int} {p : Pat} {e : Pat × Nat × Nat} :
    e ∈ candOf t thrd p ↔ ∃ nc, freqB t thrd (p.drop 1 ++ [nc]) = true ∧
      e = (p ++ [nc], (t.idxAt p).getD 0,
           (t.idxAt (p.drop 1 ++ [nc])).getD 0) := by
  rw [candOf, List.mem_filterMap]
  constructor
  · rintro ⟨nc, _, h⟩
    by_cases hf : freqB t thrd (p.drop 1 ++ [nc]) = true
    · rw [if_pos hf] at h
      exact ⟨nc, hf, (Option.some_inj.1 h).symm⟩
    · rw [if_neg hf] at h; cases h
  · rintro ⟨nc, hf, rfl⟩
    exact ⟨nc, mem_nucleotides nc, by rw [if_pos hf]⟩

theorem mem_cand_triples {t : Tree} (hr : Rooted t) {len : Nat} {thrd : Int}
    {e : Pat × Nat × Nat} :
    e ∈ cand_triples t len thrd ↔ ∃ p nc, p ∈ freqPaths t (len - 1) thrd ∧
      freqB t thrd (p.drop 1 ++ [nc]) = true ∧
      e = (p ++ [nc], (t.idxAt p).getD 0,
           (t.idxAt (p.drop 1 ++ [nc])).getD 0) := by
  rw [cand_triples_eq hr, List.mem_flatMap]
  constructor
  · rintro ⟨p, hp, he⟩
    rcases mem_candOf.1 he with ⟨nc, hf, rfl⟩
    exact ⟨p, nc, hp, hf, rfl⟩
  · rintro ⟨p, nc, hp, hf, rfl⟩
    exact ⟨p, hp, mem_candOf.2 ⟨nc, hf, rfl⟩⟩

theorem mem_candidates {t : Tree} (hr : Rooted t) {len : Nat} {thrd : Int}
    {q : Pat} :
    q ∈ candidates t len thrd ↔ ∃ p nc, p ∈ freqPaths t (len - 1) thrd ∧
      freqB t thrd (p.drop 1 ++ [nc]) = true ∧ q = p ++ [nc] := by
  rw [candidates_eq, List.mem_map]
  constructor
  · rintro ⟨e, he, rfl⟩
    rcases (mem_cand_triples hr).1 he with ⟨p, nc, hp, hf, rfl⟩
    exact ⟨p, nc, hp, hf, rfl⟩
  · rintro ⟨p, nc, hp, hf, rfl⟩
    exact ⟨(p ++ [nc], (t.idxAt p).getD 0,
            (t.idxAt (p.drop 1 ++ [nc])).getD 0),
      (mem_cand_triples hr).2 ⟨p, nc, hp, hf, rfl⟩, rfl⟩

theorem candidates_complete {data : Corpus} {thrd : Int} {min_len L : Nat}
    {t : Tree} (hI : CountInv data thrd min_len L t) (hmin : 1 ≤ min_len)
    (hL : min_len ≤ L) {q : Pat} (hlen : q.length = L + 1)
    (hf : freqOcc data thrd q) : q ∈ candidates t (L + 1) thrd := by
  have hq : q ≠ [] := by intro h; rw [h] at hlen; simp at hlen
  have hdl : q.dropLast.length = L := by
    rw [List.length_dropLast, hlen]
    omega
  have htl : (q.drop 1).length = L := by
    rw [List.length_drop, hlen]
    omega
  have hfd : freqOcc data thrd q.dropLast := by
    have hm := occ_dropLast_ge data q hq
    exact ⟨le_trans hf.1 hm, le_trans hf.2 (by exact_mod_cast hm)⟩
  have hft : freqOcc data thrd (q.drop 1) := by
    have hm := occ_tail_ge data q hq
    exact ⟨le_trans hf.1 hm, le_trans hf.2 (by exact_mod_cast hm)⟩
  have hfbd : freqB t thrd q.dropLast = true :=
    (freqB_iff_freqOcc hI (by omega) (by omega)).2 hfd
  have hfbt : freqB t thrd (q.drop 1) = true :=
    (freqB_iff_freqOcc hI (by omega) (by omega)).2 hft
  refine (mem_candidates hI.rooted).2
    ⟨q.dropLast, q.getLast hq, ?inpaths, ?suffix, ?join⟩
  · refine mem_freqPaths.2 ⟨?len, hfbd⟩
    simp [hdl]
  · rw [← List.drop_append_of_le_length (by omega),
      List.dropLast_append_getLast hq]
    exact hfbt
  · exact (List.dropLast_append_getLast hq).symm

end FSPM

namespace FSPM

theorem run_apriori_countAt {data : Corpus} {thrd : Int} {min_len L : Nat}
    {t : Tree} (hI : CountInv data thrd min_len L t) (p : Pat) :
    (run_apriori data t (L + 1) thrd).countAt p =
      if p.length = L + 1 then
        (if (addPlain t (candidates t (L + 1) thrd)).memP p = true
            ∧ 1 ≤ occ data p
         then some (occ data p : Int) else none)
      else t.countAt p := by
  rw [run_apriori_eq, Tree.countAt_incOnes, Tree.countAt_addPlain,
    pcount_flat_subsequences]
  by_cases hl : p.length = L + 1
  · have hnone : t.countAt p = none := by
      rcases hc : t.countAt p with _ | c
      · rfl
      · rcases hI.sound p c hc with ⟨_, hle, _, _⟩
        omega
    rw [if_pos hl, if_pos hl, hnone]
    by_cases hm : (addPlain t (candidates t (L + 1) thrd)).memP p = true
    · by_cases ho : 1 ≤ occ data p
      · rw [if_pos (And.intro hm (show 0 < occ data p by omega)),
          if_pos (And.intro hm ho)]
        simp
      · rw [if_neg (show ¬((addPlain t (candidates t (L + 1) thrd)).memP p
              = true ∧ 0 < occ data p) from fun hx => absurd hx.2 (by omega)),
          if_neg (show ¬((addPlain t (candidates t (L + 1) thrd)).memP p
              = true ∧ 1 ≤ occ data p) from fun hx => ho hx.2)]
    · rw [if_neg (show ¬((addPlain t (candidates t (L + 1) thrd)).memP p
            = true ∧ 0 < occ data p) from fun hx => hm hx.1),
        if_neg (show ¬((addPlain t (candidates t (L + 1) thrd)).memP p
            = true ∧ 1 ≤ occ data p) from fun hx => hm hx.1)]
  · rw [if_neg hl, if_neg hl]
    simp

end FSPM

namespace FSPM

theorem run_apriori_CountInv {data : Corpus} {thrd : Int} {min_len L : Nat}
    {t : Tree} (hI : CountInv data thrd min_len L t) (hmin : 1 ≤ min_len)
    (hL : min_len ≤ L) :
    CountInv data thrd min_len (L + 1) (run_apriori data t (L + 1) thrd) := by
  refine ⟨⟨?seq, ?okk⟩, ?sound, ?complete, ?bound⟩
  · rw [run_apriori_eq, seq_incOnes, seq_addPlain]
    exact hI.rooted.1
  · rw [run_apriori_eq]
    exact Tree.SeqOK_incOnes (Tree.SeqOK_addPlain hI.rooted.2 _) _
  · intro p c h
    rw [run_apriori_countAt hI] at h
    by_cases hl : p.length = L + 1
    · rw [if_pos hl] at h
      by_cases hc : (addPlain t (candidates t (L + 1) thrd)).memP p = true
          ∧ 1 ≤ occ data p
      · rw [if_pos hc] at h
        exact ⟨by omega, by omega, (Option.some_inj.1 h).symm, hc.2⟩
      · rw [if_neg hc] at h; cases h
    · rw [if_neg hl] at h
      rcases hI.sound p c h with ⟨h1, h2, h3, h4⟩
      exact ⟨h1, by omega, h3, h4⟩
  · intro p h1 h2 hf
    rw [run_apriori_countAt hI]
    by_cases hl : p.length = L + 1
    · have hcand : p ∈ candidates t (L + 1) thrd :=
        candidates_complete hI hmin hL hl hf
      have hm : (addPlain t (candidates t (L + 1) thrd)).memP p = true := by
        rw [Tree.memP_addPlain, Bool.or_eq_true]
        right
        rw [List.any_eq_true]
        exact ⟨p, hcand, leads_refl p⟩
      rw [if_pos hl, if_pos (And.intro hm hf.1)]
    · rw [if_neg hl]
      exact hI.complete p h1 (by omega) hf
  · intro p h
    rw [run_apriori_eq, Tree.memP_incOnes, Tree.memP_addPlain,
      Bool.or_eq_true] at h
    rcases h with h | h
    · exact le_trans (hI.bound p h) (by omega)
    · rw [List.any_eq_true] at h
      rcases h with ⟨q, hq, hle⟩
      rcases (mem_candidates hI.rooted).1 hq with ⟨p', nc, hp', _, rfl⟩
      have hlen : p'.length = L + 1 - 1 := (mem_freqPaths.1 hp').1
      have := leads_length hle
      simp only [List.length_append, List.length_cons, List.length_nil] at this
      omega

theorem run_apriori_NoIdx {data : Corpus} {t : Tree} {len : Nat} {thrd : Int}
    (h : NoIdx t) : NoIdx (run_apriori data t len thrd) := by
  intro p
  rw [run_apriori_eq, Tree.idxAt_incOnes, Tree.idxAt_addPlain]
  exact h p

theorem mem_all_patterns_at_least {t : Tree} (hr : Rooted t) {thrd : Int}
    {p : Pat} {c : Int} :
    (p, c) ∈ t.all_patterns_at_least thrd ↔
      t.countAt p = some c ∧ thrd ≤ c := by
  rw [Tree.all_patterns_at_least, List.mem_filterMap]
  constructor
  · rintro ⟨n, hn, he⟩
    by_cases hcnt : n.has_count_at_least thrd = true
    · rw [if_pos hcnt] at he
      rcases Option.map_eq_some'.1 he with ⟨c0, hc0, hpc⟩
      rcases Tree.mem_all_nodes.1 hn with ⟨q, hq⟩
      have hseq : n.seq = q := by
        have := hr.2 q n hq
        rw [this, hr.1]; rfl
      have hpq : p = q := by
        have h5 := congrArg Prod.fst hpc
        simp at h5
        rw [← h5, hseq]
      have hcc : c0 = c := by
        have h5 := congrArg Prod.snd hpc
        simpa using h5
      refine ⟨?ca, ?thr⟩
      · rw [hpq, Tree.countAt, hq, Option.some_bind, hc0, hcc]
      · rw [has_count_at_least_eq_freqB, freqB_eq_true_iff] at hcnt
        rcases hcnt with ⟨c1, hc1, ht1⟩
        rw [Tree.countAt_nil, hc0] at hc1
        have h6 : c0 = c1 := Option.some_inj.1 hc1
        rw [← hcc]
        omega
    · rw [if_neg hcnt] at he; cases he
  · rintro ⟨h, ht⟩
    rw [Tree.countAt] at h
    rcases hq : t.pattern p with _ | n
    · rw [hq] at h; cases h
    · rw [hq, Option.some_bind] at h
      have hcnt : n.has_count_at_least thrd = true :=
        (has_count_at_least_eq_freqB n thrd).trans
          (freqB_eq_true_iff.2
            ⟨c, show n.countAt [] = some c by simp [h], ht⟩) ▸ rfl
      refine ⟨n, Tree.mem_all_nodes.2 ⟨p, hq⟩, ?body⟩
      rw [if_pos hcnt, h]
      have h7 := hr.2 p n hq
      rw [h7, hr.1]
      rfl

theorem results_char {data : Corpus} {thrd : Int} {min_len L : Nat} {t : Tree}
    (hI : CountInv data thrd min_len L t) (p : Pat) (c : Int) :
    (p, c) ∈ t.all_patterns_at_least thrd ↔
      min_len ≤ p.length ∧ p.length ≤ L ∧ freqOcc data thrd p ∧
        c = (occ data p : Int) := by
  rw [mem_all_patterns_at_least hI.rooted]
  constructor
  · rintro ⟨h, ht⟩
    rcases hI.sound p c h with ⟨h1, h2, h3, h4⟩
    exact ⟨h1, h2, ⟨h4, h3 ▸ ht⟩, h3⟩
  · rintro ⟨h1, h2, hf, rfl⟩
    exact ⟨hI.complete p h1 h2 hf, hf.2⟩

end FSPM

/-! ### The loop of frequent_patterns, stepwise -/

namespace FSPM

theorem mineLoop_zero (data : Corpus) (thrd : Int) (method : Method)
    (st : MineState) : mineLoop data thrd method st 0 = st := rfl

theorem mineLoop_succ (data : Corpus) (thrd : Int) (method : Method)
    (st : MineState) (f : Nat) :
    mineLoop data thrd method st (f + 1)
      = mineLoop data thrd method (mineStep data thrd method st) f := rfl

theorem mineStep_apriori (data : Corpus) (thrd : Int) (st : MineState) :
    mineStep data thrd .apriori st =
      { st with
        len := st.len + 1,
        tree := run_apriori data st.tree (st.len + 1) thrd,
        passes := st.passes + 1,
        aprioriExts := st.aprioriExts + 1 } := by
  rw [mineStep]
  simp

theorem mineStep_position (data : Corpus) (thrd : Int) (st : MineState) :
    mineStep data thrd .position st =
      { st with
        len := st.len + 1,
        queue := (run_position st.queue st.tree (st.len + 1) thrd).1,
        tree := (run_position st.queue st.tree (st.len + 1) thrd).2 } := by
  rw [mineStep]
  simp

theorem mineStep_hybrid_big (data : Corpus) (thrd : Int) (st : MineState)
    (h1 : st.useApriori = true)
    (h2 : (MAX_SIZE : Int) < number_of_freq_subseq st.tree st.len thrd) :
    mineStep data thrd .hybrid st =
      { st with
        len := st.len + 1,
        tree := run_apriori data st.tree (st.len + 1) thrd,
        passes := st.passes + 1,
        aprioriExts := st.aprioriExts + 1 } := by
  rw [mineStep]
  simp [h1, not_le.2 h2]

theorem mineStep_hybrid_switch (data : Corpus) (thrd : Int) (st : MineState)
    (h1 : st.useApriori = true)
    (h2 : number_of_freq_subseq st.tree st.len thrd ≤ (MAX_SIZE : Int)) :
    mineStep data thrd .hybrid st =
      { st with
        useApriori := false,
        enteredPos := true,
        passes := st.passes + 1,
        len := st.len + 1,
        queue := (run_position
          (initial_queue data (assign_pattern_index st.tree st.len thrd)
            st.len thrd)
          (assign_pattern_index st.tree st.len thrd) (st.len + 1) thrd).1,
        tree := (run_position
          (initial_queue data (assign_pattern_index st.tree st.len thrd)
            st.len thrd)
          (assign_pattern_index st.tree st.len thrd) (st.len + 1) thrd).2 } := by
  rw [mineStep]
  simp [h1, h2]

theorem mineStep_hybrid_pos (data : Corpus) (thrd : Int) (st : MineState)
    (h1 : st.useApriori = false) :
    mineStep data thrd .hybrid st =
      { st with
        len := st.len + 1,
        queue := (run_position st.queue st.tree (st.len + 1) thrd).1,
        tree := (run_position st.queue st.tree (st.len + 1) thrd).2 } := by
  rw [mineStep]
  simp [h1]

end FSPM

namespace FSPM

theorem mineLoop_apriori_spec (data : Corpus) (thrd : Int) (min_len : Nat)
    (hmin : 1 ≤ min_len) :
    ∀ (fuel : Nat) (st : MineState), min_len ≤ st.len →
      CountInv data thrd min_len st.len st.tree →
      CountInv data thrd min_len (st.len + fuel)
          (mineLoop data thrd .apriori st fuel).tree ∧
        (mineLoop data thrd .apriori st fuel).len = st.len + fuel := by
  intro fuel
  induction fuel with
  | zero =>
    intro st hL h
    exact ⟨h, rfl⟩
  | succ f ih =>
    intro st hL h
    rw [mineLoop_succ, mineStep_apriori]
    have h3 := ih
      { st with
        len := st.len + 1,
        tree := run_apriori data st.tree (st.len + 1) thrd,
        passes := st.passes + 1,
        aprioriExts := st.aprioriExts + 1 }
      (by simp; omega)
      (by simpa using run_apriori_CountInv h hmin hL)
    simp only at h3
    have harith : st.len + 1 + f = st.len + (f + 1) := by omega
    rw [harith] at h3
    exact h3

theorem mineLoop_apriori_passes (data : Corpus) (thrd : Int) :
    ∀ (fuel : Nat) (st : MineState),
      (mineLoop data thrd .apriori st fuel).passes = st.passes + fuel := by
  intro fuel
  induction fuel with
  | zero => intro st; rfl
  | succ f ih =>
    intro st
    rw [mineLoop_succ, mineStep_apriori, ih]
    simp only
    omega

theorem mineLoop_position_passes (data : Corpus) (thrd : Int) :
    ∀ (fuel : Nat) (st : MineState),
      (mineLoop data thrd .position st fuel).passes = st.passes := by
  intro fuel
  induction fuel with
  | zero => intro st; rfl
  | succ f ih =>
    intro st
    rw [mineLoop_succ, mineStep_position, ih]

theorem mineLoop_hybrid_book (data : Corpus) (thrd : Int) :
    ∀ (fuel : Nat) (st : MineState), st.useApriori = !st.enteredPos →
      (mineLoop data thrd .hybrid st fuel).useApriori
          = !(mineLoop data thrd .hybrid st fuel).enteredPos ∧
      (mineLoop data thrd .hybrid st fuel).passes + st.aprioriExts
          + (if st.enteredPos then 1 else 0)
        = st.passes + (mineLoop data thrd .hybrid st fuel).aprioriExts
          + (if (mineLoop data thrd .hybrid st fuel).enteredPos
             then 1 else 0) := by
  intro fuel
  induction fuel with
  | zero =>
    intro st h
    exact ⟨h, rfl⟩
  | succ f ih =>
    intro st h
    rw [mineLoop_succ]
    by_cases h1 : st.useApriori = true
    · by_cases h2 : number_of_freq_subseq st.tree st.len thrd ≤ (MAX_SIZE : Int)
      · rw [mineStep_hybrid_switch data thrd st h1 h2]
        have h3 := ih
          { st with
            useApriori := false,
            enteredPos := true,
            passes := st.passes + 1,
            len := st.len + 1,
            queue := (run_position
              (initial_queue data (assign_pattern_index st.tree st.len thrd)
                st.len thrd)
              (assign_pattern_index st.tree st.len thrd) (st.len + 1) thrd).1,
            tree := (run_position
              (initial_queue data (assign_pattern_index st.tree st.len thrd)
                st.len thrd)
              (assign_pattern_index st.tree st.len thrd) (st.len + 1) thrd).2 }
          (by simp)
        simp only at h3
        have he : st.enteredPos = false := by
          rw [h1] at h
          cases hE : st.enteredPos
          · rfl
          · rw [hE] at h; simp at h
        rw [he]
        refine ⟨h3.1, ?eq⟩
        have h4 := h3.2
        rw [if_true] at h4
        rw [if_neg (show ¬((false : Bool) = true) by simp)]
        omega
      · rw [mineStep_hybrid_big data thrd st h1 (not_le.1 h2)]
        have h3 := ih
          { st with
            len := st.len + 1,
            tree := run_apriori data st.tree (st.len + 1) thrd,
            passes := st.passes + 1,
            aprioriExts := st.aprioriExts + 1 }
          (by simpa using h)
        simp only at h3
        exact ⟨h3.1, by omega⟩
    · have h1f : st.useApriori = false := by
        cases hE : st.useApriori
        · rfl
        · exact absurd hE h1
      rw [mineStep_hybrid_pos data thrd st h1f]
      have h3 := ih
        { st with
          len := st.len + 1,
          queue := (run_position st.queue st.tree (st.len + 1) thrd).1,
          tree := (run_position st.queue st.tree (st.len + 1) thrd).2 }
        (by simpa using h)
      simp only at h3
      exact ⟨h3.1, by omega⟩

end FSPM

/-! ### The switch into the Position phase -/

namespace FSPM

theorem assign_pattern_index_props (t : Tree) (len : Nat) (thrd : Int)
    (q : Pat) :
    (assign_pattern_index t len thrd).countAt q = t.countAt q ∧
      (assign_pattern_index t len thrd).memP q = t.memP q ∧
      ((assign_pattern_index t len thrd).pattern q).map Tree.seq
        = (t.pattern q).map Tree.seq ∧
      (assign_pattern_index t len thrd).idxAt q
        = idxShift (posOf (freqPaths t len thrd) q) 0 (t.idxAt q) := by
  have h := (assignIdxAux_spec len t thrd 0).2 q
  rw [assign_pattern_index]
  exact h

theorem Rooted_assign {t : Tree} (hr : Rooted t) (len : Nat) (thrd : Int) :
    Rooted (assign_pattern_index t len thrd) := by
  have hseq : (assign_pattern_index t len thrd).seq = t.seq := by
    have h := (assign_pattern_index_props t len thrd []).2.2.1
    have h0 : (assign_pattern_index t len thrd).pattern [] =
        some (assign_pattern_index t len thrd) := rfl
    have h1 : t.pattern [] = some t := rfl
    rw [h0, h1, Option.map_some', Option.map_some'] at h
    exact Option.some_inj.1 h
  constructor
  · rw [hseq]; exact hr.1
  · intro p n hp
    have h := (assign_pattern_index_props t len thrd p).2.2.1
    rw [hp, Option.map_some'] at h
    rcases hq : t.pattern p with _ | m
    · rw [hq] at h; cases h
    · rw [hq, Option.map_some'] at h
      have hnm : n.seq = m.seq := Option.some_inj.1 h
      rw [hnm, hr.2 p m hq, hseq]

theorem CountInv_assign {data : Corpus} {thrd : Int} {min_len L : Nat}
    {t : Tree} (hI : CountInv data thrd min_len L t) (len : Nat) :
    CountInv data thrd min_len L (assign_pattern_index t len thrd) := by
  refine ⟨Rooted_assign hI.rooted len thrd, ?sound, ?complete, ?bound⟩
  · intro p c h
    rw [(assign_pattern_index_props t len thrd p).1] at h
    exact hI.sound p c h
  · intro p h1 h2 hf
    rw [(assign_pattern_index_props t len thrd p).1]
    exact hI.complete p h1 h2 hf
  · intro p h
    rw [(assign_pattern_index_props t len thrd p).2.1] at h
    exact hI.bound p h

theorem idxAt_assign_NoIdx {t : Tree} (hN : NoIdx t) (len : Nat) (thrd : Int)
    (q : Pat) :
    (assign_pattern_index t len thrd).idxAt q
      = posOf (freqPaths t len thrd) q := by
  rw [(assign_pattern_index_props t len thrd q).2.2.2, hN q]
  rcases h : posOf (freqPaths t len thrd) q with _ | k
  · rfl
  · rw [idxShift]
    simp

theorem freqB_assign (t : Tree) (len : Nat) (thrd thrd2 : Int) (q : Pat) :
    freqB (assign_pattern_index t len thrd) thrd2 q = freqB t thrd2 q := by
  rw [freqB, freqB, (assign_pattern_index_props t len thrd q).1]

theorem window_length_iff {s : Pat} {off len : Nat} (hlen : 1 ≤ len) :
    (window s off len).length = len ↔ off + len ≤ s.length := by
  rw [window, List.length_take, List.length_drop]
  omega

theorem initial_queue_eq (data : Corpus) (t : Tree) (len : Nat) (thrd : Int) :
    initial_queue data t len thrd
      = trackQueue data len (fun w => freqB t thrd w)
          (fun w => (t.idxAt w).getD 0) := by
  rw [initial_queue, trackQueue]
  refine flatMap_congr fun idseq _ => ?block
  refine filterMap_congr_mem fun possub _ => ?elt
  rcases hp : t.pattern possub.2 with _ | node
  · have hf : freqB t thrd possub.2 = false := by
      rw [freqB, Tree.countAt, hp]
      rfl
    show (none : Option QRec)
      = if freqB t thrd possub.2 = true
        then some (idseq.1, possub.1, (t.idxAt possub.2).getD 0) else none
    rw [hf]
    simp
  · show (if node.has_count_at_least thrd
        then some (idseq.1, possub.1, node.idx.getD 0) else none)
      = if freqB t thrd possub.2 = true
        then some (idseq.1, possub.1, (t.idxAt possub.2).getD 0) else none
    have hfb : freqB t thrd possub.2 = node.has_count_at_least thrd := by
      rw [has_count_at_least_eq_freqB, freqB, freqB, Tree.countAt_nil,
        Tree.countAt, hp, Option.some_bind]
    have hidx : t.idxAt possub.2 = node.idx := by
      rw [Tree.idxAt, hp, Option.some_bind]
    rw [hfb, hidx]

end FSPM

namespace FSPM

theorem mem_trackBlock {l : List Pat} {test : Pat → Bool} {val : Pat → Nat}
    {id j : Nat} {r : QRec} :
    r ∈ (withPos j l).filterMap
        (fun ps => if test ps.2 = true then some (id, ps.1, val ps.2)
                   else none)
      ↔ ∃ k w, l[k]? = some w ∧ test w = true ∧ r = (id, j + k, val w) := by
  rw [List.mem_filterMap]
  constructor
  · rintro ⟨ps, hmem, hps⟩
    rcases mem_withPos.1 hmem with ⟨k, hk, hj⟩
    by_cases ht : test ps.2 = true
    · rw [if_pos ht] at hps
      have hr := (Option.some_inj.1 hps).symm
      exact ⟨k, ps.2, hk, ht, by rw [hr, hj]⟩
    · rw [if_neg ht] at hps; cases hps
  · rintro ⟨k, w, hk, ht, rfl⟩
    refine ⟨(j + k, w), mem_withPos.2 ⟨k, by simpa using hk, rfl⟩, ?e⟩
    rw [if_pos ht]

theorem getElem_subsequences {s : Pat} {len k : Nat}
    (h : k < s.length + 1 - len) :
    (subsequences s len)[k]? = some (window s k len) := by
  rw [subsequences, List.getElem?_map, List.getElem?_range h,
    Option.map_some']
  rfl

theorem mem_trackQueue {data : Corpus} {len : Nat} {test : Pat → Bool}
    {val : Pat → Nat} {r : QRec} :
    r ∈ trackQueue data len test val ↔
      ∃ id s off, data[id]? = some s ∧ off + len ≤ s.length ∧
        test (window s off len) = true ∧
        r = (id, off, val (window s off len)) := by
  rw [trackQueue, List.mem_flatMap]
  constructor
  · rintro ⟨idseq, hseq, hin⟩
    rcases mem_withPos.1 hseq with ⟨id, hid, hidq⟩
    rcases mem_trackBlock.1 hin with ⟨k, w, hk, ht, hr⟩
    rcases List.getElem?_eq_some_iff.1 hk with ⟨hklt, hkw⟩
    have hlen : (subsequences idseq.2 len).length = idseq.2.length + 1 - len := by
      rw [subsequences, List.length_map, List.length_range]
    rw [hlen] at hklt
    have hw : w = window idseq.2 k len := by
      have := @getElem_subsequences idseq.2 len k hklt
      rw [hk] at this
      exact Option.some_inj.1 this
    refine ⟨idseq.1, idseq.2, k, ?did, by omega, by rw [← hw]; exact ht, ?rr⟩
    · rw [hidq]; simpa using hid
    · rw [hr, ← hw]; simp
  · rintro ⟨id, s, off, hid, hoff, ht, rfl⟩
    refine ⟨(id, s), mem_withPos.2 ⟨id, by simpa using hid, by omega⟩,
      mem_trackBlock.2 ⟨off, window s off len, ?g1, ht, by simp⟩⟩
    show (subsequences s len)[off]? = some (window s off len)
    exact getElem_subsequences (by omega)

theorem trackBlock_sorted (l : List Pat) (test : Pat → Bool) (val : Pat → Nat)
    (id : Nat) : ∀ j, ((withPos j l).filterMap
      (fun ps => if test ps.2 = true then some (id, ps.1, val ps.2)
                 else none)).Pairwise recLt := by
  induction l with
  | nil => intro j; simp [withPos]
  | cons a l ih =>
    intro j
    have hstep : withPos j (a :: l) = (j, a) :: withPos (j + 1) l := rfl
    rw [hstep]
    by_cases ht : test a = true
    · rw [List.filterMap_cons_some (show _ = some (id, j, val a) by
        rw [if_pos ht])]
      refine List.Pairwise.cons ?head (ih (j + 1))
      intro y hy
      rcases mem_trackBlock.1 hy with ⟨k, w, _, _, rfl⟩
      right
      exact ⟨rfl, show j < j + 1 + k by omega⟩
    · rw [List.filterMap_cons_none (show _ = none by rw [if_neg ht])]
      exact ih (j + 1)

theorem track_flat_id_bound {len : Nat} {test : Pat → Bool} {val : Pat → Nat} :
    ∀ {data : Corpus} {j : Nat} {r : QRec},
      r ∈ (withPos j data).flatMap (fun idseq =>
        (withPos 0 (subsequences idseq.2 len)).filterMap
          (fun possub => if test possub.2 = true
            then some (idseq.1, possub.1, val possub.2) else none)) →
      j ≤ r.1 := by
  intro data j r h
  rcases List.mem_flatMap.1 h with ⟨idseq, hseq, hin⟩
  rcases mem_withPos.1 hseq with ⟨k, _, hk⟩
  rcases mem_trackBlock.1 hin with ⟨k2, w, _, _, rfl⟩
  simp only
  omega

theorem trackQueue_sorted (data : Corpus) (len : Nat) (test : Pat → Bool)
    (val : Pat → Nat) : (trackQueue data len test val).Pairwise recLt := by
  rw [trackQueue]
  suffices h : ∀ (d : Corpus) (j : Nat), ((withPos j d).flatMap (fun idseq =>
      (withPos 0 (subsequences idseq.2 len)).filterMap
        (fun possub => if test possub.2 = true
          then some (idseq.1, possub.1, val possub.2) else none))).Pairwise
        recLt from h data 0
  intro d
  induction d with
  | nil => intro j; simp [withPos]
  | cons s d ih =>
    intro j
    have hstep : withPos j (s :: d) = (j, s) :: withPos (j + 1) d := rfl
    rw [hstep, List.flatMap_cons, List.pairwise_append]
    refine ⟨trackBlock_sorted _ _ _ _ 0, ih (j + 1), ?cross⟩
    intro x hx y hy
    rcases mem_trackBlock.1 hx with ⟨k, w, _, _, rfl⟩
    have hy1 := track_flat_id_bound hy
    left
    show j < y.1
    omega

end FSPM

namespace FSPM

theorem switch_PosInv {data : Corpus} {thrd : Int} {min_len L : Nat}
    {t : Tree} (hI : CountInv data thrd min_len L t) (hN : NoIdx t)
    (hmin : 1 ≤ min_len) (hL : min_len ≤ L) :
    PosInv data thrd min_len L (assign_pattern_index t L thrd)
      (initial_queue data (assign_pattern_index t L thrd) L thrd) := by
  have hidx : ∀ q, (assign_pattern_index t L thrd).idxAt q
      = posOf (freqPaths t L thrd) q := idxAt_assign_NoIdx hN L thrd
  refine ⟨CountInv_assign hI L, hmin, hL, ?inj, ?sorted, ?qsound, ?qcomplete⟩
  · intro p q k hp hq hkp hkq
    rw [hidx] at hkp hkq
    have h1 := getElem_of_posOf hkp
    have h2 := getElem_of_posOf hkq
    rw [h1] at h2
    exact Option.some_inj.1 h2
  · rw [initial_queue_eq]
    exact trackQueue_sorted data L _ _
  · intro r hr
    rw [initial_queue_eq] at hr
    rcases mem_trackQueue.1 hr with ⟨id, str, off, hid, hoff, hfb, rfl⟩
    have hw : window str off L ∈ freqPaths t L thrd := by
      refine mem_freqPaths.2 ⟨(window_length_iff (by omega)).2 hoff, ?fb⟩
      rw [← freqB_assign t L thrd thrd (window str off L)]
      exact hfb
    rcases posOf_isSome_of_mem hw with ⟨k, hk⟩
    refine ⟨str, hid, (window_length_iff (by omega)).2 hoff, ?widx⟩
    show (assign_pattern_index t L thrd).idxAt (window str off L)
      = some (((assign_pattern_index t L thrd).idxAt
          (window str off L)).getD 0)
    rw [hidx, hk]
    rfl
  · intro id str off hid hwl hfb
    have hw : window str off L ∈ freqPaths t L thrd := by
      refine mem_freqPaths.2 ⟨hwl, ?fb2⟩
      rw [← freqB_assign t L thrd thrd (window str off L)]
      exact hfb
    rcases posOf_isSome_of_mem hw with ⟨k, hk⟩
    refine ⟨k, by rw [hidx, hk], ?memq⟩
    rw [initial_queue_eq]
    refine mem_trackQueue.2 ⟨id, str, off, hid,
      (window_length_iff (by omega)).1 hwl, hfb, ?req⟩
    rw [hidx, hk]
    rfl

end FSPM

/-! ### The candidate-insertion fold of run_position -/

namespace FSPM

theorem countAt_addIdxed (t : Tree) (l : List (Pat × Nat)) (p : Pat) :
    (addIdxed t l).countAt p = t.countAt p := by
  induction l generalizing t with
  | nil => rfl
  | cons e l ih =>
    have hstep : addIdxed t (e :: l) = addIdxed (t.add e.1 none (some e.2)) l :=
      rfl
    rw [hstep, ih, Tree.countAt_add]
    by_cases hpq : p = e.1 <;> simp [hpq]

theorem seq_addIdxed (t : Tree) (l : List (Pat × Nat)) :
    (addIdxed t l).seq = t.seq := by
  induction l generalizing t with
  | nil => rfl
  | cons e l ih =>
    have hstep : addIdxed t (e :: l) = addIdxed (t.add e.1 none (some e.2)) l :=
      rfl
    rw [hstep, ih, Tree.seq_add]

theorem SeqOK_addIdxed {t : Tree} (h : Tree.SeqOK t) (l : List (Pat × Nat)) :
    Tree.SeqOK (addIdxed t l) := by
  induction l generalizing t with
  | nil => exact h
  | cons e l ih => exact ih (Tree.SeqOK_add h e.1 _ _)

theorem memP_addIdxed (t : Tree) (l : List (Pat × Nat)) (p : Pat) :
    (addIdxed t l).memP p = (t.memP p || l.any fun e => leads p e.1) := by
  induction l generalizing t with
  | nil => simp [addIdxed]
  | cons e l ih =>
    have hstep : addIdxed t (e :: l) = addIdxed (t.add e.1 none (some e.2)) l :=
      rfl
    rw [hstep, ih, Tree.memP_add]
    simp [List.any_cons, Bool.or_assoc]

theorem idxAt_addIdxed_not_mem {l : List (Pat × Nat)} {p : Pat}
    (h : ∀ e ∈ l, e.1 ≠ p) (t : Tree) :
    (addIdxed t l).idxAt p = t.idxAt p := by
  induction l generalizing t with
  | nil => rfl
  | cons e l ih =>
    have hstep : addIdxed t (e :: l) = addIdxed (t.add e.1 none (some e.2)) l :=
      rfl
    rw [hstep, ih (fun x hx => h x (List.mem_cons_of_mem e hx)),
      Tree.idxAt_add]
    rw [if_neg (fun hx => h e (List.mem_cons_self e l) hx.symm)]

theorem idxAt_addIdxed_mem {l : List (Pat × Nat)}
    (hnd : (l.map fun e => e.1).Nodup) {e : Pat × Nat} (he : e ∈ l)
    (t : Tree) : (addIdxed t l).idxAt e.1 = some e.2 := by
  induction l generalizing t with
  | nil => cases he
  | cons a l ih =>
    rw [List.map_cons, List.nodup_cons] at hnd
    have hstep : addIdxed t (a :: l) = addIdxed (t.add a.1 none (some a.2)) l :=
      rfl
    rw [hstep]
    rcases List.mem_cons.1 he with rfl | he2
    · rw [idxAt_addIdxed_not_mem
        (fun x hx hxe => hnd.1 (by rw [← hxe]; exact List.mem_map_of_mem _ hx)),
        Tree.idxAt_add, if_pos rfl]
    · exact ih hnd.2 he2 _

theorem idxAt_none_of_not_memP {t : Tree} {p : Pat}
    (h : t.memP p = false) : t.idxAt p = none := by
  rw [Tree.memP] at h
  rw [Tree.idxAt]
  rcases hp : t.pattern p with _ | n
  · rfl
  · rw [hp] at h; simp at h

end FSPM

/-! ### Distinctness of the candidate patterns, and occurrence witnesses -/

namespace FSPM

theorem nodup_flatMap_of {α β : Type} {l : List α} {f : α → List β}
    (hl : l.Nodup) (hf : ∀ a ∈ l, (f a).Nodup)
    (hdisj : ∀ a b, a ∈ l → b ∈ l → a ≠ b →
      ∀ x, x ∈ f a → x ∈ f b → False) :
    (l.flatMap f).Nodup := by
  induction l with
  | nil => simp
  | cons a l ih =>
    rw [List.flatMap_cons, List.nodup_append]
    rcases List.nodup_cons.1 hl with ⟨ha, hl2⟩
    refine ⟨hf a (List.mem_cons_self a l),
      ih hl2 (fun b hb => hf b (List.mem_cons_of_mem a hb)) ?hd, ?dj⟩
    · intro b c hb hc hbc x hxb hxc
      exact hdisj b c (List.mem_cons_of_mem a hb) (List.mem_cons_of_mem a hc)
        hbc x hxb hxc
    · intro x hxa hxl
      rcases List.mem_flatMap.1 hxl with ⟨b, hb, hxb⟩
      exact hdisj a b (List.mem_cons_self a l) (List.mem_cons_of_mem a hb)
        (fun hab => ha (hab ▸ hb)) x hxa hxb

theorem nucleotides_nodup : nucleotides.Nodup := by decide

theorem cand_pats_nodup {t : Tree} (hr : Rooted t) (len : Nat) (thrd : Int) :
    ((cand_triples t len thrd).map fun e => e.1).Nodup := by
  rw [cand_triples_eq hr, map_flatMap]
  refine nodup_flatMap_of (nodup_freqPaths t (len - 1) thrd) ?each ?disj
  · intro p hp
    rw [candOf, List.map_filterMap]
    refine List.Nodup.filterMap ?inj nucleotides_nodup
    intro nc nc2 b hb hb2
    by_cases h1 : freqB t thrd (p.drop 1 ++ [nc]) = true
    · rw [if_pos h1, Option.map_some', Option.mem_some_iff] at hb
      by_cases h2 : freqB t thrd (p.drop 1 ++ [nc2]) = true
      · rw [if_pos h2, Option.map_some', Option.mem_some_iff] at hb2
        simp only at hb hb2
        have h3 : p ++ [nc] = p ++ [nc2] := by rw [hb, ← hb2]
        have h4 := List.append_cancel_left h3
        simpa using h4
      · rw [if_neg h2] at hb2; cases hb2
    · rw [if_neg h1] at hb; cases hb
  · intro p q hp hq hpq x hxp hxq
    rcases List.mem_map.1 hxp with ⟨e1, he1, hx1⟩
    rcases mem_candOf.1 he1 with ⟨nc, _, rfl⟩
    rcases List.mem_map.1 hxq with ⟨e2, he2, hx2⟩
    rcases mem_candOf.1 he2 with ⟨nc2, _, rfl⟩
    have hx1b : p ++ [nc] = x := by simpa using hx1
    have hx2b : q ++ [nc2] = x := by simpa using hx2
    have heq : p ++ [nc] = q ++ [nc2] := by rw [hx1b, ← hx2b]
    apply hpq
    have h1 := congrArg List.dropLast heq
    rw [List.dropLast_concat, List.dropLast_concat] at h1
    exact h1

theorem occSeq_pos_iff {s p : Pat} :
    1 ≤ occSeq s p ↔
      ∃ off, off + p.length ≤ s.length ∧ window s off p.length = p := by
  rw [occSeq]
  constructor
  · intro h
    have hne : (List.range (s.length + 1 - p.length)).filter
        (fun off => decide ((s.drop off).take p.length = p)) ≠ [] := by
      intro hx
      rw [hx] at h
      simp at h
    rcases List.exists_mem_of_ne_nil _ hne with ⟨off, hoff⟩
    rcases List.mem_filter.1 hoff with ⟨hr, hw⟩
    rw [List.mem_range] at hr
    have hw2 : (s.drop off).take p.length = p := of_decide_eq_true hw
    refine ⟨off, ?bound, hw2⟩
    have := congrArg List.length hw2
    rw [List.length_take, List.length_drop] at this
    omega
  · rintro ⟨off, hb, hw⟩
    have hmem : off ∈ (List.range (s.length + 1 - p.length)).filter
        (fun off => decide ((s.drop off).take p.length = p)) := by
      rw [List.mem_filter, List.mem_range]
      exact ⟨by omega, decide_eq_true hw⟩
    have := List.length_pos.2 (List.ne_nil_of_mem hmem)
    omega

theorem sum_pos_iff_exists (l : List Nat) :
    1 ≤ l.sum ↔ ∃ x ∈ l, 1 ≤ x := by
  induction l with
  | nil => simp
  | cons a l ih =>
    rw [List.sum_cons]
    constructor
    · intro h
      by_cases ha : 1 ≤ a
      · exact ⟨a, List.mem_cons_self a l, ha⟩
      · have h0 : a = 0 := by omega
        rcases ih.1 (by omega) with ⟨x, hx, h1⟩
        exact ⟨x, List.mem_cons_of_mem a hx, h1⟩
    · rintro ⟨x, hx, h1⟩
      rcases List.mem_cons.1 hx with rfl | hx2
      · omega
      · have := ih.2 ⟨x, hx2, h1⟩
        omega

theorem occ_pos_iff {data : Corpus} {p : Pat} :
    1 ≤ occ data p ↔
      ∃ (id : Nat) (s : Pat) (off : Nat), data[id]? = some s ∧
        off + p.length ≤ s.length ∧ window s off p.length = p := by
  rw [occ, sum_pos_iff_exists]
  constructor
  · rintro ⟨x, hx, h1⟩
    rcases List.mem_map.1 hx with ⟨s, hs, rfl⟩
    rcases occSeq_pos_iff.1 h1 with ⟨off, hb, hw⟩
    rcases List.mem_iff_getElem?.1 hs with ⟨id, hid⟩
    exact ⟨id, s, off, hid, hb, hw⟩
  · rintro ⟨id, s, off, hid, hb, hw⟩
    refine ⟨occSeq s p, ?memm, occSeq_pos_iff.2 ⟨off, hb, hw⟩⟩
    exact List.mem_map_of_mem (fun s => occSeq s p)
      (List.mem_iff_getElem?.2 ⟨id, hid⟩)

end FSPM

/-! ### Counting the emitted records of a position pass -/

namespace FSPM

theorem pcount_filter (l : List Pat) (test : Pat → Bool) (q : Pat) :
    pcount (l.filter test) q = if test q = true then pcount l q else 0 := by
  induction l with
  | nil => by_cases h : test q = true <;> simp [pcount, h]
  | cons a l ih =>
    by_cases ha : test a = true
    · rw [List.filter_cons_of_pos ha, Tree.pcount_cons, Tree.pcount_cons, ih]
      by_cases h2 : test q = true
      · rw [if_pos h2, if_pos h2]
      · rw [if_neg h2, if_neg h2]
        have haq : ¬(a = q) := fun h => h2 (by rw [← h]; exact ha)
        rw [if_neg haq]
    · rw [List.filter_cons_of_neg ha, ih]
      by_cases h2 : test q = true
      · rw [if_pos h2, if_pos h2, Tree.pcount_cons]
        have haq : ¬(a = q) := fun h => ha (by rw [h]; exact h2)
        rw [if_neg haq]
        omega
      · rw [if_neg h2, if_neg h2]

theorem pcount_flatMap {α : Type} (l : List α) (f : α → List Pat) (q : Pat) :
    pcount (l.flatMap f) q = (l.map fun a => pcount (f a) q).sum := by
  induction l with
  | nil => rfl
  | cons a l ih =>
    rw [List.flatMap_cons, pcount_append, ih, List.map_cons, List.sum_cons]

theorem block_map_eq {test : Pat → Bool} {val : Pat → Nat} {id : Nat}
    (g : QRec → Pat) :
    ∀ (l : List Pat) (j : Nat),
      (∀ k w, l[k]? = some w → test w = true → g (id, j + k, val w) = w) →
      (((withPos j l).filterMap fun ps =>
          if test ps.2 = true then some (id, ps.1, val ps.2) else none).map g)
        = l.filter test := by
  intro l
  induction l with
  | nil => intro j h; rfl
  | cons a l ih =>
    intro j h
    have hstep : withPos j (a :: l) = (j, a) :: withPos (j + 1) l := rfl
    rw [hstep]
    by_cases ht : test a = true
    · rw [List.filterMap_cons_some (show _ = some (id, j, val a) by
        rw [if_pos ht]), List.map_cons, List.filter_cons_of_pos ht]
      have hga : g (id, j, val a) = a := by
        have hh := h 0 a (by simp) ht
        simpa using hh
      rw [hga]
      congr 1
      refine ih (j + 1) ?hh
      intro k w hk htw
      have hh := h (k + 1) w (by simpa using hk) htw
      have harith : j + (k + 1) = j + 1 + k := by omega
      rw [harith] at hh
      exact hh
    · rw [List.filterMap_cons_none (show _ = none by rw [if_neg ht]),
        List.filter_cons_of_neg ht]
      refine ih (j + 1) ?hh2
      intro k w hk htw
      have hh := h (k + 1) w (by simpa using hk) htw
      have harith : j + (k + 1) = j + 1 + k := by omega
      rw [harith] at hh
      exact hh

theorem pcount_track_map {data : Corpus} {len : Nat} {test : Pat → Bool}
    {val : Pat → Nat} (g : QRec → Pat)
    (hg : ∀ id s off, data[id]? = some s → off + len ≤ s.length →
      test (window s off len) = true →
      g (id, off, val (window s off len)) = window s off len)
    (q : Pat) :
    pcount ((trackQueue data len test val).map g) q
      = if test q = true ∧ q.length = len then occ data q else 0 := by
  rw [trackQueue, map_flatMap]
  have hblocks : ∀ idseq ∈ withPos 0 data,
      (((withPos 0 (subsequences idseq.2 len)).filterMap fun possub =>
        if test possub.2 = true then some (idseq.1, possub.1, val possub.2)
        else none).map g) = (subsequences idseq.2 len).filter test := by
    intro idseq hmem
    rcases mem_withPos.1 hmem with ⟨id, hid, hidq⟩
    refine block_map_eq g _ 0 ?cond
    intro k w hk htw
    rcases List.getElem?_eq_some_iff.1 hk with ⟨hklt, _⟩
    have hlen2 : (subsequences idseq.2 len).length
        = idseq.2.length + 1 - len := by
      rw [subsequences, List.length_map, List.length_range]
    rw [hlen2] at hklt
    have hw : w = window idseq.2 k len := by
      have h2 := getElem_subsequences hklt
      rw [hk] at h2
      exact Option.some_inj.1 h2
    have hga := hg idseq.1 idseq.2 k (by rw [hidq]; simpa using hid)
      (by omega) (by rw [← hw]; exact htw)
    rw [← hw] at hga
    simpa using hga
  rw [flatMap_congr hblocks, pcount_flatMap]
  by_cases hc : test q = true ∧ q.length = len
  · rw [if_pos hc]
    have hterm : ∀ idseq : Nat × Pat,
        pcount ((subsequences idseq.2 len).filter test) q
          = occSeq idseq.2 q := by
      intro idseq
      rw [pcount_filter, if_pos hc.1, pcount_subsequences, if_pos hc.2]
    have hmapeq : ((withPos 0 data).map fun idseq =>
        pcount ((subsequences idseq.2 len).filter test) q)
        = (withPos 0 data).map fun idseq => occSeq idseq.2 q := by
      refine List.map_congr_left ?mc
      intro idseq _
      exact hterm idseq
    rw [hmapeq]
    have hcomp : ((withPos 0 data).map fun idseq => occSeq idseq.2 q)
        = data.map fun s => occSeq s q := by
      have h1 : ((withPos 0 data).map fun idseq => occSeq idseq.2 q)
          = ((withPos 0 data).map Prod.snd).map fun s => occSeq s q := by
        rw [List.map_map]
        rfl
      rw [h1, withPos_map_snd]
    rw [hcomp]
    rfl
  · rw [if_neg hc]
    have hterm : ∀ idseq : Nat × Pat,
        pcount ((subsequences idseq.2 len).filter test) q = 0 := by
      intro idseq
      rw [pcount_filter, pcount_subsequences]
      by_cases h1 : test q = true
      · by_cases h2 : q.length = len
        · exact absurd (And.intro h1 h2) hc
        · rw [if_pos h1, if_neg h2]
      · rw [if_neg h1]
    have hmapeq : ((withPos 0 data).map fun idseq =>
        pcount ((subsequences idseq.2 len).filter test) q)
        = (withPos 0 data).map fun idseq => (0 : Nat) := by
      refine List.map_congr_left ?mc2
      intro idseq _
      exact hterm idseq
    rw [hmapeq]
    simp

end FSPM

/-! ### Decomposing a non-empty position pass -/

namespace FSPM

theorem mem_withPos_map {α β : Type} {l : List α} {f : Nat × α → β} {x : β} :
    x ∈ (withPos 0 l).map f ↔ ∃ m a, l[m]? = some a ∧ x = f (m, a) := by
  rw [List.mem_map]
  constructor
  · rintro ⟨e, he, rfl⟩
    rcases mem_withPos.1 he with ⟨m, hm, hme⟩
    refine ⟨e.1, e.2, ?g1, rfl⟩
    rw [hme]
    simpa using hm
  · rintro ⟨m, a, hm, rfl⟩
    exact ⟨(m, a), mem_withPos.2 ⟨m, by simpa using hm, by omega⟩, rfl⟩

theorem withPos_fst_nodup {α : Type} (l : List α) :
    ∀ j, ((withPos j l).map fun e => e.1).Nodup := by
  induction l with
  | nil => intro j; simp [withPos]
  | cons a l ih =>
    intro j
    have hstep : withPos j (a :: l) = (j, a) :: withPos (j + 1) l := rfl
    rw [hstep, List.map_cons, List.nodup_cons]
    refine ⟨?hd, ih (j + 1)⟩
    intro hmem
    rcases List.mem_map.1 hmem with ⟨e, he, hfst⟩
    rcases mem_withPos.1 he with ⟨k, _, hk⟩
    rw [hk] at hfst
    simp at hfst
    omega

theorem imap_fold_eq (t : Tree) (len : Nat) (thrd : Int) :
    (candidate_mappings t len thrd).foldl
      (fun (m : List ((Nat × Nat) × Nat)) e => (e.2.1, e.2.2) :: m) []
      = imapOf t len thrd := by
  rw [foldl_prepend, List.append_nil, imapOf, candidate_mappings,
    List.map_map]
  rfl

theorem pats_fold_eq (t : Tree) (len : Nat) (thrd : Int) :
    (candidate_mappings t len thrd).foldl
      (fun (m : List (Nat × Pat)) e => (e.2.2, e.1) :: m) []
      = patsOf t len thrd := by
  rw [foldl_prepend, List.append_nil, patsOf, candidate_mappings,
    List.map_map]
  rfl

theorem adds_fold_eq (t : Tree) (len : Nat) (thrd : Int) :
    (candidate_mappings t len thrd).foldl
      (fun tr e => tr.add e.1 none (some e.2.2)) t
      = addIdxed t (candAdds t len thrd) := by
  rw [addIdxed, candAdds, candidate_mappings, List.foldl_map, List.foldl_map]

theorem run_position_cons_eq (cur : QRec) (rest : List QRec) (t : Tree)
    (len : Nat) (thrd : Int) :
    run_position (cur :: rest) t len thrd
      = (adjEmits (imapOf t len thrd) (cur :: rest),
         incOnes (addIdxed t (candAdds t len thrd))
           ((adjEmits (imapOf t len thrd) (cur :: rest)).map
             fun r => (dictFind (patsOf t len thrd) r.2.2).getD [])) := by
  have h1 : run_position (cur :: rest) t len thrd
      = posJoin (imapOf t len thrd) (patsOf t len thrd) cur rest
          (addIdxed t (candAdds t len thrd)) := by
    show posJoin
        ((candidate_mappings t len thrd).foldl
          (fun (m : List ((Nat × Nat) × Nat)) e => (e.2.1, e.2.2) :: m) [])
        ((candidate_mappings t len thrd).foldl
          (fun (m : List (Nat × Pat)) e => (e.2.2, e.1) :: m) [])
        cur rest
        ((candidate_mappings t len thrd).foldl
          (fun tr e => tr.add e.1 none (some e.2.2)) t)
      = posJoin (imapOf t len thrd) (patsOf t len thrd) cur rest
          (addIdxed t (candAdds t len thrd))
    rw [imap_fold_eq, pats_fold_eq, adds_fold_eq]
  rw [h1]
  refine Prod.ext ?f ?s
  · rw [posJoin_fst]
  · rw [posJoin_snd]

end FSPM

namespace FSPM

theorem idx_some_of_freqPath {data : Corpus} {thrd : Int} {min_len L : Nat}
    {t : Tree} {queue : List QRec} (hP : PosInv data thrd min_len L t queue)
    {p : Pat} (hp : p ∈ freqPaths t L thrd) : ∃ k, t.idxAt p = some k := by
  rcases mem_freqPaths.1 hp with ⟨hlen, hfb⟩
  rcases freqB_eq_true_iff.1 hfb with ⟨c, hc, hthr⟩
  rcases hP.counts.sound p c hc with ⟨h1, h2, h3, h4⟩
  rcases occ_pos_iff.1 h4 with ⟨id, s, off, hid, hb, hw⟩
  rw [hlen] at hb hw
  rcases hP.qcomplete id s off hid (by rw [hw]; exact hlen)
    (by rw [hw]; exact hfb) with ⟨k, hk, _⟩
  exact ⟨k, by rw [← hw]; exact hk⟩

theorem trips_keys_nodup {data : Corpus} {thrd : Int} {min_len L : Nat}
    {t : Tree} {queue : List QRec}
    (hP : PosInv data thrd min_len L t queue) :
    ((cand_triples t (L + 1) thrd).map fun e => e.2).Nodup := by
  have hfst := cand_pats_nodup hP.counts.rooted (L + 1) thrd
  have hnd : (cand_triples t (L + 1) thrd).Nodup :=
    List.Nodup.of_map _ hfst
  refine List.Nodup.map_on ?inj hnd
  intro x hx y hy hxy
  rcases (mem_cand_triples hP.counts.rooted).1 hx with ⟨p, nc, hp, hsfb, rfl⟩
  rcases (mem_cand_triples hP.counts.rooted).1 hy with ⟨q, nc2, hq, hsfb2, rfl⟩
  have harith : L + 1 - 1 = L := by omega
  rw [harith] at hp hq
  have hplen := (mem_freqPaths.1 hp).1
  have hqlen := (mem_freqPaths.1 hq).1
  have hLpos : 1 ≤ L := le_trans hP.minpos hP.lmin
  rcases idx_some_of_freqPath hP hp with ⟨ip, hip⟩
  rcases idx_some_of_freqPath hP hq with ⟨iq, hiq⟩
  have hsp : (p.drop 1 ++ [nc]) ∈ freqPaths t L thrd :=
    mem_freqPaths.2 ⟨by rw [List.length_append, List.length_drop]; simp; omega,
      hsfb⟩
  have hsq : (q.drop 1 ++ [nc2]) ∈ freqPaths t L thrd :=
    mem_freqPaths.2 ⟨by rw [List.length_append, List.length_drop]; simp; omega,
      hsfb2⟩
  rcases idx_some_of_freqPath hP hsp with ⟨sp, hspi⟩
  rcases idx_some_of_freqPath hP hsq with ⟨sq, hsqi⟩
  have h1 := congrArg Prod.fst hxy
  have h2 := congrArg Prod.snd hxy
  simp only at h1 h2
  rw [hip, hiq] at h1
  rw [hspi, hsqi] at h2
  simp at h1 h2
  have hpq : p = q := hP.inj p q ip hplen hqlen hip (by rw [hiq, h1])
  subst hpq
  have hss : p.drop 1 ++ [nc] = p.drop 1 ++ [nc2] := by
    refine hP.inj _ _ sp ?l1 ?l2 hspi (by rw [hsqi, h2])
    · rw [List.length_append, List.length_drop]; simp; omega
    · rw [List.length_append, List.length_drop]; simp; omega
  have hnc : nc = nc2 := by
    have h3 := List.append_cancel_left hss
    simpa using h3
  rw [hnc]

end FSPM

namespace FSPM

theorem candAdds_keys_eq (t : Tree) (len : Nat) (thrd : Int) :
    (candAdds t len thrd).map (fun e => e.1)
      = (cand_triples t len thrd).map fun e => e.1 := by
  rw [candAdds, List.map_map]
  have h2 : ((withPos 0 (cand_triples t len thrd)).map
      ((fun (e : Pat × Nat) => e.1) ∘ fun e => (e.2.1, e.1)))
      = ((withPos 0 (cand_triples t len thrd)).map Prod.snd).map
          fun trip => trip.1 := by
    rw [List.map_map]
    rfl
  rw [h2, withPos_map_snd]

theorem dictFind_imap {data : Corpus} {thrd : Int} {min_len L : Nat}
    {t : Tree} {queue : List QRec}
    (hP : PosInv data thrd min_len L t queue) {κ : Nat × Nat} {m : Nat} :
    dictFind (imapOf t (L + 1) thrd) κ = some m ↔
      ∃ trip, (cand_triples t (L + 1) thrd)[m]? = some trip ∧ trip.2 = κ := by
  have hkeys : ((imapOf t (L + 1) thrd).map Prod.fst).Nodup := by
    rw [imapOf, List.map_reverse, List.nodup_reverse, List.map_map]
    have h2 : ((withPos 0 (cand_triples t (L + 1) thrd)).map
        (Prod.fst ∘ fun e => (e.2.2, e.1)))
        = ((withPos 0 (cand_triples t (L + 1) thrd)).map Prod.snd).map
            fun trip => trip.2 := by
      rw [List.map_map]
      rfl
    rw [h2, withPos_map_snd]
    exact trips_keys_nodup hP
  rw [dictFind_eq_some_iff hkeys, imapOf, List.mem_reverse, mem_withPos_map]
  constructor
  · rintro ⟨m2, trip, htrip, he⟩
    have e1 := congrArg Prod.fst he
    have e2 := congrArg Prod.snd he
    simp only at e1 e2
    exact ⟨trip, by rw [e2]; exact htrip, e1.symm⟩
  · rintro ⟨trip, htrip, hκ⟩
    exact ⟨m, trip, htrip, by rw [hκ]⟩

theorem dictFind_pats {t : Tree} {len : Nat} {thrd : Int} {m : Nat}
    {trip : Pat × Nat × Nat}
    (htrip : (cand_triples t len thrd)[m]? = some trip) :
    dictFind (patsOf t len thrd) m = some trip.1 := by
  have hkeys : ((patsOf t len thrd).map Prod.fst).Nodup := by
    rw [patsOf, List.map_reverse, List.nodup_reverse, List.map_map]
    exact withPos_fst_nodup _ 0
  rw [dictFind_eq_some_iff hkeys, patsOf, List.mem_reverse, mem_withPos_map]
  exact ⟨m, trip, htrip, rfl⟩

theorem idxAt_tree1_cand {t : Tree} (hr : Rooted t) {len : Nat} {thrd : Int}
    {m : Nat} {trip : Pat × Nat × Nat}
    (htrip : (cand_triples t len thrd)[m]? = some trip) :
    (addIdxed t (candAdds t len thrd)).idxAt trip.1 = some m := by
  have hmem : ((trip.1, m) : Pat × Nat) ∈ candAdds t len thrd := by
    rw [candAdds]
    exact mem_withPos_map.2 ⟨m, trip, htrip, rfl⟩
  have h := idxAt_addIdxed_mem
    (by rw [candAdds_keys_eq]; exact cand_pats_nodup hr len thrd) hmem t
  simpa using h

theorem idxAt_tree1_not_cand {t : Tree} {len : Nat} {thrd : Int} {p : Pat}
    (hnp : ∀ trip ∈ cand_triples t len thrd, trip.1 ≠ p) :
    (addIdxed t (candAdds t len thrd)).idxAt p = t.idxAt p := by
  refine idxAt_addIdxed_not_mem ?ne t
  intro e he
  rw [candAdds] at he
  rcases mem_withPos_map.1 he with ⟨m, trip, htrip, rfl⟩
  exact hnp trip (List.mem_iff_getElem?.2 ⟨m, htrip⟩)

end FSPM

namespace FSPM

theorem trips_at_of_posOf {t : Tree} {len : Nat} {thrd : Int} {m : Nat}
    {w : Pat}
    (h : posOf ((cand_triples t len thrd).map fun x => x.1) w = some m) :
    ∃ trip, (cand_triples t len thrd)[m]? = some trip ∧ trip.1 = w := by
  have h2 := getElem_of_posOf h
  rw [List.getElem?_map] at h2
  rcases Option.map_eq_some'.1 h2 with ⟨trip, htrip, h1⟩
  exact ⟨trip, htrip, h1⟩

theorem posOf_of_trips_at {t : Tree} (hr : Rooted t) {len : Nat} {thrd : Int}
    {m : Nat} {trip : Pat × Nat × Nat}
    (htrip : (cand_triples t len thrd)[m]? = some trip) :
    posOf ((cand_triples t len thrd).map fun x => x.1) trip.1 = some m := by
  refine posOf_of_getElem (cand_pats_nodup hr len thrd) ?g
  rw [List.getElem?_map, htrip, Option.map_some']

theorem mem_emits_iff {data : Corpus} {thrd : Int} {min_len L : Nat}
    {t : Tree} {queue : List QRec}
    (hP : PosInv data thrd min_len L t queue) (e : QRec) :
    e ∈ adjEmits (imapOf t (L + 1) thrd) queue ↔
      ∃ (id : Nat) (s : Pat) (off : Nat), data[id]? = some s ∧
        off + (L + 1) ≤ s.length ∧
        (freqB t thrd (window s off (L + 1)).dropLast
          && freqB t thrd ((window s off (L + 1)).drop 1)) = true ∧
        e = (id, off, (posOf ((cand_triples t (L + 1) thrd).map fun x => x.1)
              (window s off (L + 1))).getD 0) := by
  have hLpos : 1 ≤ L := le_trans hP.minpos hP.lmin
  have harith : L + 1 - 1 = L := by omega
  rw [mem_adjEmits_iff hP.sorted]
  constructor
  · rintro ⟨x, y, hxq, hyq, hyx1, hyx2, hdict, he⟩
    rcases hP.qsound x hxq with ⟨s, hsx, hwlx, hix⟩
    rcases hP.qsound y hyq with ⟨s2, hsy, hwly, hiy⟩
    rw [hyx1, hsx] at hsy
    have hs2 : s2 = s := (Option.some_inj.1 hsy).symm
    rw [hs2] at hwly hiy
    rcases (dictFind_imap hP).1 hdict with ⟨trip, htrip, hkey⟩
    have htm : trip ∈ cand_triples t (L + 1) thrd :=
      List.mem_iff_getElem?.2 ⟨e.2.2, htrip⟩
    rcases (mem_cand_triples hP.counts.rooted).1 htm with
      ⟨p, nc, hp, hsfb, htripeq⟩
    rw [harith] at hp
    have hplen := (mem_freqPaths.1 hp).1
    have hsmem : p.drop 1 ++ [nc] ∈ freqPaths t L thrd :=
      mem_freqPaths.2
        ⟨by rw [List.length_append, List.length_drop]; simp; omega, hsfb⟩
    rcases idx_some_of_freqPath hP hp with ⟨ip, hip⟩
    rcases idx_some_of_freqPath hP hsmem with ⟨js, hjs⟩
    have hkey1 : trip.2.1 = x.2.2 := by rw [hkey]
    have hkey2 : trip.2.2 = y.2.2 := by rw [hkey]
    have htp1 : trip.2.1 = ip := by
      rw [htripeq]
      simp only
      rw [hip]
      rfl
    have htp2 : trip.2.2 = js := by
      rw [htripeq]
      simp only
      rw [hjs]
      rfl
    have hwxp : window s x.2.1 L = p := by
      refine hP.inj _ _ ip hwlx hplen ?i1 hip
      rw [hix, ← hkey1, htp1]
    have hwyp : window s y.2.1 L = p.drop 1 ++ [nc] := by
      refine hP.inj _ _ js hwly ?l2 ?i2 hjs
      · rw [List.length_append, List.length_drop]; simp; omega
      · rw [hiy, ← hkey2, htp2]
    have hbnd : x.2.1 + 1 + L ≤ s.length := by
      have := (window_length_iff hLpos).1 hwly
      omega
    have hjoin : window s x.2.1 (L + 1) = p ++ [nc] := by
      have hw := window_join hLpos hbnd
      have hlast : (window s (x.2.1 + 1) L).drop
          ((window s (x.2.1 + 1) L).length - 1) = [nc] := by
        rw [← hyx2, hwyp]
        have hl2 : (p.drop 1 ++ [nc]).length = L := by
          rw [List.length_append, List.length_drop]; simp; omega
        rw [hl2]
        have hdl : (p.drop 1).length = L - 1 := by
          rw [List.length_drop]; omega
        rw [← hdl, List.drop_left]
      rw [window, hw]
      show window s x.2.1 L ++ (window s (x.2.1 + 1) L).drop
          ((window s (x.2.1 + 1) L).length - 1) = p ++ [nc]
      rw [hwxp, hlast]
    refine ⟨x.1, s, x.2.1, hsx, by omega, ?tests, ?eform⟩
    · rw [hjoin, Bool.and_eq_true]
      constructor
      · rw [List.dropLast_concat]
        exact (mem_freqPaths.1 hp).2
      · rw [List.drop_append_of_le_length (by omega)]
        exact hsfb
    · have hpos : posOf ((cand_triples t (L + 1) thrd).map fun x => x.1)
          (window s x.2.1 (L + 1)) = some e.2.2 := by
        rw [hjoin]
        have h5 := posOf_of_trips_at hP.counts.rooted htrip
        rw [htripeq] at h5
        exact h5
      rw [hpos, he]
      rfl
  · rintro ⟨id, s, off, hid, hb, htests, he⟩
    rw [Bool.and_eq_true] at htests
    have hwd : (window s off (L + 1)).dropLast = window s off L :=
      window_dropLast hb
    have hwt : (window s off (L + 1)).drop 1 = window s (off + 1) L :=
      window_tail off L
    have hfx : freqB t thrd (window s off L) = true := by
      rw [← hwd]; exact htests.1
    have hfy : freqB t thrd (window s (off + 1) L) = true := by
      rw [← hwt]; exact htests.2
    rcases hP.qcomplete id s off hid ((window_length_iff hLpos).2 (by omega))
      hfx with ⟨kx, hkx, hxmem⟩
    rcases hP.qcomplete id s (off + 1) hid
      ((window_length_iff hLpos).2 (by omega)) hfy with ⟨ky, hky, hymem⟩
    have hjoin := window_join hLpos (show off + 1 + L ≤ s.length by omega)
    have hlen1 : (((s.drop (off + 1)).take L).drop
        (((s.drop (off + 1)).take L).length - 1)).length = 1 := by
      have hwl : ((s.drop (off + 1)).take L).length = L :=
        (window_length_iff hLpos).2 (by omega)
      rw [List.length_drop, hwl]
      omega
    rcases List.length_eq_one.1 hlen1 with ⟨nc, hnc⟩
    have hsplit : window s off (L + 1) = window s off L ++ [nc] := by
      calc window s off (L + 1) = (s.drop off).take (L + 1) := rfl
        _ = (s.drop off).take L ++ ((s.drop (off + 1)).take L).drop
            (((s.drop (off + 1)).take L).length - 1) := hjoin
        _ = window s off L ++ [nc] := by
            rw [hnc]
            rfl
    have hsuffix : (window s off (L + 1)).drop 1
        = (window s off L).drop 1 ++ [nc] := by
      rw [hsplit, List.drop_append_of_le_length
        (by rw [(window_length_iff hLpos).2 (by omega)]; omega)]
    have hpfreq : window s off L ∈ freqPaths t L thrd :=
      mem_freqPaths.2 ⟨(window_length_iff hLpos).2 (by omega), hfx⟩
    have hsfreq : freqB t thrd ((window s off L).drop 1 ++ [nc]) = true := by
      rw [← hsuffix, hwt]
      exact hfy
    have htm : ((window s off L) ++ [nc],
        (t.idxAt (window s off L)).getD 0,
        (t.idxAt ((window s off L).drop 1 ++ [nc])).getD 0)
        ∈ cand_triples t (L + 1) thrd := by
      refine (mem_cand_triples hP.counts.rooted).2
        ⟨window s off L, nc, ?p1, hsfreq, rfl⟩
      rw [harith]
      exact hpfreq
    rcases List.getElem?_of_mem htm with ⟨m, htrip⟩
    have hpos : posOf ((cand_triples t (L + 1) thrd).map fun x => x.1)
        (window s off (L + 1)) = some m := by
      have h5 := posOf_of_trips_at hP.counts.rooted htrip
      rw [hsplit]
      exact h5
    refine ⟨(id, off, kx), (id, off + 1, ky), hxmem, hymem, rfl, rfl,
      ?dict, ?eq2⟩
    · show dictFind (imapOf t (L + 1) thrd) (kx, ky) = some e.2.2
      have hyidx : t.idxAt ((window s off L).drop 1 ++ [nc]) = some ky := by
        rw [← hsuffix, hwt]
        exact hky
      have hdv : dictFind (imapOf t (L + 1) thrd) (kx, ky) = some m := by
        refine (dictFind_imap hP).2 ⟨_, htrip, ?key⟩
        show ((t.idxAt (window s off L)).getD 0,
            (t.idxAt ((window s off L).drop 1 ++ [nc])).getD 0) = (kx, ky)
        rw [hkx, hyidx]
        rfl
      have he22 : e.2.2 = m := by
        rw [he]
        show (posOf ((cand_triples t (L + 1) thrd).map fun x => x.1)
            (window s off (L + 1))).getD 0 = m
        rw [hpos]
        rfl
      rw [hdv, he22]
    · rw [he]

end FSPM

namespace FSPM

theorem memP_of_idxAt {t : Tree} {p : Pat} {k : Nat}
    (h : t.idxAt p = some k) : t.memP p = true := by
  rw [Tree.idxAt] at h
  rcases hp : t.pattern p with _ | n
  · rw [hp] at h; simp at h
  · simp [Tree.memP, hp]

theorem emits_eq_track {data : Corpus} {thrd : Int} {min_len L : Nat}
    {t : Tree} {queue : List QRec}
    (hP : PosInv data thrd min_len L t queue) :
    adjEmits (imapOf t (L + 1) thrd) queue
      = trackQueue data (L + 1)
          (fun w => freqB t thrd w.dropLast && freqB t thrd (w.drop 1))
          (fun w => (posOf ((cand_triples t (L + 1) thrd).map fun x => x.1)
            w).getD 0) := by
  refine sorted_eq_of_mem_iff (adjEmits_pairwise hP.sorted)
    (trackQueue_sorted _ _ _ _) ?iff
  intro e
  rw [mem_emits_iff hP e, mem_trackQueue]

theorem tracked_is_cand {thrd : Int} {L : Nat} {t : Tree} (hLpos : 1 ≤ L)
    (hr : Rooted t) {s : Pat} {off : Nat} (hb : off + (L + 1) ≤ s.length)
    (h1 : freqB t thrd (window s off (L + 1)).dropLast = true)
    (h2 : freqB t thrd ((window s off (L + 1)).drop 1) = true) :
    ∃ m trip, (cand_triples t (L + 1) thrd)[m]? = some trip ∧
      trip.1 = window s off (L + 1) ∧
      posOf ((cand_triples t (L + 1) thrd).map fun x => x.1)
        (window s off (L + 1)) = some m := by
  have harith : L + 1 - 1 = L := by omega
  have hwd : (window s off (L + 1)).dropLast = window s off L :=
    window_dropLast hb
  have hwt : (window s off (L + 1)).drop 1 = window s (off + 1) L :=
    window_tail off L
  have hfx : freqB t thrd (window s off L) = true := by
    rw [← hwd]; exact h1
  have hjoin := window_join hLpos (show off + 1 + L ≤ s.length by omega)
  have hlen1 : (((s.drop (off + 1)).take L).drop
      (((s.drop (off + 1)).take L).length - 1)).length = 1 := by
    have hwl : ((s.drop (off + 1)).take L).length = L :=
      (window_length_iff hLpos).2 (by omega)
    rw [List.length_drop, hwl]
    omega
  rcases List.length_eq_one.1 hlen1 with ⟨nc, hnc⟩
  have hsplit : window s off (L + 1) = window s off L ++ [nc] := by
    calc window s off (L + 1) = (s.drop off).take (L + 1) := rfl
      _ = (s.drop off).take L ++ ((s.drop (off + 1)).take L).drop
          (((s.drop (off + 1)).take L).length - 1) := hjoin
      _ = window s off L ++ [nc] := by
          rw [hnc]
          rfl
  have hsuffix : (window s off (L + 1)).drop 1
      = (window s off L).drop 1 ++ [nc] := by
    rw [hsplit, List.drop_append_of_le_length
      (by rw [(window_length_iff hLpos).2 (by omega)]; omega)]
  have hpfreq : window s off L ∈ freqPaths t L thrd :=
    mem_freqPaths.2 ⟨(window_length_iff hLpos).2 (by omega), hfx⟩
  have hsfreq : freqB t thrd ((window s off L).drop 1 ++ [nc]) = true := by
    rw [← hsuffix]
    exact h2
  have htm : ((window s off L) ++ [nc],
      (t.idxAt (window s off L)).getD 0,
      (t.idxAt ((window s off L).drop 1 ++ [nc])).getD 0)
      ∈ cand_triples t (L + 1) thrd := by
    refine (mem_cand_triples hr).2
      ⟨window s off L, nc, ?p1, hsfreq, rfl⟩
    rw [harith]
    exact hpfreq
  rcases List.getElem?_of_mem htm with ⟨m, htrip⟩
  refine ⟨m, _, htrip, ?pat, ?pos⟩
  · show (window s off L) ++ [nc] = window s off (L + 1)
    rw [hsplit]
  · have h5 := posOf_of_trips_at hr htrip
    rw [hsplit]
    exact h5

theorem PosInv_succ_empty {data : Corpus} {thrd : Int} {min_len L : Nat}
    {t : Tree} (hP : PosInv data thrd min_len L t []) :
    PosInv data thrd min_len (L + 1) t [] := by
  have hmin := hP.minpos
  have hlm := hP.lmin
  have hnofreq : ∀ q : Pat, q.length = L + 1 → freqOcc data thrd q →
      False := by
    intro q hlen hf
    have hq : q ≠ [] := by
      intro h; rw [h] at hlen; simp at hlen
    have hmono := occ_dropLast_ge data q hq
    have hfd : freqOcc data thrd q.dropLast :=
      ⟨le_trans hf.1 hmono, le_trans hf.2 (by exact_mod_cast hmono)⟩
    have hdlen : q.dropLast.length = L := by
      rw [List.length_dropLast, hlen]
      omega
    have hc := hP.counts.complete q.dropLast (by omega) (by omega) hfd
    have hfb : freqB t thrd q.dropLast = true :=
      freqB_eq_true_iff.2 ⟨_, hc, hfd.2⟩
    rcases occ_pos_iff.1 hfd.1 with ⟨id, s, off, hid, hb, hw⟩
    rw [hdlen] at hb hw
    rcases hP.qcomplete id s off hid (by rw [hw]; exact hdlen)
      (by rw [hw]; exact hfb) with ⟨k, _, hmem⟩
    cases hmem
  refine ⟨⟨hP.counts.rooted, ?sound, ?complete, ?bound⟩, hP.minpos,
    by omega, ?inj, List.Pairwise.nil, ?qs, ?qc⟩
  · intro p c h
    rcases hP.counts.sound p c h with ⟨h1, h2, h3, h4⟩
    exact ⟨h1, by omega, h3, h4⟩
  · intro p h1 h2 hf
    by_cases hl : p.length = L + 1
    · exact absurd hf (fun hx => hnofreq p hl hx)
    · exact hP.counts.complete p h1 (by omega) hf
  · intro p h
    exact le_trans (hP.counts.bound p h) (by omega)
  · intro p q k hp hq hkp hkq
    have hm := memP_of_idxAt hkp
    have := hP.counts.bound p hm
    omega
  · intro r hr
    cases hr
  · intro id s off hid hwl hfb
    rcases freqB_eq_true_iff.1 hfb with ⟨c, hc, _⟩
    rcases hP.counts.sound _ c hc with ⟨_, hle, _, _⟩
    rw [hwl] at hle
    omega

end FSPM

namespace FSPM

theorem run_position_pcount {data : Corpus} {thrd : Int} {min_len L : Nat}
    {t : Tree} {queue : List QRec}
    (hP : PosInv data thrd min_len L t queue) (q : Pat) :
    pcount ((adjEmits (imapOf t (L + 1) thrd) queue).map
        fun r => (dictFind (patsOf t (L + 1) thrd) r.2.2).getD []) q
      = if (freqB t thrd q.dropLast && freqB t thrd (q.drop 1)) = true
            ∧ q.length = L + 1
        then occ data q else 0 := by
  have hLpos : 1 ≤ L := le_trans hP.minpos hP.lmin
  rw [emits_eq_track hP]
  refine pcount_track_map _ ?hg q
  intro id s off hid hb ht
  simp only at ht
  rw [Bool.and_eq_true] at ht
  rcases tracked_is_cand hLpos hP.counts.rooted hb ht.1 ht.2 with
    ⟨m, trip, htrip, hpat, hpos⟩
  show (dictFind (patsOf t (L + 1) thrd)
      ((posOf ((cand_triples t (L + 1) thrd).map fun x => x.1)
        (window s off (L + 1))).getD 0)).getD [] = window s off (L + 1)
  rw [hpos]
  show (dictFind (patsOf t (L + 1) thrd) m).getD [] = window s off (L + 1)
  rw [dictFind_pats htrip]
  simpa using hpat

theorem run_position_countAt {data : Corpus} {thrd : Int} {min_len L : Nat}
    {t : Tree} {cur : QRec} {rest : List QRec}
    (hP : PosInv data thrd min_len L t (cur :: rest)) (p : Pat) :
    (run_position (cur :: rest) t (L + 1) thrd).2.countAt p =
      if p.length = L + 1 then
        (if (freqB t thrd p.dropLast && freqB t thrd (p.drop 1)) = true
            ∧ 1 ≤ occ data p
         then some (occ data p : Int) else none)
      else t.countAt p := by
  have hLpos : 1 ≤ L := le_trans hP.minpos hP.lmin
  rw [run_position_cons_eq]
  show (incOnes (addIdxed t (candAdds t (L + 1) thrd))
      ((adjEmits (imapOf t (L + 1) thrd) (cur :: rest)).map
        fun r => (dictFind (patsOf t (L + 1) thrd) r.2.2).getD [])).countAt p
    = _
  rw [Tree.countAt_incOnes, countAt_addIdxed, run_position_pcount hP p]
  by_cases hl : p.length = L + 1
  · have hnone : t.countAt p = none := by
      rcases hc : t.countAt p with _ | c
      · rfl
      · have := hP.counts.bound p (memP_of_countAt hc)
        omega
    rw [if_pos hl, hnone]
    by_cases hc2 : (freqB t thrd p.dropLast
        && freqB t thrd (p.drop 1)) = true ∧ 1 ≤ occ data p
    · rw [if_pos hc2]
      have hpc : (if (freqB t thrd p.dropLast
          && freqB t thrd (p.drop 1)) = true ∧ p.length = L + 1
          then occ data p else 0) = occ data p := by
        rw [if_pos (And.intro hc2.1 hl)]
      rw [hpc]
      have hmem : (addIdxed t (candAdds t (L + 1) thrd)).memP p = true := by
        rcases occ_pos_iff.1 hc2.2 with ⟨id, s, off, hid, hb, hw⟩
        rw [hl] at hb hw
        rw [Bool.and_eq_true] at hc2
        rcases tracked_is_cand hLpos hP.counts.rooted hb
          (by rw [hw]; exact hc2.1.1) (by rw [hw]; exact hc2.1.2) with
          ⟨m, trip, htrip, hpat, _⟩
        have hidx := idxAt_tree1_cand hP.counts.rooted htrip
        rw [hpat, hw] at hidx
        exact memP_of_idxAt hidx
      rw [if_pos (And.intro hmem (by omega : 0 < occ data p))]
      simp
    · rw [if_neg hc2]
      by_cases hh : (freqB t thrd p.dropLast
          && freqB t thrd (p.drop 1)) = true
      · have ho : ¬(1 ≤ occ data p) := fun hx => hc2 ⟨hh, hx⟩
        have hpc0 : (if (freqB t thrd p.dropLast
            && freqB t thrd (p.drop 1)) = true ∧ p.length = L + 1
            then occ data p else 0) = 0 := by
          rw [if_pos (And.intro hh hl)]
          omega
        rw [hpc0]
        rw [if_neg (show ¬((addIdxed t (candAdds t (L + 1) thrd)).memP p
            = true ∧ 0 < 0) from fun hx => by omega)]
      · have hpc0 : (if (freqB t thrd p.dropLast
            && freqB t thrd (p.drop 1)) = true ∧ p.length = L + 1
            then occ data p else 0) = 0 := by
          rw [if_neg (fun hx => hh hx.1)]
        rw [hpc0]
        rw [if_neg (show ¬((addIdxed t (candAdds t (L + 1) thrd)).memP p
            = true ∧ 0 < 0) from fun hx => by omega)]
  · rw [if_neg hl]
    have hpc0 : (if (freqB t thrd p.dropLast
        && freqB t thrd (p.drop 1)) = true ∧ p.length = L + 1
        then occ data p else 0) = 0 := by
      rw [if_neg (fun hx => hl hx.2)]
    rw [hpc0]
    rw [if_neg (show ¬((addIdxed t (candAdds t (L + 1) thrd)).memP p
        = true ∧ 0 < 0) from fun hx => by omega)]

end FSPM

namespace FSPM

theorem run_position_PosInv_cons {data : Corpus} {thrd : Int}
    {min_len L : Nat} {t : Tree} {cur : QRec} {rest : List QRec}
    (hP : PosInv data thrd min_len L t (cur :: rest)) :
    PosInv data thrd min_len (L + 1)
      (run_position (cur :: rest) t (L + 1) thrd).2
      (run_position (cur :: rest) t (L + 1) thrd).1 := by
  have hLpos : 1 ≤ L := le_trans hP.minpos hP.lmin
  have hlm := hP.lmin
  have hmin := hP.minpos
  have hcnt := run_position_countAt hP
  have hq1 : (run_position (cur :: rest) t (L + 1) thrd).1
      = adjEmits (imapOf t (L + 1) thrd) (cur :: rest) := by
    rw [run_position_cons_eq]
  have hidx : ∀ p, (run_position (cur :: rest) t (L + 1) thrd).2.idxAt p
      = (addIdxed t (candAdds t (L + 1) thrd)).idxAt p := by
    intro p
    rw [run_position_cons_eq]
    exact Tree.idxAt_incOnes _ _ p
  have hroot : Rooted (run_position (cur :: rest) t (L + 1) thrd).2 := by
    rw [run_position_cons_eq]
    constructor
    · show (incOnes (addIdxed t (candAdds t (L + 1) thrd)) _).seq = []
      rw [seq_incOnes, seq_addIdxed]
      exact hP.counts.rooted.1
    · exact Tree.SeqOK_incOnes (SeqOK_addIdxed hP.counts.rooted.2 _) _
  refine ⟨⟨hroot, ?sound, ?complete, ?bound⟩, hP.minpos, by omega,
    ?inj, ?sorted, ?qsound, ?qcomplete⟩
  · intro p c h
    rw [hcnt p] at h
    by_cases hl : p.length = L + 1
    · rw [if_pos hl] at h
      by_cases hc2 : (freqB t thrd p.dropLast
          && freqB t thrd (p.drop 1)) = true ∧ 1 ≤ occ data p
      · rw [if_pos hc2] at h
        exact ⟨by omega, by omega, (Option.some_inj.1 h).symm, hc2.2⟩
      · rw [if_neg hc2] at h; cases h
    · rw [if_neg hl] at h
      rcases hP.counts.sound p c h with ⟨h1, h2, h3, h4⟩
      exact ⟨h1, by omega, h3, h4⟩
  · intro p h1 h2 hf
    rw [hcnt p]
    by_cases hl : p.length = L + 1
    · rw [if_pos hl]
      have hq : p ≠ [] := by
        intro hx; rw [hx] at hl; simp at hl
      have hmono1 := occ_dropLast_ge data p hq
      have hmono2 := occ_tail_ge data p hq
      have hfd : freqOcc data thrd p.dropLast :=
        ⟨le_trans hf.1 hmono1, le_trans hf.2 (by exact_mod_cast hmono1)⟩
      have hft : freqOcc data thrd (p.drop 1) :=
        ⟨le_trans hf.1 hmono2, le_trans hf.2 (by exact_mod_cast hmono2)⟩
      have hdlen : p.dropLast.length = L := by
        rw [List.length_dropLast, hl]
        omega
      have htlen : (p.drop 1).length = L := by
        rw [List.length_drop, hl]
        omega
      have hb1 : freqB t thrd p.dropLast = true :=
        (freqB_iff_freqOcc hP.counts (by omega) (by omega)).2 hfd
      have hb2 : freqB t thrd (p.drop 1) = true :=
        (freqB_iff_freqOcc hP.counts (by omega) (by omega)).2 hft
      rw [if_pos (And.intro (by rw [Bool.and_eq_true]; exact ⟨hb1, hb2⟩)
        hf.1)]
    · rw [if_neg hl]
      exact hP.counts.complete p h1 (by omega) hf
  · intro p h
    rw [run_position_cons_eq] at h
    rw [Tree.memP_incOnes, memP_addIdxed, Bool.or_eq_true] at h
    rcases h with h | h
    · exact le_trans (hP.counts.bound p h) (by omega)
    · rw [List.any_eq_true] at h
      rcases h with ⟨e, he, hle⟩
      rw [candAdds] at he
      rcases mem_withPos_map.1 he with ⟨m, trip, htrip, rfl⟩
      have htm : trip ∈ cand_triples t (L + 1) thrd :=
        List.mem_iff_getElem?.2 ⟨m, htrip⟩
      rcases (mem_cand_triples hP.counts.rooted).1 htm with
        ⟨p2, nc, hp2, _, rfl⟩
      have harith : L + 1 - 1 = L := by omega
      rw [harith] at hp2
      have hp2len := (mem_freqPaths.1 hp2).1
      have hlen := leads_length hle
      simp only [List.length_append, List.length_cons,
        List.length_nil] at hlen
      omega
  · intro p q k hp hq hkp hkq
    rw [hidx] at hkp hkq
    have hone : ∀ r k2, r.length = L + 1 →
        (addIdxed t (candAdds t (L + 1) thrd)).idxAt r = some k2 →
        ∃ trip, (cand_triples t (L + 1) thrd)[k2]? = some trip ∧
          trip.1 = r := by
      intro r k2 hrlen hkr
      by_cases hc : ∀ trip ∈ cand_triples t (L + 1) thrd, trip.1 ≠ r
      · rw [idxAt_tree1_not_cand hc] at hkr
        have hmem := memP_of_idxAt hkr
        have hble := hP.counts.bound r hmem
        exact absurd hble (by omega)
      · push_neg at hc
        rcases hc with ⟨trip, htm, hteq⟩
        rcases List.getElem?_of_mem htm with ⟨m, htrip⟩
        have hidx2 := idxAt_tree1_cand hP.counts.rooted htrip
        rw [hteq] at hidx2
        rw [hidx2] at hkr
        have hmk : m = k2 := Option.some_inj.1 hkr
        subst hmk
        exact ⟨trip, htrip, hteq⟩
    rcases hone p k hp hkp with ⟨tp, htp, hep⟩
    rcases hone q k hq hkq with ⟨tq, htq, heq2⟩
    rw [htp] at htq
    have hte : tp = tq := Option.some_inj.1 htq
    rw [← hep, ← heq2, hte]
  · rw [hq1]
    exact adjEmits_pairwise hP.sorted
  · intro r hr
    rw [hq1, emits_eq_track hP] at hr
    rcases mem_trackQueue.1 hr with ⟨id, s, off, hid, hb, ht, rfl⟩
    rw [Bool.and_eq_true] at ht
    rcases tracked_is_cand hLpos hP.counts.rooted hb ht.1 ht.2 with
      ⟨m, trip, htrip, hpat, hpos⟩
    refine ⟨s, hid, (window_length_iff (by omega)).2 hb, ?ix⟩
    rw [hidx]
    have h5 := idxAt_tree1_cand hP.counts.rooted htrip
    rw [hpat] at h5
    show (addIdxed t (candAdds t (L + 1) thrd)).idxAt (window s off (L + 1))
      = some ((posOf ((cand_triples t (L + 1) thrd).map fun x => x.1)
          (window s off (L + 1))).getD 0)
    rw [h5, hpos]
    rfl
  · intro id s off hid hwl hfb
    rcases freqB_eq_true_iff.1 hfb with ⟨c, hc, hthr⟩
    rw [hcnt, if_pos hwl] at hc
    by_cases h2 : (freqB t thrd (window s off (L + 1)).dropLast
        && freqB t thrd ((window s off (L + 1)).drop 1)) = true
        ∧ 1 ≤ occ data (window s off (L + 1))
    · have hbnd : off + (L + 1) ≤ s.length :=
        (window_length_iff (by omega)).1 hwl
      have h21 := h2.1
      rw [Bool.and_eq_true] at h21
      rcases tracked_is_cand hLpos hP.counts.rooted hbnd h21.1 h21.2 with
        ⟨m, trip, htrip, hpat, hpos⟩
      refine ⟨m, ?ix2, ?memb⟩
      · rw [hidx]
        have h5 := idxAt_tree1_cand hP.counts.rooted htrip
        rw [hpat] at h5
        exact h5
      · rw [hq1, emits_eq_track hP]
        refine mem_trackQueue.2 ⟨id, s, off, hid, hbnd, ?t2, ?req⟩
        · exact h2.1
        · rw [hpos]
          rfl
    · rw [if_neg h2] at hc
      cases hc

theorem run_position_PosInv {data : Corpus} {thrd : Int} {min_len L : Nat}
    {t : Tree} {queue : List QRec}
    (hP : PosInv data thrd min_len L t queue) :
    PosInv data thrd min_len (L + 1) (run_position queue t (L + 1) thrd).2
      (run_position queue t (L + 1) thrd).1 := by
  cases queue with
  | nil => exact PosInv_succ_empty hP
  | cons cur rest => exact run_position_PosInv_cons hP

end FSPM

namespace FSPM

theorem mineLoop_position_spec (data : Corpus) (thrd : Int) (min_len : Nat) :
    ∀ (fuel : Nat) (st : MineState),
      PosInv data thrd min_len st.len st.tree st.queue →
      PosInv data thrd min_len (st.len + fuel)
          (mineLoop data thrd .position st fuel).tree
          (mineLoop data thrd .position st fuel).queue ∧
        (mineLoop data thrd .position st fuel).len = st.len + fuel := by
  intro fuel
  induction fuel with
  | zero =>
    intro st h
    exact ⟨h, rfl⟩
  | succ f ih =>
    intro st h
    rw [mineLoop_succ, mineStep_position]
    have h3 := ih
      { st with
        len := st.len + 1,
        queue := (run_position st.queue st.tree (st.len + 1) thrd).1,
        tree := (run_position st.queue st.tree (st.len + 1) thrd).2 }
      (by simpa using run_position_PosInv h)
    simp only at h3
    have harith : st.len + 1 + f = st.len + (f + 1) := by omega
    rw [harith] at h3
    exact h3

theorem mineLoop_hybrid_spec (data : Corpus) (thrd : Int) (min_len : Nat)
    (hmin : 1 ≤ min_len) :
    ∀ (fuel : Nat) (st : MineState), min_len ≤ st.len →
      ((st.useApriori = true ∧ NoIdx st.tree
          ∧ CountInv data thrd min_len st.len st.tree)
        ∨ (st.useApriori = false
          ∧ PosInv data thrd min_len st.len st.tree st.queue)) →
      (((mineLoop data thrd .hybrid st fuel).useApriori = true
          ∧ NoIdx (mineLoop data thrd .hybrid st fuel).tree
          ∧ CountInv data thrd min_len (st.len + fuel)
              (mineLoop data thrd .hybrid st fuel).tree)
        ∨ ((mineLoop data thrd .hybrid st fuel).useApriori = false
          ∧ PosInv data thrd min_len (st.len + fuel)
              (mineLoop data thrd .hybrid st fuel).tree
              (mineLoop data thrd .hybrid st fuel).queue)) ∧
        (mineLoop data thrd .hybrid st fuel).len = st.len + fuel := by
  intro fuel
  induction fuel with
  | zero =>
    intro st hL h
    exact ⟨h, rfl⟩
  | succ f ih =>
    intro st hL h
    rw [mineLoop_succ]
    rcases h with ⟨hua, hN, hI⟩ | ⟨hua, hP⟩
    · by_cases h2 : number_of_freq_subseq st.tree st.len thrd
          ≤ (MAX_SIZE : Int)
      · rw [mineStep_hybrid_switch data thrd st hua h2]
        have hswitch := switch_PosInv hI hN hmin hL
        have hstep := run_position_PosInv hswitch
        have h3 := ih
          { st with
            useApriori := false,
            enteredPos := true,
            passes := st.passes + 1,
            len := st.len + 1,
            queue := (run_position
              (initial_queue data (assign_pattern_index st.tree st.len thrd)
                st.len thrd)
              (assign_pattern_index st.tree st.len thrd) (st.len + 1) thrd).1,
            tree := (run_position
              (initial_queue data (assign_pattern_index st.tree st.len thrd)
                st.len thrd)
              (assign_pattern_index st.tree st.len thrd) (st.len + 1) thrd).2 }
          (by simp; omega)
          (by
            right
            exact ⟨rfl, by simpa using hstep⟩)
        simp only at h3
        have harith : st.len + 1 + f = st.len + (f + 1) := by omega
        rw [harith] at h3
        exact h3
      · rw [mineStep_hybrid_big data thrd st hua (not_le.1 h2)]
        have h3 := ih
          { st with
            len := st.len + 1,
            tree := run_apriori data st.tree (st.len + 1) thrd,
            passes := st.passes + 1,
            aprioriExts := st.aprioriExts + 1 }
          (by simp; omega)
          (by
            left
            refine ⟨hua, ?ni, ?ci⟩
            · show NoIdx (run_apriori data st.tree (st.len + 1) thrd)
              exact run_apriori_NoIdx hN
            · show CountInv data thrd min_len (st.len + 1)
                (run_apriori data st.tree (st.len + 1) thrd)
              exact run_apriori_CountInv hI hmin hL)
        simp only at h3
        have harith : st.len + 1 + f = st.len + (f + 1) := by omega
        rw [harith] at h3
        exact h3
    · rw [mineStep_hybrid_pos data thrd st hua]
      have h3 := ih
        { st with
          len := st.len + 1,
          queue := (run_position st.queue st.tree (st.len + 1) thrd).1,
          tree := (run_position st.queue st.tree (st.len + 1) thrd).2 }
        (by simp; omega)
        (by
          right
          exact ⟨hua, by simpa using run_position_PosInv hP⟩)
      simp only at h3
      have harith : st.len + 1 + f = st.len + (f + 1) := by omega
      rw [harith] at h3
      exact h3

end FSPM

/-! ### End-to-end characterizations of frequent_patterns -/

namespace FSPM

theorem frequent_patterns_apriori_eq (data : Corpus) (min_len max_len : Nat)
    (thrd : Int) :
    frequent_patterns data min_len max_len thrd .apriori
      = .ok ⟨mineLoop data thrd .apriori
          ⟨initial_tree data min_len, [], true, min_len, 1, 0, false⟩
          (max_len - min_len),
        (mineLoop data thrd .apriori
          ⟨initial_tree data min_len, [], true, min_len, 1, 0, false⟩
          (max_len - min_len)).tree.all_patterns_at_least thrd⟩ := rfl

theorem frequent_patterns_hybrid_eq (data : Corpus) (min_len max_len : Nat)
    (thrd : Int) :
    frequent_patterns data min_len max_len thrd .hybrid
      = .ok ⟨mineLoop data thrd .hybrid
          ⟨initial_tree data min_len, [], true, min_len, 1, 0, false⟩
          (max_len - min_len),
        (mineLoop data thrd .hybrid
          ⟨initial_tree data min_len, [], true, min_len, 1, 0, false⟩
          (max_len - min_len)).tree.all_patterns_at_least thrd⟩ := rfl

theorem frequent_patterns_position_err (data : Corpus)
    (min_len max_len : Nat) (thrd : Int)
    (h : (MAX_SIZE : Int)
      < number_of_freq_subseq (initial_tree data min_len) min_len thrd) :
    frequent_patterns data min_len max_len thrd .position
      = .error .exceedAllocatedMemory := by
  rw [frequent_patterns]
  rw [if_pos h]

theorem frequent_patterns_position_ok (data : Corpus)
    (min_len max_len : Nat) (thrd : Int)
    (h : ¬((MAX_SIZE : Int)
      < number_of_freq_subseq (initial_tree data min_len) min_len thrd)) :
    frequent_patterns data min_len max_len thrd .position
      = .ok ⟨mineLoop data thrd .position
          ⟨assign_pattern_index (initial_tree data min_len) min_len thrd,
            initial_queue data
              (assign_pattern_index (initial_tree data min_len) min_len thrd)
              min_len thrd,
            false, min_len, 2, 0, false⟩
          (max_len - min_len),
        (mineLoop data thrd .position
          ⟨assign_pattern_index (initial_tree data min_len) min_len thrd,
            initial_queue data
              (assign_pattern_index (initial_tree data min_len) min_len thrd)
              min_len thrd,
            false, min_len, 2, 0, false⟩
          (max_len - min_len)).tree.all_patterns_at_least thrd⟩ := by
  rw [frequent_patterns]
  rw [if_neg h]

theorem results_char_of_ok {data : Corpus} {min_len max_len : Nat}
    {thrd : Int} {method : Method} {r : MineResult} (hmin : 1 ≤ min_len)
    (h : frequent_patterns data min_len max_len thrd method = .ok r) :
    ∀ p c, ((p, c) ∈ r.results ↔
      min_len ≤ p.length ∧ p.length ≤ min_len + (max_len - min_len) ∧
        freqOcc data thrd p ∧ c = (occ data p : Int)) := by
  cases method with
  | apriori =>
    rw [frequent_patterns_apriori_eq] at h
    cases h
    have hspec := mineLoop_apriori_spec data thrd min_len hmin
      (max_len - min_len)
      ⟨initial_tree data min_len, [], true, min_len, 1, 0, false⟩
      (le_refl min_len) (initial_tree_CountInv data thrd min_len)
    intro p c
    exact results_char hspec.1 p c
  | hybrid =>
    rw [frequent_patterns_hybrid_eq] at h
    cases h
    have hspec := mineLoop_hybrid_spec data thrd min_len hmin
      (max_len - min_len)
      ⟨initial_tree data min_len, [], true, min_len, 1, 0, false⟩
      (le_refl min_len)
      (Or.inl ⟨rfl, NoIdx_initial_tree data min_len,
        initial_tree_CountInv data thrd min_len⟩)
    intro p c
    rcases hspec.1 with ⟨_, _, hI⟩ | ⟨_, hP⟩
    · exact results_char hI p c
    · exact results_char hP.counts p c
  | position =>
    by_cases hguard : (MAX_SIZE : Int)
        < number_of_freq_subseq (initial_tree data min_len) min_len thrd
    · rw [frequent_patterns_position_err data min_len max_len thrd hguard]
        at h
      cases h
    · rw [frequent_patterns_position_ok data min_len max_len thrd hguard]
        at h
      cases h
      have hswitch := switch_PosInv (initial_tree_CountInv data thrd min_len)
        (NoIdx_initial_tree data min_len) hmin (le_refl min_len)
      have hspec := mineLoop_position_spec data thrd min_len
        (max_len - min_len)
        ⟨assign_pattern_index (initial_tree data min_len) min_len thrd,
          initial_queue data
            (assign_pattern_index (initial_tree data min_len) min_len thrd)
            min_len thrd,
          false, min_len, 2, 0, false⟩
        (by simpa using hswitch)
      intro p c
      exact results_char hspec.1.counts p c

end FSPM

namespace FSPM

theorem adjEmits_length_lt {imap : List ((Nat × Nat) × Nat)} (cur : QRec)
    (rest : List QRec) :
    (adjEmits imap (cur :: rest)).length < (cur :: rest).length := by
  rw [adjEmits]
  have h1 := List.length_filterMap_le
    (fun ab : QRec × QRec => emitHit imap ab.1 ab.2)
    ((cur :: rest).zip (cur :: rest).tail)
  rw [List.length_zip] at h1
  simp only [List.length_cons, List.tail_cons] at h1 ⊢
  omega

theorem emit_idx_provenance {t : Tree} {len : Nat} {thrd : Int}
    {queue : List QRec} {r : QRec}
    (h : r ∈ adjEmits (imapOf t len thrd) queue) :
    r.2.2 ∈ (candidate_mappings t len thrd).map fun e => e.2.2 := by
  rcases mem_adjEmits_elim h with ⟨x, y, _, _, _, hemit⟩
  rcases emitHit_elim hemit with ⟨_, _, hdict, _⟩
  have hmem := dictFind_mem hdict
  rw [imapOf, List.mem_reverse] at hmem
  rcases mem_withPos_map.1 hmem with ⟨m, trip, htrip, he⟩
  have hm : r.2.2 = m := by
    have := congrArg Prod.snd he
    simpa using this
  rw [candidate_mappings, List.map_map, hm]
  exact mem_withPos_map.2 ⟨m, trip, htrip, rfl⟩

end FSPM

/-! ### The claims -/

namespace FSPM

/-- C1: for any corpus, length bounds and threshold, whenever two of the
three methods of `frequent_patterns` return normally, they return the same
set of (pattern, count) pairs. -/
theorem C1_method_equivalence (data : Corpus) (min_len max_len : Nat)
    (thrd : Int) (m1 m2 : Method) (r1 r2 : MineResult) (hmin : 1 ≤ min_len)
    (h1 : frequent_patterns data min_len max_len thrd m1 = .ok r1)
    (h2 : frequent_patterns data min_len max_len thrd m2 = .ok r2) :
    ∀ pc : Pat × Int, (pc ∈ r1.results ↔ pc ∈ r2.results) := by
  intro pc
  rcases pc with ⟨p, c⟩
  rw [results_char_of_ok hmin h1 p c, results_char_of_ok hmin h2 p c]

theorem C1_method_equivalence_witness :
    ((([NC.A] : Pat), (3 : Int))
        ∈ resultsOf (frequent_patterns [[NC.A, NC.A, NC.A]] 1 2 1 .apriori))
      ↔ ((([NC.A] : Pat), (3 : Int))
        ∈ resultsOf
            (frequent_patterns [[NC.A, NC.A, NC.A]] 1 2 1 .position)) := by
  rcases hE1 : frequent_patterns [[NC.A, NC.A, NC.A]] 1 2 1 .apriori
      with e1 | r1
  · rw [frequent_patterns_apriori_eq] at hE1
    cases hE1
  · rcases hE2 : frequent_patterns [[NC.A, NC.A, NC.A]] 1 2 1 .position
        with e2 | r2
    · rw [frequent_patterns_position_ok _ _ _ _ (by decide)] at hE2
      cases hE2
    · show (([NC.A], 3) ∈ r1.results) ↔ (([NC.A], 3) ∈ r2.results)
      exact C1_method_equivalence [[NC.A, NC.A, NC.A]] 1 2 1 .apriori
        .position r1 r2 (le_refl 1) hE1 hE2 ([NC.A], 3)

/-- C2: a normal run increments the pass counter exactly
`max_len - min_len + 1` times under Apriori, exactly twice under Position,
and `1 + (Apriori extensions) + 1 if the Position path was entered` times
under Hybrid. -/
theorem C2_pass_counts (data : Corpus) (min_len max_len : Nat) (thrd : Int) :
    (∀ r, frequent_patterns data min_len max_len thrd .apriori = .ok r →
      r.state.passes = (max_len - min_len) + 1) ∧
    (∀ r, frequent_patterns data min_len max_len thrd .position = .ok r →
      r.state.passes = 2) ∧
    (∀ r, frequent_patterns data min_len max_len thrd .hybrid = .ok r →
      r.state.passes = 1 + r.state.aprioriExts
        + (if r.state.enteredPos then 1 else 0)) := by
  refine ⟨?a, ?b, ?c⟩
  · intro r h
    rw [frequent_patterns_apriori_eq] at h
    cases h
    show (mineLoop data thrd .apriori
        ⟨initial_tree data min_len, [], true, min_len, 1, 0, false⟩
        (max_len - min_len)).passes = max_len - min_len + 1
    rw [mineLoop_apriori_passes]
    show 1 + (max_len - min_len) = max_len - min_len + 1
    omega
  · intro r h
    by_cases hguard : (MAX_SIZE : Int)
        < number_of_freq_subseq (initial_tree data min_len) min_len thrd
    · rw [frequent_patterns_position_err data min_len max_len thrd hguard]
        at h
      cases h
    · rw [frequent_patterns_position_ok data min_len max_len thrd hguard]
        at h
      cases h
      show (mineLoop data thrd .position
          ⟨assign_pattern_index (initial_tree data min_len) min_len thrd,
            initial_queue data
              (assign_pattern_index (initial_tree data min_len) min_len thrd)
              min_len thrd,
            false, min_len, 2, 0, false⟩
          (max_len - min_len)).passes = 2
      rw [mineLoop_position_passes]
  · intro r h
    rw [frequent_patterns_hybrid_eq] at h
    cases h
    have hb := (mineLoop_hybrid_book data thrd (max_len - min_len)
      ⟨initial_tree data min_len, [], true, min_len, 1, 0, false⟩ rfl).2
    have hb3 : (mineLoop data thrd .hybrid
        ⟨initial_tree data min_len, [], true, min_len, 1, 0, false⟩
        (max_len - min_len)).passes + 0
        + (if (false : Bool) = true then 1 else 0)
        = 1 + (mineLoop data thrd .hybrid
            ⟨initial_tree data min_len, [], true, min_len, 1, 0, false⟩
            (max_len - min_len)).aprioriExts
          + (if (mineLoop data thrd .hybrid
              ⟨initial_tree data min_len, [], true, min_len, 1, 0, false⟩
              (max_len - min_len)).enteredPos = true then 1 else 0) := hb
    rw [if_neg (show ¬((false : Bool) = true) by simp)] at hb3
    show (mineLoop data thrd .hybrid
        ⟨initial_tree data min_len, [], true, min_len, 1, 0, false⟩
        (max_len - min_len)).passes
      = 1 + (mineLoop data thrd .hybrid
          ⟨initial_tree data min_len, [], true, min_len, 1, 0, false⟩
          (max_len - min_len)).aprioriExts
        + (if (mineLoop data thrd .hybrid
            ⟨initial_tree data min_len, [], true, min_len, 1, 0, false⟩
            (max_len - min_len)).enteredPos = true then 1 else 0)
    omega

theorem C2_pass_counts_witness :
    (finalState (frequent_patterns [[NC.A, NC.A, NC.A]] 1 3 1
        .apriori)).passes = (3 - 1) + 1 ∧
    (finalState (frequent_patterns [[NC.A, NC.A, NC.A]] 1 3 1
        .position)).passes = 2 ∧
    (finalState (frequent_patterns [[NC.A, NC.A, NC.A]] 1 3 1
        .hybrid)).passes
      = 1 + (finalState (frequent_patterns [[NC.A, NC.A, NC.A]] 1 3 1
          .hybrid)).aprioriExts
        + (if (finalState (frequent_patterns [[NC.A, NC.A, NC.A]] 1 3 1
            .hybrid)).enteredPos then 1 else 0) := by
  refine ⟨?a, ?b, ?c⟩
  · rcases hE : frequent_patterns [[NC.A, NC.A, NC.A]] 1 3 1 .apriori
        with e | r
    · rw [frequent_patterns_apriori_eq] at hE
      cases hE
    · exact (C2_pass_counts [[NC.A, NC.A, NC.A]] 1 3 1).1 r hE
  · rcases hE : frequent_patterns [[NC.A, NC.A, NC.A]] 1 3 1 .position
        with e | r
    · rw [frequent_patterns_position_ok _ _ _ _ (by decide)] at hE
      cases hE
    · exact (C2_pass_counts [[NC.A, NC.A, NC.A]] 1 3 1).2.1 r hE
  · rcases hE : frequent_patterns [[NC.A, NC.A, NC.A]] 1 3 1 .hybrid
        with e | r
    · rw [frequent_patterns_hybrid_eq] at hE
      cases hE
    · exact (C2_pass_counts [[NC.A, NC.A, NC.A]] 1 3 1).2.2 r hE

/-- C3: every (pattern, count) pair returned by a normal run carries as
count the exact number of corpus positions at which the pattern occurs as
a window. -/
theorem C3_count_correctness (data : Corpus) (min_len max_len : Nat)
    (thrd : Int) (method : Method) (r : MineResult) (p : Pat) (c : Int)
    (hmin : 1 ≤ min_len)
    (h : frequent_patterns data min_len max_len thrd method = .ok r)
    (hmem : (p, c) ∈ r.results) : c = (occ data p : Int) := by
  exact ((results_char_of_ok hmin h p c).1 hmem).2.2.2

theorem C3_count_correctness_witness :
    (1 : Nat) ≤ 1 ∧ (2 : Int) = (occ [[NC.A, NC.A, NC.A]] [NC.A, NC.A] : Int)
    := by
  refine ⟨le_refl 1, ?c⟩
  exact C3_count_correctness [[NC.A, NC.A, NC.A]] 1 2 1 .apriori _
    [NC.A, NC.A] 2 (le_refl 1)
    (frequent_patterns_apriori_eq [[NC.A, NC.A, NC.A]] 1 2 1) (by decide)

end FSPM

namespace FSPM

/-- C4 (corrected): the source keeps stale indices around, so during a
Position run more than one level can carry `idx` at once; what does hold
is that immediately after `assign_pattern_index` on an index-free tree,
the indices present are exactly the dense positions 0, 1, 2, ... of the
frequent nodes of the assigned level, in traversal order. -/
theorem C4_index_density {t : Tree} (hN : NoIdx t) (len : Nat) (thrd : Int) :
    ∀ q k, ((assign_pattern_index t len thrd).idxAt q = some k ↔
      (freqPaths t len thrd)[k]? = some q) := by
  intro q k
  rw [idxAt_assign_NoIdx hN]
  exact ⟨getElem_of_posOf, posOf_of_getElem (nodup_freqPaths t len thrd)⟩

theorem C4_index_density_witness :
    (assign_pattern_index (initial_tree [[NC.A, NC.A, NC.A]] 1) 1 1).idxAt
        [NC.A] = some 0 ↔
      (freqPaths (initial_tree [[NC.A, NC.A, NC.A]] 1) 1 1)[0]?
        = some [NC.A] :=
  C4_index_density (NoIdx_initial_tree [[NC.A, NC.A, NC.A]] 1) 1 1 [NC.A] 0

/-- C4 counterexample: after the single Position extension of a real run,
the final trie carries an index at level 1 (stale, from the initial
assignment) and at level 2 (fresh, from the candidate insertion) at the
same time, so it is not true that at most one level has idx assignments
at every point during a run. -/
theorem C4_two_levels_indexed :
    (finalTree (frequent_patterns [[NC.A, NC.A, NC.A]] 1 2 1
      .position)).idxAt [NC.A] = some 0 ∧
    (finalTree (frequent_patterns [[NC.A, NC.A, NC.A]] 1 2 1
      .position)).idxAt [NC.A, NC.A] = some 0 := by
  exact ⟨rfl, rfl⟩

/-- C5: a position pass on a strictly sorted queue returns a strictly
sorted queue in which every record carries one of the candidate indices
assigned at the new length. -/
theorem C5_queue_invariant (queue : List QRec) (t : Tree) (len : Nat)
    (thrd : Int) (hsort : queue.Pairwise recLt) :
    (run_position queue t len thrd).1.Pairwise recLt ∧
    ∀ r ∈ (run_position queue t len thrd).1,
      r.2.2 ∈ (candidate_mappings t len thrd).map fun e => e.2.2 := by
  cases queue with
  | nil =>
    exact ⟨List.Pairwise.nil, fun r hr => absurd hr (by simp [run_position])⟩
  | cons cur rest =>
    rw [run_position_cons_eq]
    exact ⟨adjEmits_pairwise hsort, fun r hr => emit_idx_provenance hr⟩

theorem C5_queue_invariant_witness :
    (run_position [(0, 0, 0), (0, 1, 0), (0, 2, 0)]
      (assign_pattern_index (initial_tree [[NC.A, NC.A, NC.A]] 1) 1 1)
      2 1).1.Pairwise recLt ∧
    ((0, 0, 0) : QRec).2.2
      ∈ (candidate_mappings
          (assign_pattern_index (initial_tree [[NC.A, NC.A, NC.A]] 1) 1 1)
          2 1).map fun e => e.2.2 := by
  refine ⟨(C5_queue_invariant [(0, 0, 0), (0, 1, 0), (0, 2, 0)]
    (assign_pattern_index (initial_tree [[NC.A, NC.A, NC.A]] 1) 1 1) 2 1
    (by decide)).1, ?prov⟩
  exact (C5_queue_invariant [(0, 0, 0), (0, 1, 0), (0, 2, 0)]
    (assign_pattern_index (initial_tree [[NC.A, NC.A, NC.A]] 1) 1 1) 2 1
    (by decide)).2 (0, 0, 0) (by decide)

end FSPM

namespace FSPM

/-- C6: `frequent_patterns` fails with `ExceedAllocatedMemory` exactly
when the Position method is selected and the frequent-occurrence total of
the initial level exceeds the queue budget; in Hybrid mode the same
condition never raises, the step instead stays in Apriori mode and runs an
Apriori extension. -/
theorem C6_memory_error (data : Corpus) (min_len max_len : Nat)
    (thrd : Int) :
    (∀ method, frequent_patterns data min_len max_len thrd method
        = .error .exceedAllocatedMemory ↔
      method = .position ∧ (MAX_SIZE : Int)
        < number_of_freq_subseq (initial_tree data min_len) min_len thrd) ∧
    (∀ st : MineState, st.useApriori = true →
      (MAX_SIZE : Int) < number_of_freq_subseq st.tree st.len thrd →
      mineStep data thrd .hybrid st =
        { st with
          len := st.len + 1,
          tree := run_apriori data st.tree (st.len + 1) thrd,
          passes := st.passes + 1,
          aprioriExts := st.aprioriExts + 1 }) := by
  refine ⟨?iff, ?stay⟩
  · intro method
    cases method with
    | apriori =>
      rw [frequent_patterns_apriori_eq]
      constructor
      · intro h; cases h
      · rintro ⟨hm, _⟩; cases hm
    | hybrid =>
      rw [frequent_patterns_hybrid_eq]
      constructor
      · intro h; cases h
      · rintro ⟨hm, _⟩; cases hm
    | position =>
      by_cases hguard : (MAX_SIZE : Int)
          < number_of_freq_subseq (initial_tree data min_len) min_len thrd
      · rw [frequent_patterns_position_err data min_len max_len thrd hguard]
        exact ⟨fun _ => ⟨rfl, hguard⟩, fun _ => rfl⟩
      · rw [frequent_patterns_position_ok data min_len max_len thrd hguard]
        constructor
        · intro h; cases h
        · rintro ⟨_, hg⟩; exact absurd hg hguard
  · intro st h1 h2
    exact mineStep_hybrid_big data thrd st h1 h2

theorem C6_memory_error_witness :
    (frequent_patterns [[NC.A]] 1 1 0 .apriori
        = .error .exceedAllocatedMemory ↔
      Method.apriori = .position ∧ (MAX_SIZE : Int)
        < number_of_freq_subseq (initial_tree [[NC.A]] 1) 1 0) ∧
    mineStep [] 0 .hybrid
        ⟨Tree.node [] (some (10 ^ 9)) none none none none none,
          [], true, 0, 0, 0, false⟩
      = ⟨run_apriori []
          (Tree.node [] (some (10 ^ 9)) none none none none none) 1 0,
          [], true, 1, 1, 1, false⟩ := by
  refine ⟨(C6_memory_error [[NC.A]] 1 1 0).1 .apriori, ?stay⟩
  exact (C6_memory_error [] 0 0 0).2
    ⟨Tree.node [] (some (10 ^ 9)) none none none none none,
      [], true, 0, 0, 0, false⟩ rfl (by decide)

/-- C7: `increment_count` is total: when the path is absent the trie is
returned unchanged (the internal PatternNotFound never escapes), and when
the path is present exactly the count of its node is updated by the given
delta. -/
theorem C7_increment_total (t : Tree) (s : Pat) (delta : Int) :
    (t.memP s = false → t.increment_count s delta = t) ∧
    (∀ q, (t.increment_count s delta).countAt q =
      if q = s ∧ t.memP s then some ((t.countAt s).getD 0 + delta)
      else t.countAt q) := by
  exact ⟨fun h => Tree.increment_of_not_mem delta h,
    fun q => Tree.countAt_increment t s delta q⟩

theorem C7_increment_total_witness :
    (Tree.leaf []).increment_count [NC.A] 5 = Tree.leaf [] ∧
    ((Tree.leaf []).increment_count [NC.A] 5).countAt [NC.A]
      = (if [NC.A] = ([NC.A] : Pat) ∧ (Tree.leaf []).memP [NC.A]
         then some (((Tree.leaf []).countAt [NC.A]).getD 0 + 5)
         else (Tree.leaf []).countAt [NC.A]) :=
  ⟨(C7_increment_total (Tree.leaf []) [NC.A] 5).1 (by decide),
   (C7_increment_total (Tree.leaf []) [NC.A] 5).2 [NC.A]⟩

end FSPM

namespace FSPM

/-- C9: a node without a count attribute is never frequent for any
threshold, including zero, so `all_patterns_at_least` yields only nodes
that carry a count; and a delta of any sign, in particular a negative one,
shifts the stored count by exactly that amount. -/
theorem C9_edge_policies (t : Tree) (thrd : Int) :
    (t.count = none → t.has_count_at_least thrd = false) ∧
    (∀ p c, (p, c) ∈ t.all_patterns_at_least thrd →
      ∃ n, n ∈ t.all_nodes ∧ n.count = some c ∧ n.seq = p) ∧
    (∀ (s : Pat) (delta : Int), t.memP s = true →
      (t.increment_count s delta).countAt s
        = some ((t.countAt s).getD 0 + delta)) := by
  refine ⟨?nocount, ?yield, ?delta⟩
  · intro h
    rw [has_count_at_least_eq_freqB, freqB, Tree.countAt_nil, h]
    rfl
  · intro p c h
    rw [Tree.all_patterns_at_least, List.mem_filterMap] at h
    rcases h with ⟨n, hn, he⟩
    by_cases hcnt : n.has_count_at_least thrd = true
    · rw [if_pos hcnt] at he
      rcases Option.map_eq_some'.1 he with ⟨c0, hc0, hpc⟩
      have h1 : n.seq = p := by
        have := congrArg Prod.fst hpc
        simpa using this
      have h2 : c0 = c := by
        have := congrArg Prod.snd hpc
        simpa using this
      exact ⟨n, hn, by rw [hc0, h2], h1⟩
    · rw [if_neg hcnt] at he
      cases he
  · intro s delta hm
    rw [Tree.countAt_increment, if_pos (And.intro rfl hm)]

theorem C9_edge_policies_witness :
    (Tree.leaf []).has_count_at_least 0 = false ∧
    (∃ n, n ∈ (Tree.node [] (some 3) none none none none none).all_nodes ∧
      n.count = some 3 ∧ n.seq = []) ∧
    ((Tree.node [] (some 3) none none none none none).increment_count []
        (-2)).countAt []
      = some (((Tree.node [] (some 3) none none none none
          none).countAt []).getD 0 + (-2)) :=
  ⟨(C9_edge_policies (Tree.leaf []) 0).1 rfl,
   (C9_edge_policies (Tree.node [] (some 3) none none none none none)
     0).2.1 [] 3 (by decide),
   (C9_edge_policies (Tree.node [] (some 3) none none none none none)
     0).2.2 [] (-2) rfl⟩

/-- C10: a position pass never grows the queue: an empty queue is
returned unchanged together with the untouched trie, and a non-empty
queue strictly shrinks (at most one record per adjacent input pair). -/
theorem C10_queue_shrinks (queue : List QRec) (t : Tree) (len : Nat)
    (thrd : Int) :
    (queue = [] → run_position queue t len thrd = ([], t)) ∧
    (queue ≠ [] →
      (run_position queue t len thrd).1.length < queue.length) := by
  constructor
  · rintro rfl
    rfl
  · intro hne
    cases queue with
    | nil => exact absurd rfl hne
    | cons cur rest =>
      rw [run_position_cons_eq]
      exact adjEmits_length_lt cur rest

theorem C10_queue_shrinks_witness :
    run_position ([] : List QRec) (Tree.leaf []) 2 1 = ([], Tree.leaf []) ∧
    (run_position [(0, 0, 0), (0, 1, 0)] (Tree.leaf []) 2 1).1.length
      < ([(0, 0, 0), (0, 1, 0)] : List QRec).length :=
  ⟨(C10_queue_shrinks [] (Tree.leaf []) 2 1).1 rfl,
   (C10_queue_shrinks [(0, 0, 0), (0, 1, 0)] (Tree.leaf []) 2 1).2
     (by decide)⟩

end FSPM
